import Mathlib

/-!
# Verification development for the rigid-body CCD core

Shallow embedding of the interval root finder (`src/interval/interval_root_finder.cpp`,
`src/interval/interval.hpp`), of the line search (`src/solvers/line_search.cpp`), of the
bounding boxes and hash grid (`src/ccd/hash_grid.hpp`, `src/ccd/rigid_body_hash_grid.cpp`),
of the scene reader (`src/io/read_rb_scene.cpp`), of the time steppers
(`src/time_stepper`), of the Newton direction (`src/solvers/newton_solver.hpp`) and of
the projection to the positive semi-definite cone (`src/utils/eigen_ext.cpp`).

Scalars of type `double` are embedded as rationals: arithmetic is exact, and NaN and
infinities are not represented.  Rounding is represented at the one operation on which
the end of the search loop depends, the median of an interval: the root finder takes the
function `median` as a parameter, `Interval.midpoint` being the exact one and
`median_double` the one computed on `double`.  The one place where the source uses an
infinite value, the initial `earliest_root`, is embedded as `none`.  Values of type `int`
are integers, and where the source computes with them the 32-bit wrap-around is explicit
(`wrap_int`).  Exceptions and failed assertions are values of `Except`.
-/

namespace ccd

/-! ## Intervals (the part of `boost::numeric::interval` the sources use) -/

/-- Modelled from the spec: the library interval type behind `ccd::Interval`, a closed
interval `[lo, hi]`. -/
structure Interval where
  lo : ℚ
  hi : ℚ
deriving DecidableEq

instance : Inhabited Interval := ⟨⟨0, 0⟩⟩

namespace Interval

/-- Modelled from the spec: the library accessor `lower()`. -/
def lower (x : Interval) : ℚ := x.lo

/-- Modelled from the spec: the library function `width`, upper minus lower. -/
def width (x : Interval) : ℚ := x.hi - x.lo

/-- The midpoint `(lo + hi) / 2`: the value of the library function `median` in exact
arithmetic. -/
def midpoint (x : Interval) : ℚ := (x.lo + x.hi) / 2

/-- Modelled from the spec: the library function `bisect`, which returns the pair of the
lower half `[lo, median]` and the upper half `[median, hi]`.  The library function
`median` is a parameter: on `double` it is the midpoint rounded to a representable
number, and this is the one place where the rounding decides what the code does (whether
the search ends). -/
def bisect (median : Interval → ℚ) (x : Interval) : Interval × Interval :=
  (⟨x.lo, median x⟩, ⟨median x, x.hi⟩)

/-- Modelled from the spec: the library predicate `zero_in` on one interval (zero
membership), lower is not positive and upper is not negative. -/
def zero_in (x : Interval) : Bool := !decide (0 < x.lo) && !decide (x.hi < 0)

/-- Well-formed interval: `lo ≤ hi` (the invariant the library type maintains). -/
def WF (x : Interval) : Prop := x.lo ≤ x.hi

/-- Interval inclusion `x ⊆ y`. -/
def Subset (x y : Interval) : Prop := y.lo ≤ x.lo ∧ x.hi ≤ y.hi

/-- What the library guarantees of `median`, rounded or not: the median of a well-formed
interval lies between its bounds. -/
def MedianInside (median : Interval → ℚ) : Prop :=
  ∀ x : Interval, x.WF → x.lo ≤ median x ∧ median x ≤ x.hi

end Interval

/-- Embedding of `Eigen::VectorX3I`: the list of the coefficients. -/
abbrev Box := List Interval

/-- Coefficient access `x(i)`. -/
def coeff (x : Box) (i : ℕ) : Interval := x.getD i default

/-- Embedding of `width(x)` of `interval.hpp`: the widths of all coefficients. -/
def width (x : Box) : List ℚ := x.map Interval.width

/-- Embedding of `zero_in(x)` of `interval.hpp`: scan the coefficients in order and
return false at the first one that does not contain zero. -/
def zero_in : Box → Bool
  | [] => true
  | a :: rest => if !a.zero_in then false else zero_in rest

/-! ## The n-D interval root finder -/

/-- Embedding of `(widths.array() <= tol.array()).all()`. -/
def all_le (widths tol : List ℚ) : Bool :=
  (List.range widths.length).all fun i => decide (widths.getD i 0 ≤ tol.getD i 0)

/-- One pass of the body of the loop that selects the split axis: `split_i` is the
current choice (`none` for `-1`) and `i` the loop index. -/
def split_update (widths tol : List ℚ) (split_i : Option ℕ) (i : ℕ) : Option ℕ :=
  match split_i with
  | none => if widths.getD i 0 > tol.getD i 0 then some i else none
  | some j =>
    if widths.getD i 0 > tol.getD i 0
        ∧ widths.getD i 0 * tol.getD j 0 > widths.getD j 0 * tol.getD i 0 then some i
    else some j

/-- Embedding of the loop `for (int i = 0; i < x.size(); i++)` that selects the axis
to bisect; `none` stands for `split_i == -1`. -/
def split_axis (widths tol : List ℚ) : Option ℕ :=
  (List.range widths.length).foldl (split_update widths tol) none

/-- The two boxes pushed by the split step, first half and second half of the
coefficient `split_i`. -/
def halves (median : Interval → ℚ) (x : Box) (split_i : ℕ) : Box × Box :=
  let h := (coeff x split_i).bisect median
  (x.set split_i h.1, x.set split_i h.2)

/-- State of the search loop: the work stack `xs` (top first), `earliest_root`
(`none` for the initial vector of infinite intervals) and `found_root`. -/
structure State where
  xs : List Box
  earliest_root : Option Box
  found_root : Bool

/-- Embedding of the test `x[0].lower() >= earliest_root[0].lower()`; it is false
while `earliest_root` is still the infinite vector. -/
def not_before (x : Box) (earliest_root : Option Box) : Bool :=
  match earliest_root with
  | none => false
  | some e => decide ((coeff x 0).lower ≥ (coeff e 0).lower)

/-- Embedding of the loop body, for the box `x` just popped off the stack; `s` is
the state after the pop. -/
def loop_body (median : Interval → ℚ) (f : Box → Box)
    (constraint_predicate is_domain_valid : Box → Bool)
    (tol : List ℚ) (x : Box) (s : State) : State :=
  if not_before x s.earliest_root then s
  else if !is_domain_valid x then s
  else
    let y := f x
    if !zero_in y then s
    else
      let widths := width x
      if all_le widths tol then
        if constraint_predicate x then
          { s with earliest_root := some x, found_root := true }
        else s
      else
        match split_axis widths tol with
        | none => s
        | some split_i =>
          { s with xs := (halves median x split_i).1 :: (halves median x split_i).2 :: s.xs }

/-- Embedding of the loop `for (size_t iter = 0; !xs.empty(); iter++)`: the loop is
run for at most `fuel` iterations, and `none` means that the stack was not yet empty
after that many. -/
def run (median : Interval → ℚ) (f : Box → Box)
    (constraint_predicate is_domain_valid : Box → Bool)
    (tol : List ℚ) : ℕ → State → Option State
  | 0, s =>
    match s.xs with
    | [] => some s
    | _ :: _ => none
  | fuel + 1, s =>
    match s.xs with
    | [] => some s
    | x :: rest =>
      run median f constraint_predicate is_domain_valid tol fuel
        (loop_body median f constraint_predicate is_domain_valid tol x { s with xs := rest })

/-- Embedding of `tol(0) /= 1e2`. -/
def reduce_tol : List ℚ → List ℚ
  | [] => []
  | t :: rest => t / 100 :: rest

/-- The box `x_tol` with `x_tol(i) = Interval(0, tol(i))`. -/
def x_tol (tol : List ℚ) : Box := tol.map fun t => ⟨0, t⟩

/-- The tolerance the loop works with: `tol` after the check of the start. -/
def effective_tol (f : Box → Box) (tol : List ℚ) : List ℚ :=
  if zero_in (f (x_tol tol)) then reduce_tol tol else tol

/-- Initial state: the stack holds `x0`, no root found. -/
def init (x0 : Box) : State := ⟨[x0], none, false⟩

/-- Embedding of the n-D `interval_root_finder` with constraint predicate and domain
predicate.  The result is the returned flag with the final value of the output `x`
(`none` for the vector of infinite intervals); `max_iterations` is accepted as in the
source. -/
def interval_root_finder (median : Interval → ℚ) (fuel : ℕ) (f : Box → Box)
    (constraint_predicate is_domain_valid : Box → Bool)
    (x0 : Box) (tol : List ℚ) (max_iterations : ℤ) : Option (Bool × Option Box) :=
  let _ := max_iterations
  (run median f constraint_predicate is_domain_valid (effective_tol f tol) fuel
      (init x0)).map
    fun s => (s.found_root, s.earliest_root)

/-! ## The bisection tree of the search, used to state what the finder returns -/

/-- A box is well formed when all its coefficients are. -/
def BoxWF (x : Box) : Prop := ∀ a ∈ x, a.WF

/-- Box inclusion: same size, and inclusion on every coefficient. -/
def SubBox (x y : Box) : Prop :=
  x.length = y.length ∧ ∀ i, (coeff x i).Subset (coeff y i)

/-- Componentwise `width(x) ≤ tol`, as a proposition. -/
def WithinTol (x : Box) (tol : List ℚ) : Prop :=
  ∀ i, i < x.length → (coeff x i).width ≤ tol.getD i 0

/-- The box `y` is reached from `x` by the split rule: every box on the way from `x`
(inclusive) to `y` (exclusive) passes the domain predicate, has zero in its image,
exceeds the tolerance, and is followed by one of its two halves on the split axis. -/
inductive Descends (median : Interval → ℚ) (f : Box → Box) (is_domain_valid : Box → Bool)
    (tol : List ℚ) : Box → Box → Prop
  | refl (x : Box) : Descends median f is_domain_valid tol x x
  | first {x y : Box} {i : ℕ} :
      is_domain_valid x = true → zero_in (f x) = true →
      all_le (width x) tol = false → split_axis (width x) tol = some i →
      Descends median f is_domain_valid tol (halves median x i).1 y →
      Descends median f is_domain_valid tol x y
  | second {x y : Box} {i : ℕ} :
      is_domain_valid x = true → zero_in (f x) = true →
      all_le (width x) tol = false → split_axis (width x) tol = some i →
      Descends median f is_domain_valid tol (halves median x i).2 y →
      Descends median f is_domain_valid tol x y

/-- The conditions under which the loop records a box: it passes the domain
predicate, has zero in its image, is within tolerance and passes the constraint
predicate. -/
def Accepts (f : Box → Box) (constraint_predicate is_domain_valid : Box → Bool)
    (tol : List ℚ) (x : Box) : Prop :=
  is_domain_valid x = true ∧ zero_in (f x) = true ∧ all_le (width x) tol = true
    ∧ constraint_predicate x = true

/-- Accepted leaf of the bisection tree of `x0`. -/
def AcceptedLeaf (median : Interval → ℚ) (f : Box → Box)
    (constraint_predicate is_domain_valid : Box → Bool) (tol : List ℚ) (x0 x : Box) : Prop :=
  Descends median f is_domain_valid tol x0 x
    ∧ Accepts f constraint_predicate is_domain_valid tol x

/-! ## Loop invariants and the depth bound used in the proofs -/

/-- Loop invariant: the stack holds boxes of the bisection tree of `x0`, and
`found_root` is set exactly when `earliest_root` is an accepted leaf. -/
def InvReach (median : Interval → ℚ) (f : Box → Box) (c d : Box → Bool) (tol : List ℚ)
    (x0 : Box) (s : State) : Prop :=
  (∀ b ∈ s.xs, Descends median f d tol x0 b)
    ∧ (s.found_root = true →
        ∃ x, s.earliest_root = some x ∧ AcceptedLeaf median f c d tol x0 x)
    ∧ (s.found_root = false → s.earliest_root = none)

/-- Loop invariant for one accepted leaf `L` of a well-formed start box: the recorded
root is not later than `L`, or `L` lies below a box that is still on the stack. -/
def InvEarliest (median : Interval → ℚ) (f : Box → Box) (d : Box → Bool) (tol : List ℚ)
    (L : Box) (s : State) : Prop :=
  (∀ b ∈ s.xs, BoxWF b)
    ∧ ((∃ e, s.earliest_root = some e ∧ (coeff e 0).lower ≤ (coeff L 0).lower)
      ∨ ∃ b ∈ s.xs, Descends median f d tol b L)

/-- Depth bound of a box: on every axis the width is at most the tolerance times a
power of two, and the exponents add up to at most `N`. -/
def DepthLe (tol : List ℚ) (N : ℕ) (x : Box) : Prop :=
  ∃ ks : ℕ → ℕ, (∑ i in Finset.range x.length, ks i) ≤ N
    ∧ ∀ i, i < x.length → (coeff x i).width ≤ tol.getD i 0 * 2 ^ ks i

/-- The bisection tree below `x` is finite: `x` is discarded or within tolerance (a
leaf), or it is split and the trees below both halves are finite. -/
inductive FiniteTree (median : Interval → ℚ) (f : Box → Box) (is_domain_valid : Box → Bool)
    (tol : List ℚ) : Box → Prop
  | leaf {x : Box} :
      (is_domain_valid x = false ∨ zero_in (f x) = false ∨ all_le (width x) tol = true
        ∨ split_axis (width x) tol = none) →
      FiniteTree median f is_domain_valid tol x
  | node {x : Box} {i : ℕ} :
      split_axis (width x) tol = some i →
      FiniteTree median f is_domain_valid tol (halves median x i).1 →
      FiniteTree median f is_domain_valid tol (halves median x i).2 →
      FiniteTree median f is_domain_valid tol x

/-! ## The median on `double` -/

/-- Rounding of a rational to the nearest integer, ties to the even one. -/
def round_half_even (r : ℚ) : ℤ :=
  if r - ⌊r⌋ < 1 / 2 then ⌊r⌋
  else if 1 / 2 < r - ⌊r⌋ then ⌊r⌋ + 1
  else if ⌊r⌋ % 2 = 0 then ⌊r⌋ else ⌊r⌋ + 1

/-- Rounding of a real number to the nearest `double` (IEEE 754 binary64: 53 significant
bits, round to nearest, ties to even), for the range of the normal numbers; overflow and
subnormal numbers are not represented. -/
def round_to_double (q : ℚ) : ℚ :=
  if q = 0 then 0
  else (round_half_even (q / 2 ^ (Int.log 2 |q| - 52)) : ℚ) * 2 ^ (Int.log 2 |q| - 52)

/-- The library function `median` on an interval of `double`: `(lower + upper) / 2` with
each operation rounded to the nearest `double` (library code; the rounding policy is not
under src, and the stall of the loop is shown for every rounding as well). -/
def median_double (x : Interval) : ℚ :=
  round_to_double (round_to_double (x.lo + x.hi) / 2)

/-! ## The 1D interval root finder -/

/-- Embedding of the 1D `interval_root_finder` with a constraint predicate: it calls
the n-D routine on the 1-vectors of `x0` and `tol` with a domain predicate that is always
true, and assigns `x_vec(0)` to the output `x` when a root was found.  The result is the
returned flag with the final value of `x`.  (The branch for a found root with the
infinite vector is never taken, since a found root is a box of the tree; it leaves `x`
as it is.) -/
def interval_root_finder_1d (median : Interval → ℚ) (fuel : ℕ) (f : Interval → Interval)
    (constraint_predicate : Interval → Bool) (x0 : Interval) (tol : ℚ) (x : Interval)
    (max_iterations : ℤ) : Option (Bool × Interval) :=
  let x0_vec : Box := [x0]
  let tol_vec : List ℚ := [tol]
  match interval_root_finder median fuel (fun x => [f (coeff x 0)])
      (fun x => constraint_predicate (coeff x 0)) (fun _ => true) x0_vec tol_vec
      max_iterations with
  | none => none
  | some (found_root, x_vec) =>
    if found_root then
      match x_vec with
      | some v => some (true, coeff v 0)
      | none => some (true, x)
    else some (false, x)

/-- Embedding of the 1D `interval_root_finder` without a constraint predicate. -/
def interval_root_finder_1d_plain (median : Interval → ℚ) (fuel : ℕ)
    (f : Interval → Interval) (x0 : Interval) (tol : ℚ) (x : Interval)
    (max_iterations : ℤ) : Option (Bool × Interval) :=
  interval_root_finder_1d median fuel f (fun _ => true) x0 tol x max_iterations

/-! ## Line search (`src/solvers/line_search.cpp`) -/

/-- Embedding of `Eigen::VectorXd`. -/
abbrev Vec := List ℚ

/-- Modelled from the spec: the linear-algebra primitive vector sum. -/
def vadd (a b : Vec) : Vec := List.zipWith (fun p q => p + q) a b

/-- Modelled from the spec: the linear-algebra primitive scalar times vector. -/
def smul (s : ℚ) (v : Vec) : Vec := v.map fun p => s * p

/-- Modelled from the spec: the linear-algebra primitive product of a transposed vector
with a vector. -/
def dot (a b : Vec) : ℚ := (List.zipWith (fun p q => p * q) a b).sum

/-- The point `x + step_length * dir`. -/
def step_point (x dir : Vec) (step_length : ℚ) : Vec := vadd x (smul step_length dir)

/-- Embedding of the closure `minimization_rule` of `constrained_line_search`, as a
function of the current `step_length`: the Armijo rule when `armijo_rule_coeff != 0`,
else strict decrease. -/
def minimization_rule (x dir : Vec) (f : Vec → ℚ) (grad_fx : Vec)
    (armijo_rule_coeff : ℚ) (step_length : ℚ) : Bool :=
  let fx := f x
  if armijo_rule_coeff ≠ 0 then
    let wolfe1 := dot (smul armijo_rule_coeff dir) grad_fx
    let f_xi := f (step_point x dir step_length)
    let f_wolfe := fx + step_length * wolfe1
    decide (f_xi ≤ f_wolfe)
  else
    let fxi := f (step_point x dir step_length)
    decide (fxi < fx)

/-- Embedding of the `while (step_norm >= min_step_length)` loop, run for at most
`fuel` passes of the loop body; `none` means the loop had not ended by then.
`norm` is the library function `Eigen::norm`, and `step_norm` is always the norm of
`step_length * dir` for the current `step_length`. -/
def line_search_loop (norm : Vec → ℚ) (x dir : Vec) (f : Vec → ℚ) (grad_fx : Vec)
    (constraint : Vec → Bool) (min_step_length armijo_rule_coeff : ℚ) :
    ℕ → ℚ → Option (Bool × ℚ)
  | 0, step_length =>
    if norm (smul step_length dir) ≥ min_step_length then none
    else some (false, step_length)
  | fuel + 1, step_length =>
    if norm (smul step_length dir) ≥ min_step_length then
      let min_rule := minimization_rule x dir f grad_fx armijo_rule_coeff step_length
      let cstr := constraint (step_point x dir step_length)
      if min_rule && cstr then some (true, step_length)
      else
        line_search_loop norm x dir f grad_fx constraint min_step_length armijo_rule_coeff
          fuel (step_length / 2)
    else some (false, step_length)

/-- Embedding of `constrained_line_search`: the returned flag with the final value of
`step_length`. -/
def constrained_line_search (norm : Vec → ℚ) (fuel : ℕ) (x dir : Vec) (f : Vec → ℚ)
    (grad_fx : Vec) (constraint : Vec → Bool) (step_length : ℚ)
    (min_step_length armijo_rule_coeff : ℚ) : Option (Bool × ℚ) :=
  line_search_loop norm x dir f grad_fx constraint min_step_length armijo_rule_coeff
    fuel step_length

/-- Embedding of `line_search` with a gradient: `constrained_line_search` with a
constraint that is always true. -/
def line_search (norm : Vec → ℚ) (fuel : ℕ) (x dir : Vec) (f : Vec → ℚ) (grad_fx : Vec)
    (step_length : ℚ) (min_step_length armijo_rule_coeff : ℚ) : Option (Bool × ℚ) :=
  constrained_line_search norm fuel x dir f grad_fx (fun _ => true) step_length
    min_step_length armijo_rule_coeff

/-- Embedding of `line_search` without a gradient: `line_search` with the zero
gradient and `armijo_rule_coeff = 0`. -/
def line_search_plain (norm : Vec → ℚ) (fuel : ℕ) (x dir : Vec) (f : Vec → ℚ)
    (step_length : ℚ) (min_step_length : ℚ) : Option (Bool × ℚ) :=
  line_search norm fuel x dir f (List.replicate dir.length 0) step_length
    min_step_length 0

/-- The step length after `k` halvings. -/
def halved (s0 : ℚ) (k : ℕ) : ℚ := s0 / 2 ^ k

/-- The step after `k` halvings passes the acceptance rule and the constraint. -/
def accepted (x dir : Vec) (f : Vec → ℚ) (grad_fx : Vec) (constraint : Vec → Bool)
    (armijo_rule_coeff s0 : ℚ) (k : ℕ) : Bool :=
  minimization_rule x dir f grad_fx armijo_rule_coeff (halved s0 k)
    && constraint (step_point x dir (halved s0 k))

/-- The step after `k` halvings has a norm below `min_step_length`. -/
def too_small (norm : Vec → ℚ) (dir : Vec) (min_step_length s0 : ℚ) (k : ℕ) : Bool :=
  decide (norm (smul (halved s0 k) dir) < min_step_length)

/-- The norm of a vector of size one, the absolute value of its coefficient (used for
concrete instances). -/
def norm1 (v : Vec) : ℚ := |v.headD 0|

/-- An interval function used for concrete instances: shift by `-3/2`. -/
def shift_f (x : Box) : Box := x.map fun a => ⟨a.lo - 3 / 2, a.hi - 3 / 2⟩

/-! ## AABB and hash items (`src/ccd/hash_grid.hpp`) -/

/-- Modelled from the spec: the linear-algebra primitive vector difference. -/
def vsub (a b : Vec) : Vec := List.zipWith (fun p q => p - q) a b

/-- Modelled from the spec: the linear-algebra primitive vector divided by a scalar. -/
def vdiv (v : Vec) (s : ℚ) : Vec := v.map fun p => p / s

/-- Modelled from the spec: the coefficient-wise minimum `a.array().min(b.array())` of
two vectors of the same size. -/
def cwise_min (a b : Vec) : Vec := List.zipWith (fun p q => Min.min p q) a b

/-- Modelled from the spec: the coefficient-wise maximum `a.array().max(b.array())` of
two vectors of the same size. -/
def cwise_max (a b : Vec) : Vec := List.zipWith (fun p q => Max.max p q) a b

/-- Modelled from the spec: the coefficient-wise test `(a.array() <= b.array()).all()`. -/
def cwise_le (a b : Vec) : Bool := (List.zipWith (fun p q => decide (p ≤ q)) a b).all id

/-- Embedding of the class `AABB`: the fields `min`, `max`, `half_extent`, `center` and
`dim`. -/
structure AABB where
  min : Vec
  max : Vec
  half_extent : Vec
  center : Vec
  dim : ℤ

/-- The default constructor `AABB()` leaves the vectors empty. -/
instance : Inhabited AABB := ⟨⟨[], [], [], [], 0⟩⟩

/-- The two assertions of the constructor `AABB(min, max)`: `min <= max` on every
coefficient, and `max.size() == dim`. -/
def AABB.asserts (min max : Vec) : Bool :=
  cwise_le min max && decide ((max.length : ℤ) = (min.length : ℤ))

/-- Embedding of the constructor `AABB(min, max)`: the fields it sets (its assertions are
`AABB.asserts`). -/
def AABB.from_min_max (min max : Vec) : AABB :=
  let half_extent := vdiv (vsub max min) 2
  let center := vadd min half_extent
  { min := min, max := max, half_extent := half_extent, center := center,
    dim := (min.length : ℤ) }

/-- Embedding of the union constructor `AABB(aabb1, aabb2)`, which delegates to
`AABB(min, max)` with the coefficient-wise minimum of the two `min` and maximum of the
two `max`. -/
def AABB.from_union (aabb1 aabb2 : AABB) : AABB :=
  AABB.from_min_max (cwise_min aabb1.min aabb2.min) (cwise_max aabb1.max aabb2.max)

/-- The AABBs that the two constructors build when their assertions hold. -/
inductive AABB.Built : AABB → Prop
  | from_min_max (min max : Vec) :
      AABB.asserts min max = true → AABB.Built (AABB.from_min_max min max)
  | from_union (a b : AABB) :
      AABB.Built a → AABB.Built b → AABB.Built (AABB.from_union a b)

/-- Coefficient `i` of a vector of scalars. -/
def vcoeff (v : Vec) (i : ℕ) : ℚ := v.getD i 0

/-- The class invariant of `AABB`: all vectors have `dim` coefficients, `min <= max`,
`half_extent = (max - min) / 2` and `center = min + half_extent = (min + max) / 2` on
every coefficient. -/
def AABB.Invariant (b : AABB) : Prop :=
  (b.min.length : ℤ) = b.dim ∧ (b.max.length : ℤ) = b.dim
    ∧ (b.half_extent.length : ℤ) = b.dim ∧ (b.center.length : ℤ) = b.dim
    ∧ ∀ i, i < b.min.length →
        vcoeff b.min i ≤ vcoeff b.max i
        ∧ vcoeff b.half_extent i = (vcoeff b.max i - vcoeff b.min i) / 2
        ∧ vcoeff b.center i = vcoeff b.min i + vcoeff b.half_extent i
        ∧ vcoeff b.center i = (vcoeff b.min i + vcoeff b.max i) / 2

/-- The box `outer` contains the box `inner`: same size, and on every coefficient the
bounds of `inner` lie within those of `outer`. -/
def AABB.Contains (outer inner : AABB) : Prop :=
  outer.min.length = inner.min.length ∧ outer.max.length = inner.max.length
    ∧ ∀ i, i < inner.min.length →
        vcoeff outer.min i ≤ vcoeff inner.min i ∧ vcoeff inner.max i ≤ vcoeff outer.max i

/-- Embedding of the class `HashItem`: `key`, `id` and `aabb`. -/
structure HashItem where
  key : ℤ
  id : ℤ
  aabb : AABB

/-- Embedding of `HashItem::operator<`. -/
def HashItem.lt (a other : HashItem) : Bool :=
  if a.key = other.key then decide (a.id < other.id)
  else decide (a.key < other.key)

/-- Arithmetic of the 32-bit `int`: the value of an `int` operation whose mathematical
result is `n` (two's complement wrap-around). -/
def wrap_int (n : ℤ) : ℤ := (n + 2147483648) % 4294967296 - 2147483648

/-- The two assertions of `HashGrid::hash`. -/
def HashGrid.hash_asserts (m_gridSize x y z : ℤ) : Bool :=
  (decide (x ≥ 0) && decide (y ≥ 0) && decide (z ≥ 0))
    && (decide (x < m_gridSize) && decide (y < m_gridSize) && decide (z < m_gridSize))

/-- Embedding of `HashGrid::hash`: `(z * m_gridSize + y) * m_gridSize + x`, where every
operation is an `int` operation, widened to `long` on return. -/
def HashGrid.hash (m_gridSize x y z : ℤ) : ℤ :=
  wrap_int (wrap_int (wrap_int (wrap_int (z * m_gridSize) + y) * m_gridSize) + x)

/-! ## Rigid-body hash grid (`src/ccd/rigid_body_hash_grid.cpp`) -/

/-- Modelled from the spec: the library accessor `upper()`. -/
def Interval.upper (x : Interval) : ℚ := x.hi

/-- Modelled from the spec: the library function `hull(a, b)`, the smallest interval that
contains both. -/
def Interval.hull (a b : Interval) : Interval := ⟨Min.min a.lo b.lo, Max.max a.hi b.hi⟩

/-- Embedding of `Eigen::MatrixX<Interval>`: the number of columns and the rows. -/
structure MatrixXI where
  cols : ℕ
  data : List Box

/-- Number of rows `rows()`. -/
def MatrixXI.rows (m : MatrixXI) : ℕ := m.data.length

/-- Coefficient access `m(i, j)`. -/
def MatrixXI.entry (m : MatrixXI) (i j : ℕ) : Interval := coeff (m.data.getD i []) j

/-- Embedding of the data members of `HashGrid`. -/
structure HashGrid where
  m_cellSize : ℚ
  m_gridSize : ℤ
  m_domainMin : Vec
  m_domainMax : Vec
  m_vertexItems : List HashItem
  m_edgeItems : List HashItem
  m_faceItems : List HashItem

/-- Embedding of the inner loop of `RigidBodyHashGrid::resize` over the columns `j` of
row `i`: the state is `mesh_extents` with `max_side_width`, which starts at `0`. -/
def resize_row (vertices : MatrixXI) (i : ℕ) (mesh_extents : Box) : Box × ℚ :=
  (List.range vertices.cols).foldl
    (fun (st : Box × ℚ) j =>
      (st.1.set j
          (if i = 0 then vertices.entry i j
           else Interval.hull (coeff st.1 j) (vertices.entry i j)),
        Max.max st.2 (vertices.entry i j).width))
    (mesh_extents, 0)

/-- Embedding of the outer loop of `RigidBodyHashGrid::resize` over the rows: the state is
`mesh_extents` (a vector of `dim` default intervals at the start) with the running sum
`average_displacement_length`. -/
def resize_extents (vertices : MatrixXI) (dim : ℕ) : Box × ℚ :=
  (List.range vertices.rows).foldl
    (fun (st : Box × ℚ) i =>
      ((resize_row vertices i st.1).1, st.2 + (resize_row vertices i st.1).2))
    (List.replicate dim default, 0)

/-- Embedding of `RigidBodyHashGrid::resize`.  `vertices` is the matrix that
`compute_vertices_intervals` returns for the bodies and poses, `dim` and
`average_edge_length` are `bodies.dim()` and `bodies.average_edge_length`, and
`HashGrid_resize` is `HashGrid::resize(min, max, cellSize)`, which is called last. -/
def RigidBodyHashGrid.resize (HashGrid_resize : HashGrid → Vec → Vec → ℚ → HashGrid)
    (grid : HashGrid) (dim : ℕ) (average_edge_length : ℚ) (vertices : MatrixXI)
    (inflation_radius : ℚ) : HashGrid :=
  let mesh_extents := (resize_extents vertices dim).1
  let average_displacement_length := (resize_extents vertices dim).2
  let min := mesh_extents.map fun e => e.lower - inflation_radius
  let max := mesh_extents.map fun e => e.upper + inflation_radius
  let average_displacement_length := average_displacement_length / (vertices.rows : ℚ)
  let cell_size :=
    Max.max average_displacement_length average_edge_length + inflation_radius
  HashGrid_resize grid min max cell_size

/-- The width `w` is the largest coordinate width of the interval position `row`. -/
def IsLargestWidth (row : Box) (w : ℚ) : Prop :=
  (∃ j, j < row.length ∧ (coeff row j).width = w)
    ∧ ∀ j, j < row.length → (coeff row j).width ≤ w

/-- Embedding of the inner loop of `RigidBodyHashGrid::addBodies` over the columns `j` of
row `i`, which sets `min(j)` and `max(j)`. -/
def vertex_bounds (vertices : MatrixXI) (i : ℕ) (inflation_radius : ℚ) (mm : Vec × Vec) :
    Vec × Vec :=
  (List.range vertices.cols).foldl
    (fun (st : Vec × Vec) j =>
      (st.1.set j ((vertices.entry i j).lower - inflation_radius),
        st.2.set j ((vertices.entry i j).upper + inflation_radius)))
    mm

/-- Embedding of the loop of `RigidBodyHashGrid::addBodies` that fills `vertices_aabb`:
the state is the pair `min`, `max` (vectors of size `dim`) with the boxes built so far. -/
def vertices_aabb (vertices : MatrixXI) (dim : ℕ) (inflation_radius : ℚ) : List AABB :=
  ((List.range vertices.rows).foldl
    (fun (st : (Vec × Vec) × List AABB) i =>
      (vertex_bounds vertices i inflation_radius st.1,
        st.2 ++ [AABB.from_min_max (vertex_bounds vertices i inflation_radius st.1).1
          (vertex_bounds vertices i inflation_radius st.1).2]))
    ((List.replicate dim 0, List.replicate dim 0), [])).2

/-- Coefficient access `m(i, j)` of an integer matrix given by its rows. -/
def int_entry (m : List (List ℤ)) (i j : ℕ) : ℤ := (m.getD i []).getD j 0

/-- Element access `vertices_aabb[k]` for an `int` index. -/
def aabb_at (boxes : List AABB) (k : ℤ) : AABB := boxes.getD k.toNat default

/-- Embedding of `RigidBodyHashGrid::addBodies`.  `vertices` is the matrix that
`compute_vertices_intervals` returns, `m_edges` and `m_faces` are the rows of
`bodies.m_edges` and `bodies.m_faces`, and `addElement` is `HashGrid::addElement`.  The
three tasks of `parallel_invoke` write to different buckets. -/
def RigidBodyHashGrid.addBodies
    (addElement : AABB → ℤ → List HashItem → List HashItem)
    (grid : HashGrid) (dim : ℕ) (m_edges m_faces : List (List ℤ)) (vertices : MatrixXI)
    (inflation_radius : ℚ) : HashGrid :=
  let boxes := vertices_aabb vertices dim inflation_radius
  { grid with
    m_vertexItems :=
      (List.range vertices.rows).foldl
        (fun items (i : ℕ) => addElement (aabb_at boxes (i : ℤ)) (i : ℤ) items)
        grid.m_vertexItems
    m_edgeItems :=
      (List.range m_edges.length).foldl
        (fun items (i : ℕ) =>
          addElement
            (AABB.from_union (aabb_at boxes (int_entry m_edges i 0))
              (aabb_at boxes (int_entry m_edges i 1)))
            (i : ℤ) items)
        grid.m_edgeItems
    m_faceItems :=
      (List.range m_faces.length).foldl
        (fun items (i : ℕ) =>
          addElement
            (AABB.from_union
              (AABB.from_union (aabb_at boxes (int_entry m_faces i 0))
                (aabb_at boxes (int_entry m_faces i 1)))
              (aabb_at boxes (int_entry m_faces i 2)))
            (i : ℤ) items)
        grid.m_faceItems }

/-- The box `[lower_j - r, upper_j + r]` of row `i` of `vertices`. -/
def inflated_box (vertices : MatrixXI) (inflation_radius : ℚ) (i : ℕ) : AABB :=
  AABB.from_min_max
    ((List.range vertices.cols).map fun j => (vertices.entry i j).lower - inflation_radius)
    ((List.range vertices.cols).map fun j => (vertices.entry i j).upper + inflation_radius)

/-- A stand-in for `HashGrid::resize` in concrete instances: it stores its arguments. -/
def store_resize (grid : HashGrid) (min max : Vec) (cellSize : ℚ) : HashGrid :=
  { grid with m_cellSize := cellSize, m_domainMin := min, m_domainMax := max }

/-- A stand-in for `HashGrid::addElement` in concrete instances: it appends one item with
the key `0`. -/
def store_element (aabb : AABB) (id : ℤ) (items : List HashItem) : List HashItem :=
  items ++ [⟨0, id, aabb⟩]

/-- The matrix of the concrete instances: two vertices in 2D, with the interval positions
`[0, 1] x [0, 3]` and `[2, 2] x [1, 2]`. -/
def example_vertices : MatrixXI := ⟨2, [[⟨0, 1⟩, ⟨0, 3⟩], [⟨2, 2⟩, ⟨1, 2⟩]]⟩

/-! ## Scene reader (`src/io/read_rb_scene.cpp`) -/

/-- The ways the embedded code fails: an exception thrown, or an `assert` that fails,
which aborts the program (assertions are taken to be enabled; nothing is modelled past a
failed assertion). -/
inductive Error
  | NotImplementedError (what : String)
  | AssertionFailure (what : String)
deriving DecidableEq

/-- Embedding of a dynamic Eigen matrix read from JSON: the number of columns and the
rows. -/
structure Mat (α : Type) where
  cols : ℕ
  data : List (List α)

/-- Number of coefficients `size()`, rows times columns. -/
def Mat.size {α : Type} (m : Mat α) : ℕ := m.data.length * m.cols

/-- The matrix after `resize(0, 0)`. -/
def Mat.empty {α : Type} : Mat α := ⟨0, []⟩

/-- Embedding of `args`, the defaults merged with one entry of `"rigid_bodies"`, with its
arrays as `from_json` converts them. -/
structure BodyArgs where
  mesh : String
  vertices : Mat ℚ
  faces : Mat ℤ
  edges : Mat ℤ
  density : ℚ
  is_dof_fixed : List Bool
  oriented : Bool
  position : Vec
  rotation : Vec
  linear_velocity : Vec
  angular_velocity : Vec

/-- Embedding of `physics::Pose<double>(position, rotation)`. -/
structure Pose where
  position : Vec
  rotation : Vec

/-- Modelled from the spec: `physics::RigidBody::from_points` is not under src; a rigid
body is represented by the arguments it is built from. -/
structure RigidBody where
  vertices : Mat ℚ
  faces : Mat ℤ
  edges : Mat ℤ
  pose : Pose
  velocity : Pose
  density : ℚ
  is_dof_fixed : List Bool
  is_oriented : Bool

/-- What `read_rb_scene` takes from outside the repository sources: the mesh reader, the
edge extraction, the constant `M_PI`, and the indeterminate initial values of the
uninitialised variables `ndof` and `angular_dim`. -/
structure ReaderEnv where
  read_triangle_mesh : String → Mat ℚ × Mat ℤ
  igl_edges : Mat ℤ → Mat ℤ
  M_PI : ℚ
  ndof0 : ℤ
  angular_dim0 : ℤ

/-- Modelled from the spec: `Pose::dim_to_ndof`, three degrees of freedom in 2D and six
in 3D. -/
def dim_to_ndof (dim : ℤ) : ℤ := if dim = 2 then 3 else 6

/-- Embedding of the pair of statements `assert(v.size() >= n); v.conservativeResize(n);`:
the assertion fails for a vector with fewer than `n` coefficients, and else the first `n`
coefficients are kept. -/
def conservativeResize {α : Type} (v : List α) (n : ℤ) (what : String) :
    Except Error (List α) :=
  if (v.length : ℤ) ≥ n then .ok (v.take n.toNat) else .error (Error.AssertionFailure what)

/-- State of the loop of `read_rb_scene`: the variables `dim`, `ndof`, `angular_dim`, the
output vector `rbs`, and the warnings logged by the passes completed. -/
structure ReaderState where
  dim : ℤ
  ndof : ℤ
  angular_dim : ℤ
  rbs : List RigidBody
  log : List String

/-- The matrices `vertices`, `faces`, `edges` of one body: read from the mesh file when
`mesh` is not empty, else taken from the arguments. -/
def body_geometry (env : ReaderEnv) (args : BodyArgs) : Mat ℚ × Mat ℤ × Mat ℤ :=
  if args.mesh ≠ "" then
    ((env.read_triangle_mesh args.mesh).1, (env.read_triangle_mesh args.mesh).2,
      env.igl_edges (env.read_triangle_mesh args.mesh).2)
  else (args.vertices, args.faces, args.edges)

/-- Embedding of the dimension check of the loop body (`if (dim == -1) ... else if
(dim != vertices.cols()) ...`). -/
def check_dim (vertices : Mat ℚ) (st : ReaderState) : Except Error ReaderState :=
  if st.dim = -1 then
    if vertices.cols ≠ 0 then
      .ok { st with
        dim := (vertices.cols : ℤ)
        ndof := dim_to_ndof (vertices.cols : ℤ)
        angular_dim := if (vertices.cols : ℤ) = 2 then 1 else 3 }
    else .ok st
  else if st.dim ≠ (vertices.cols : ℤ) then
    .error (Error.NotImplementedError "Mixing 2D and 3D bodies are not currently allowed.")
  else .ok st

/-- Embedding of the loop body of `read_rb_scene` for one entry: the dimension check,
the warning for faces in 2D, the five assertions on the sizes of the arrays with their
resizes, and `push_back`. -/
def read_body (env : ReaderEnv) (args : BodyArgs) (st : ReaderState) :
    Except Error ReaderState :=
  let vertices := (body_geometry env args).1
  let faces := (body_geometry env args).2.1
  let edges := (body_geometry env args).2.2
  match check_dim vertices st with
  | .error e => .error e
  | .ok st1 =>
    let ignore := decide (st1.dim = 2) && decide (faces.size ≠ 0)
    let log := if ignore then st1.log ++ ["Ignoring faces for 2D rigid body."] else st1.log
    let faces := if ignore then Mat.empty else faces
    match conservativeResize args.position st1.dim "position.size() >= dim" with
    | .error e => .error e
    | .ok position =>
    match conservativeResize args.rotation st1.angular_dim
        "rotation.size() >= angular_dim" with
    | .error e => .error e
    | .ok rotation =>
    match conservativeResize args.linear_velocity st1.dim
        "linear_velocity.size() >= dim" with
    | .error e => .error e
    | .ok linear_velocity =>
    match conservativeResize args.angular_velocity st1.angular_dim
        "angular_velocity.size() >= angular_dim" with
    | .error e => .error e
    | .ok angular_velocity =>
    match conservativeResize args.is_dof_fixed st1.ndof "is_dof_fixed.size() >= ndof" with
    | .error e => .error e
    | .ok is_dof_fixed =>
      let rotation := rotation.map fun a => a * (env.M_PI / 180)
      let angular_velocity := angular_velocity.map fun a => a * (env.M_PI / 180)
      let density := args.density
      let is_oriented := args.oriented
      let rb : RigidBody :=
        { vertices := vertices, faces := faces, edges := edges,
          pose := ⟨position, rotation⟩, velocity := ⟨linear_velocity, angular_velocity⟩,
          density := density, is_dof_fixed := is_dof_fixed, is_oriented := is_oriented }
      .ok { st1 with rbs := st1.rbs ++ [rb], log := log }

/-- The five assertions of the loop body hold for the entry, for the values `dim`, `ndof`
and `angular_dim` of the variables. -/
def SizesOk (dim ndof angular_dim : ℤ) (args : BodyArgs) : Prop :=
  (args.position.length : ℤ) ≥ dim ∧ (args.rotation.length : ℤ) ≥ angular_dim
    ∧ (args.linear_velocity.length : ℤ) ≥ dim
    ∧ (args.angular_velocity.length : ℤ) ≥ angular_dim
    ∧ (args.is_dof_fixed.length : ℤ) ≥ ndof

/-- Embedding of the loop `for (auto& jrb : scene["rigid_bodies"])`: the state when the
loop ends, or the state before the pass that failed, with the exception thrown or the
assertion failed if any. -/
def read_loop (env : ReaderEnv) : List BodyArgs → ReaderState → ReaderState × Option Error
  | [], st => (st, none)
  | args :: rest, st =>
    match read_body env args st with
    | .error e => (st, some e)
    | .ok st1 => read_loop env rest st1

/-- Embedding of `read_rb_scene`: the final value of the output vector `rbs`, and the
returned `dim`, the exception thrown or the assertion failed. -/
def read_rb_scene (env : ReaderEnv) (scene : List BodyArgs) (rbs : List RigidBody) :
    List RigidBody × Except Error ℤ :=
  let r := read_loop env scene ⟨-1, env.ndof0, env.angular_dim0, rbs, []⟩
  (r.1.rbs,
    match r.2 with
    | some e => .error e
    | none => .ok r.1.dim)

/-- Number of columns of the vertex matrix of one body. -/
def body_cols (env : ReaderEnv) (args : BodyArgs) : ℕ := (body_geometry env args).1.cols

/-! ## Time steppers (`src/time_stepper`) -/

/-- Embedding of a concrete class derived from `TimeStepper`: its `name()` and the
per-body methods `step2D`, `step3D` that it overrides (`none` when it inherits the one of
`TimeStepper`).  The bodies of the overrides are not under src and are parameters. -/
structure TimeStepper (β : Type) where
  name : String
  step2D_override : Option (β → Vec → ℚ → β)
  step3D_override : Option (β → Vec → ℚ → β)

/-- Embedding of `ExponentialEulerTimeStepper`, which overrides the per-body `step3D`. -/
def ExponentialEulerTimeStepper {β : Type} (step3D : β → Vec → ℚ → β) : TimeStepper β :=
  { name := "exponential_euler", step2D_override := none, step3D_override := some step3D }

/-- Embedding of `SympleticEulerTimeStepper`, which overrides the per-body `step2D`. -/
def SympleticEulerTimeStepper {β : Type} (step2D : β → Vec → ℚ → β) : TimeStepper β :=
  { name := "sympletic_euler", step2D_override := some step2D, step3D_override := none }

/-- Embedding of the virtual call `step2D(body, gravity, time_step)`: the override, or
`TimeStepper::step2D`, which throws. -/
def TimeStepper.step2D {β : Type} (ts : TimeStepper β) (body : β) (gravity : Vec)
    (time_step : ℚ) : Except Error β :=
  match ts.step2D_override with
  | some impl => .ok (impl body gravity time_step)
  | none =>
    .error (Error.NotImplementedError
      ("Time-stepper " ++ ts.name ++ " not implemented in 2D!"))

/-- Embedding of the virtual call `step3D(body, gravity, time_step)`: the override, or
`TimeStepper::step3D`, which throws. -/
def TimeStepper.step3D {β : Type} (ts : TimeStepper β) (body : β) (gravity : Vec)
    (time_step : ℚ) : Except Error β :=
  match ts.step3D_override with
  | some impl => .ok (impl body gravity time_step)
  | none =>
    .error (Error.NotImplementedError
      ("Time-stepper " ++ ts.name ++ " not implemented in 3D!"))

/-- Embedding of `TimeStepper::step` for one body; `dim` is `body.dim()`. -/
def TimeStepper.step {β : Type} (ts : TimeStepper β) (dim : ℤ) (body : β) (gravity : Vec)
    (time_step : ℚ) : Except Error β :=
  if dim = 2 then ts.step2D body gravity time_step
  else if dim = 3 then ts.step3D body gravity time_step
  else .error (Error.NotImplementedError "Invalid dim for timestepper!")

/-- Embedding of `TimeStepper::step2D` for an assembler: the per-body `step2D` on every
body of `bodies.m_rbs` (the first exception ends the loop). -/
def TimeStepper.step2D_bodies {β : Type} (ts : TimeStepper β) (m_rbs : List β)
    (gravity : Vec) (time_step : ℚ) : Except Error (List β) :=
  m_rbs.mapM fun body => ts.step2D body gravity time_step

/-- Embedding of `TimeStepper::step3D` for an assembler. -/
def TimeStepper.step3D_bodies {β : Type} (ts : TimeStepper β) (m_rbs : List β)
    (gravity : Vec) (time_step : ℚ) : Except Error (List β) :=
  m_rbs.mapM fun body => ts.step3D body gravity time_step

/-- Embedding of `TimeStepper::step` for an assembler; `dim` is `bodies.dim()` and `m_rbs`
its bodies. -/
def TimeStepper.step_bodies {β : Type} (ts : TimeStepper β) (dim : ℤ) (m_rbs : List β)
    (gravity : Vec) (time_step : ℚ) : Except Error (List β) :=
  if dim = 2 then ts.step2D_bodies m_rbs gravity time_step
  else if dim = 3 then ts.step3D_bodies m_rbs gravity time_step
  else .error (Error.NotImplementedError "Invalid dim for timestepper!")

/-- A stand-in for the outside of `read_rb_scene` in concrete instances. -/
def example_env : ReaderEnv :=
  { read_triangle_mesh := fun _ => (Mat.empty, Mat.empty), igl_edges := fun m => m,
    M_PI := 22 / 7, ndof0 := 0, angular_dim0 := 0 }

/-- A 2D body given by three vertices, three edges and one face. -/
def example_body_2d : BodyArgs :=
  { mesh := "", vertices := ⟨2, [[0, 0], [1, 0], [0, 1]]⟩, faces := ⟨3, [[0, 1, 2]]⟩,
    edges := ⟨2, [[0, 1], [1, 2], [2, 0]]⟩, density := 1,
    is_dof_fixed := [false, false, false, false, false, false], oriented := false,
    position := [0, 0, 0], rotation := [0, 0, 0], linear_velocity := [0, 0, 0],
    angular_velocity := [0, 0, 0] }

/-- A 3D body given by three vertices, three edges and one face. -/
def example_body_3d : BodyArgs :=
  { example_body_2d with vertices := ⟨3, [[0, 0, 0], [1, 0, 0], [0, 1, 0]]⟩ }

/-- The 2D body with a `position` array of one coefficient. -/
def example_body_short : BodyArgs :=
  { example_body_2d with position := [1] }

/-! ## Newton direction (`src/solvers/newton_solver.hpp`) -/

/-- The Schur complement of the first pivot, read from the lower triangle: the matrix
that is left to factorize after the first column has been eliminated. -/
def schur {n : ℕ} (A : Matrix (Fin (n + 1)) (Fin (n + 1)) ℚ) : Matrix (Fin n) (Fin n) ℚ :=
  fun i j => A i.succ j.succ - A i.succ 0 * A j.succ 0 / A 0 0

/-- Modelled from the spec: the sparse Cholesky solve of `A x = r` that
`compute_direction` uses ("Solve H·Δx = −∇f on free DoFs via sparse Cholesky"), which is
library code.  The factorization eliminates one column after the other and fails (`none`)
at a pivot that is not positive; the solution is obtained by substitution. -/
def cholesky_solve :
    (n : ℕ) → Matrix (Fin n) (Fin n) ℚ → (Fin n → ℚ) → Option (Fin n → ℚ)
  | 0, _, _ => some fun i => i.elim0
  | n + 1, A, r =>
    if 0 < A 0 0 then
      match cholesky_solve n (schur A) (fun i => r i.succ - A i.succ 0 * r 0 / A 0 0) with
      | some x => some (Fin.cons ((r 0 - ∑ j, A j.succ 0 * x j) / A 0 0) x)
      | none => none
    else none

/-- Modelled from the spec: `NewtonSolver::compute_direction(gradient, hessian, delta_x)`
with the default `make_psd = false`; its body is not under src (only its declaration and
its test are).  It solves `hessian * delta_x = -gradient` by a Cholesky factorization and
returns whether the solve was successful, with the final value of `delta_x` (unchanged
when the factorization fails). -/
def compute_direction {n : ℕ} (gradient : Fin n → ℚ) (hessian : Matrix (Fin n) (Fin n) ℚ)
    (delta_x : Fin n → ℚ) : Bool × (Fin n → ℚ) :=
  match cholesky_solve n hessian (fun i => -gradient i) with
  | some x => (true, x)
  | none => (false, delta_x)

/-- The quadratic form `x^T A x`. -/
def quad_form {n : ℕ} (A : Matrix (Fin n) (Fin n) ℚ) (x : Fin n → ℚ) : ℚ :=
  ∑ i, x i * ∑ j, A i j * x j

/-- Symmetric positive-definite matrix. -/
def SymPosDef {n : ℕ} (A : Matrix (Fin n) (Fin n) ℚ) : Prop :=
  (∀ i j, A i j = A j i) ∧ ∀ x : Fin n → ℚ, x ≠ 0 → 0 < quad_form A x

/-- The vector `x` solves `A x = r`. -/
def Solves {n : ℕ} (A : Matrix (Fin n) (Fin n) ℚ) (x r : Fin n → ℚ) : Prop :=
  ∀ i, ∑ j, A i j * x j = r i

/-- The matrix `2 I`, the Hessian of the test "Test Newton direction solve". -/
def two_identity (n : ℕ) : Matrix (Fin n) (Fin n) ℚ := fun i j => if i = j then 2 else 0

/-! ## Statement vocabulary for the axis selection of the split step -/

/-- What the axis selection holds after the loop indices below `k`: no axis below `k`
exceeds its tolerance (`none`), or the choice `i` is an axis below `k` that exceeds its
tolerance, has the largest ratio `width / tol` among those, and a strictly larger ratio
than every such axis before it. -/
def BestAxis (w t : List ℚ) (k : ℕ) : Option ℕ → Prop
  | none => ∀ j, j < k → ¬ w.getD j 0 > t.getD j 0
  | some i => i < k ∧ w.getD i 0 > t.getD i 0
      ∧ (∀ j, j < k → w.getD j 0 > t.getD j 0 →
          w.getD j 0 / t.getD j 0 ≤ w.getD i 0 / t.getD i 0)
      ∧ (∀ j, j < i → w.getD j 0 > t.getD j 0 →
          w.getD j 0 / t.getD j 0 < w.getD i 0 / t.getD i 0)

/-- Size of the output vector `x` of the n-D finder: `none` stands for
`VectorX3I::Constant(x0.size(), Interval(inf))`, whose size is that of `x0`. -/
def output_size (x0 : Box) : Option Box → ℕ
  | none => x0.length
  | some x => x.length

/-! ## Interval arithmetic and the interval positions of `compute_vertices_intervals` -/

/-- Modelled from the spec: the library conversion of a `double` to an interval, the
point interval `[a, a]`. -/
def Interval.point (a : ℚ) : Interval := ⟨a, a⟩

/-- Modelled from the spec: the library `operator+` on intervals, in exact arithmetic. -/
def Interval.add (x y : Interval) : Interval := ⟨x.lo + y.lo, x.hi + y.hi⟩

/-- Modelled from the spec: the library `operator-` on intervals, in exact arithmetic. -/
def Interval.sub (x y : Interval) : Interval := ⟨x.lo - y.hi, x.hi - y.lo⟩

/-- Modelled from the spec: the library `operator*` on intervals, in exact arithmetic:
the smallest and the largest of the four products of the bounds. -/
def Interval.mul (x y : Interval) : Interval :=
  ⟨Min.min (Min.min (x.lo * y.lo) (x.lo * y.hi)) (Min.min (x.hi * y.lo) (x.hi * y.hi)),
    Max.max (Max.max (x.lo * y.lo) (x.lo * y.hi)) (Max.max (x.hi * y.lo) (x.hi * y.hi))⟩

/-- Embedding of the assignment
`ps[i] = (posesI_t1[i].position - posesI_t0[i].position) * t + posesI_t0[i].position`
of `compute_vertices_intervals`, with `t = Interval(0, 1)` and the two positions cast
from `double` to intervals; the vector operations act coefficient by coefficient. -/
def position_interval (position_t0 position_t1 : Vec) : Box :=
  let t : Interval := ⟨0, 1⟩
  let p0 : Box := position_t0.map Interval.point
  let p1 : Box := position_t1.map Interval.point
  List.zipWith Interval.add ((List.zipWith Interval.sub p1 p0).map fun e => e.mul t) p0

/-! ## The line-search loop with a count of its passes -/

/-- Embedding of the `while (step_norm >= min_step_length)` loop of
`constrained_line_search` as `line_search_loop`, with a third component that counts the
passes of the loop body; every pass evaluates `minimization_rule` once and `constraint`
once. -/
def line_search_loop_count (norm : Vec → ℚ) (x dir : Vec) (f : Vec → ℚ) (grad_fx : Vec)
    (constraint : Vec → Bool) (min_step_length armijo_rule_coeff : ℚ) :
    ℕ → ℚ → Option (Bool × ℚ × ℕ)
  | 0, step_length =>
    if norm (smul step_length dir) ≥ min_step_length then none
    else some (false, step_length, 0)
  | fuel + 1, step_length =>
    if norm (smul step_length dir) ≥ min_step_length then
      let min_rule := minimization_rule x dir f grad_fx armijo_rule_coeff step_length
      let cstr := constraint (step_point x dir step_length)
      if min_rule && cstr then some (true, step_length, 1)
      else
        (line_search_loop_count norm x dir f grad_fx constraint min_step_length
          armijo_rule_coeff fuel (step_length / 2)).map
          fun r => (r.1, r.2.1, r.2.2 + 1)
    else some (false, step_length, 0)

/-! ## Projection to the positive semi-definite cone (`src/utils/eigen_ext.cpp`) -/

/-- Modelled from the spec: what the library class `Eigen::SelfAdjointEigenSolver` gives
for a matrix: whether `info()` is `Success`, `eigenvalues()` and `eigenvectors()`. -/
structure SelfAdjointEigenSolver (K : Type) (n : ℕ) where
  success : Bool
  eigenvalues : Fin n → K
  eigenvectors : Matrix (Fin n) (Fin n) K

/-- Embedding of the loop of `project_to_psd` over the diagonal of `D`: a negative
coefficient is set to zero, and the loop ends at the first coefficient that is not
negative. -/
def clamp_negative {K : Type} [LinearOrderedField K] : List K → List K
  | [] => []
  | d :: rest => if d < 0 then 0 :: clamp_negative rest else d :: rest

/-- Embedding of `project_to_psd`, for a matrix with at least one row (the source reads
`eigenvalues()[0]`).  The eigensolver is library code and a parameter.  Eigenvalues are
irrational in general, so the scalars are those of any ordered field, the rationals of the
rest of the development among them. -/
def project_to_psd {K : Type} [LinearOrderedField K] {n : ℕ}
    (eigensolver : Matrix (Fin (n + 1)) (Fin (n + 1)) K → SelfAdjointEigenSolver K (n + 1))
    (A : Matrix (Fin (n + 1)) (Fin (n + 1)) K) : Matrix (Fin (n + 1)) (Fin (n + 1)) K :=
  let es := eigensolver A
  if !es.success then A
  else if es.eigenvalues 0 ≥ 0 then A
  else
    let D := clamp_negative (List.ofFn es.eigenvalues)
    es.eigenvectors * Matrix.diagonal (fun i => D.getD i.val 0) * es.eigenvectors.transpose

/-- The values of the eigensolver are an eigendecomposition of `A` as the library
documents it: the eigenvalues are sorted in increasing order, the eigenvectors are
orthonormal, and `A = V diag(lambda) V^T`. -/
def IsEigendecomposition {K : Type} [LinearOrderedField K] {n : ℕ}
    (es : SelfAdjointEigenSolver K n) (A : Matrix (Fin n) (Fin n) K) : Prop :=
  (∀ i j, i ≤ j → es.eigenvalues i ≤ es.eigenvalues j)
    ∧ es.eigenvectors.transpose * es.eigenvectors = 1
    ∧ A = es.eigenvectors * Matrix.diagonal es.eigenvalues * es.eigenvectors.transpose

/-- A stand-in for the eigensolver in concrete instances: for a diagonal 2 x 2 matrix
with increasing diagonal it gives the diagonal and the identity. -/
def diagonal_solver (A : Matrix (Fin 2) (Fin 2) ℚ) : SelfAdjointEigenSolver ℚ 2 :=
  ⟨true, fun i => A i i, 1⟩

/-- The matrix `diag(-1, 2)` of the concrete instances. -/
def example_matrix : Matrix (Fin 2) (Fin 2) ℚ := Matrix.diagonal ![-1, 2]

end ccd

/-! # Theorems -/

namespace ccd

variable {median : Interval → ℚ} {f : Box → Box} {c d : Box → Bool} {tol : List ℚ}

theorem width_getD (x : Box) (i : ℕ) : (width x).getD i 0 = (coeff x i).width := by
  unfold width coeff
  by_cases h : i < x.length
  · simp [List.getD_eq_getElem?_getD, h]
  · have h2 : x[i]? = none := List.getElem?_eq_none (not_lt.mp h)
    simp only [List.getD_eq_getElem?_getD, h2, Interval.width, List.getElem?_map, Option.map_none',
      Option.getD_none]
    show (0 : ℚ) = (0 : ℚ) - 0
    norm_num

theorem all_le_iff (x : Box) (tol : List ℚ) :
    all_le (width x) tol = true ↔ WithinTol x tol := by
  unfold all_le WithinTol
  simp only [List.all_eq_true, List.mem_range, decide_eq_true_eq, width_getD]
  simp [width]

theorem coeff_set (x : Box) (i j : ℕ) (a : Interval) :
    coeff (x.set i a) j = if i = j ∧ i < x.length then a else coeff x j := by
  unfold coeff
  simp only [List.getD_eq_getElem?_getD, List.getElem?_set]
  by_cases hij : i = j
  · subst hij
    by_cases hi : i < x.length
    · simp [hi]
    · have h2 : x[i]? = none := List.getElem?_eq_none (not_lt.mp hi)
      simp [hi, h2]
  · simp [hij]

/-- The midpoint lies between the bounds. -/
theorem midpoint_inside : Interval.MedianInside Interval.midpoint := by
  intro x h
  unfold Interval.WF at h
  unfold Interval.midpoint
  constructor <;> linarith

theorem bisect_wf (hmed : Interval.MedianInside median) {a : Interval} (h : a.WF) :
    (a.bisect median).1.WF ∧ (a.bisect median).2.WF := by
  have hm := hmed a h
  unfold Interval.WF Interval.bisect at *
  exact ⟨hm.1, hm.2⟩

theorem bisect_subset (hmed : Interval.MedianInside median) {a : Interval} (h : a.WF) :
    (a.bisect median).1.Subset a ∧ (a.bisect median).2.Subset a := by
  have hm := hmed a h
  unfold Interval.Subset Interval.bisect
  exact ⟨⟨le_refl _, hm.2⟩, ⟨hm.1, le_refl _⟩⟩

/-- In exact arithmetic both halves have half the width. -/
theorem bisect_width (a : Interval) :
    (a.bisect Interval.midpoint).1.width = a.width / 2
      ∧ (a.bisect Interval.midpoint).2.width = a.width / 2 := by
  unfold Interval.width Interval.bisect Interval.midpoint
  constructor <;> simp <;> ring


theorem halves_length (x : Box) (i : ℕ) :
    (halves median x i).1.length = x.length ∧ (halves median x i).2.length = x.length := by
  simp [halves]

theorem halves_wf (hmed : Interval.MedianInside median) {x : Box} (h : BoxWF x) (i : ℕ) :
    BoxWF (halves median x i).1 ∧ BoxWF (halves median x i).2 := by
  have hc : (coeff x i).WF := by
    unfold coeff
    by_cases hi : i < x.length
    · simp only [List.getD_eq_getElem?_getD, List.getElem?_eq_getElem hi, Option.getD_some]
      exact h _ (List.getElem_mem hi)
    · simp only [List.getD_eq_getElem?_getD, List.getElem?_eq_none (not_lt.mp hi),
        Option.getD_none]
      exact le_refl (0 : ℚ)
  constructor
  · intro a ha
    rcases List.mem_or_eq_of_mem_set ha with h1 | h1
    · exact h a h1
    · rw [h1]; exact (bisect_wf hmed hc).1
  · intro a ha
    rcases List.mem_or_eq_of_mem_set ha with h1 | h1
    · exact h a h1
    · rw [h1]; exact (bisect_wf hmed hc).2

theorem coeff_wf {x : Box} (h : BoxWF x) (i : ℕ) : (coeff x i).WF := by
  unfold coeff
  by_cases hi : i < x.length
  · simp only [List.getD_eq_getElem?_getD, List.getElem?_eq_getElem hi, Option.getD_some]
    exact h _ (List.getElem_mem hi)
  · simp only [List.getD_eq_getElem?_getD, List.getElem?_eq_none (not_lt.mp hi),
      Option.getD_none]
    exact le_refl (0 : ℚ)

theorem subset_refl (a : Interval) : a.Subset a := ⟨le_refl _, le_refl _⟩

theorem subset_trans {a b c : Interval} (h1 : a.Subset b) (h2 : b.Subset c) : a.Subset c :=
  ⟨le_trans h2.1 h1.1, le_trans h1.2 h2.2⟩

theorem subBox_refl (x : Box) : SubBox x x := ⟨rfl, fun _ => subset_refl _⟩

theorem subBox_trans {x y z : Box} (h1 : SubBox x y) (h2 : SubBox y z) : SubBox x z :=
  ⟨h1.1.trans h2.1, fun i => subset_trans (h1.2 i) (h2.2 i)⟩

theorem halves_subBox (hmed : Interval.MedianInside median) {x : Box} (h : BoxWF x)
    (i : ℕ) :
    SubBox (halves median x i).1 x ∧ SubBox (halves median x i).2 x := by
  have hc := coeff_wf h i
  constructor
  · refine ⟨(halves_length x i).1, fun j => ?_⟩
    simp only [halves, coeff_set]
    split_ifs with hij
    · rw [← hij.1]; exact (bisect_subset hmed hc).1
    · exact subset_refl _
  · refine ⟨(halves_length x i).2, fun j => ?_⟩
    simp only [halves, coeff_set]
    split_ifs with hij
    · rw [← hij.1]; exact (bisect_subset hmed hc).2
    · exact subset_refl _


theorem descends_trans {x y z : Box} (h1 : Descends median f d tol x y)
    (h2 : Descends median f d tol y z) : Descends median f d tol x z := by
  induction h1 with
  | refl x => exact h2
  | first hd hz hw hs _ ih => exact Descends.first hd hz hw hs (ih h2)
  | second hd hz hw hs _ ih => exact Descends.second hd hz hw hs (ih h2)

theorem descends_wf_subBox (hmed : Interval.MedianInside median) {x y : Box}
    (h : Descends median f d tol x y) (hx : BoxWF x) : BoxWF y ∧ SubBox y x := by
  induction h with
  | refl x => exact ⟨hx, subBox_refl x⟩
  | first _ _ _ _ _ ih =>
    have := ih (halves_wf hmed hx _).1
    exact ⟨this.1, subBox_trans this.2 (halves_subBox hmed hx _).1⟩
  | second _ _ _ _ _ ih =>
    have := ih (halves_wf hmed hx _).2
    exact ⟨this.1, subBox_trans this.2 (halves_subBox hmed hx _).2⟩

theorem descends_length {x y : Box} (h : Descends median f d tol x y) : y.length = x.length := by
  induction h with
  | refl x => rfl
  | first _ _ _ _ _ ih => rw [ih, (halves_length _ _).1]
  | second _ _ _ _ _ ih => rw [ih, (halves_length _ _).2]

/-- Every box on a path to a box that passes the domain predicate and has zero in its
image passes them too. -/
theorem descends_passes {x y : Box} (h : Descends median f d tol x y)
    (hy : d y = true ∧ zero_in (f y) = true) : d x = true ∧ zero_in (f x) = true := by
  cases h with
  | refl => exact hy
  | first hd hz _ _ _ => exact ⟨hd, hz⟩
  | second hd hz _ _ _ => exact ⟨hd, hz⟩

/-- A box within tolerance has no descendant but itself. -/
theorem descends_of_within {x y : Box} (h : Descends median f d tol x y)
    (hx : all_le (width x) tol = true) : y = x := by
  cases h with
  | refl => rfl
  | first _ _ hw _ _ => rw [hx] at hw; cases hw
  | second _ _ hw _ _ => rw [hx] at hw; cases hw

/-- The three ways the loop body can go: the box is discarded, recorded, or split. -/
theorem loop_body_cases (median : Interval → ℚ) (f : Box → Box) (c d : Box → Bool)
    (tol : List ℚ) (x : Box) (s : State) :
    (loop_body median f c d tol x s = s
      ∧ (not_before x s.earliest_root = true ∨ d x = false ∨ zero_in (f x) = false
        ∨ (all_le (width x) tol = true ∧ c x = false)
        ∨ (all_le (width x) tol = false ∧ split_axis (width x) tol = none)))
    ∨ (not_before x s.earliest_root = false ∧ Accepts f c d tol x
      ∧ loop_body median f c d tol x s = { s with earliest_root := some x, found_root := true })
    ∨ (not_before x s.earliest_root = false ∧ d x = true ∧ zero_in (f x) = true
      ∧ all_le (width x) tol = false
      ∧ ∃ i, split_axis (width x) tol = some i
        ∧ loop_body median f c d tol x s
          = { s with xs := (halves median x i).1 :: (halves median x i).2 :: s.xs }) := by
  unfold loop_body Accepts
  cases h1 : not_before x s.earliest_root
  · cases h2 : d x
    · simp [h1, h2]
    · cases h3 : zero_in (f x)
      · simp [h1, h2, h3]
      · cases h4 : all_le (width x) tol
        · cases h5 : split_axis (width x) tol
          · simp [h1, h2, h3, h4, h5]
          · simp [h1, h2, h3, h4, h5]
        · cases h5 : c x
          · simp [h1, h2, h3, h4, h5]
          · simp [h1, h2, h3, h4, h5]
  · simp [h1]

/-- An invariant of the loop body holds in the final state, whose stack is empty. -/
theorem run_invariant (P : State → Prop)
    (hstep : ∀ x rest e fnd, P ⟨x :: rest, e, fnd⟩ →
      P (loop_body median f c d tol x ⟨rest, e, fnd⟩)) :
    ∀ (fuel : ℕ) (s s' : State), P s → run median f c d tol fuel s = some s' →
      P s' ∧ s'.xs = [] := by
  intro fuel
  induction fuel with
  | zero =>
    intro s s' hP h
    obtain ⟨xs, e, fnd⟩ := s
    cases xs with
    | nil => simp [run] at h; subst h; exact ⟨hP, rfl⟩
    | cons x rest => simp [run] at h
  | succ n ih =>
    intro s s' hP h
    obtain ⟨xs, e, fnd⟩ := s
    cases xs with
    | nil => simp [run] at h; subst h; exact ⟨hP, rfl⟩
    | cons x rest =>
      simp only [run] at h
      exact ih _ _ (hstep x rest e fnd hP) h

theorem invReach_step (x0 x : Box) (rest : List Box) (e : Option Box) (fnd : Bool)
    (h : InvReach median f c d tol x0 ⟨x :: rest, e, fnd⟩) :
    InvReach median f c d tol x0 (loop_body median f c d tol x ⟨rest, e, fnd⟩) := by
  obtain ⟨hst, hfound, hnot⟩ := h
  have hx : Descends median f d tol x0 x := hst x (List.mem_cons_self _ _)
  have hrest : ∀ b ∈ rest, Descends median f d tol x0 b :=
    fun b hb => hst b (List.mem_cons_of_mem _ hb)
  rcases loop_body_cases median f c d tol x ⟨rest, e, fnd⟩ with ⟨h1, _⟩ | ⟨_, hacc, h1⟩
    | ⟨_, hd, hz, hw, i, hs, h1⟩
  · rw [h1]; exact ⟨hrest, hfound, hnot⟩
  · rw [h1]
    refine ⟨hrest, fun _ => ⟨x, rfl, hx, hacc⟩, fun h => ?_⟩
    simp at h
  · rw [h1]
    refine ⟨?_, hfound, hnot⟩
    intro b hb
    simp only [List.mem_cons] at hb
    rcases hb with hb | hb | hb
    · rw [hb]; exact descends_trans hx (Descends.first hd hz hw hs (Descends.refl _))
    · rw [hb]; exact descends_trans hx (Descends.second hd hz hw hs (Descends.refl _))
    · exact hrest b hb

theorem invReach_init (x0 : Box) : InvReach median f c d tol x0 (init x0) := by
  refine ⟨?_, ?_, ?_⟩
  · intro b hb
    simp only [init, List.mem_singleton] at hb
    rw [hb]; exact Descends.refl _
  · intro h; simp [init] at h
  · intro _; rfl

theorem subBox_lower {x y : Box} (h : SubBox y x) :
    (coeff x 0).lower ≤ (coeff y 0).lower := (h.2 0).1

theorem invEarliest_step (hmed : Interval.MedianInside median) (L x : Box)
    (rest : List Box) (e : Option Box) (fnd : Bool) (hL : Accepts f c d tol L)
    (h : InvEarliest median f d tol L ⟨x :: rest, e, fnd⟩) :
    InvEarliest median f d tol L (loop_body median f c d tol x ⟨rest, e, fnd⟩) := by
  obtain ⟨hwf, hcar⟩ := h
  simp only at hwf hcar
  have hxwf : BoxWF x := hwf x (List.mem_cons_self _ _)
  have hrwf : ∀ b ∈ rest, BoxWF b := fun b hb => hwf b (List.mem_cons_of_mem _ hb)
  rcases loop_body_cases median f c d tol x ⟨rest, e, fnd⟩ with ⟨h1, hwhy⟩ | ⟨hnb, hacc, h1⟩
    | ⟨_, hd, hz, hw, i, hs, h1⟩
  · rw [h1]
    refine ⟨hrwf, ?_⟩
    rcases hcar with hf | ⟨b, hb, hbL⟩
    · exact Or.inl hf
    simp only [List.mem_cons] at hb
    rcases hb with hb | hb
    · subst hb
      have hpass := descends_passes hbL ⟨hL.1, hL.2.1⟩
      rcases hwhy with hp | hp | hp | ⟨hp, hc⟩ | ⟨hp, hsn⟩
      · left
        cases e with
        | none => simp [not_before] at hp
        | some e0 =>
          simp only [not_before, ge_iff_le, decide_eq_true_eq] at hp
          exact ⟨e0, rfl, le_trans hp (subBox_lower (descends_wf_subBox hmed hbL hxwf).2)⟩
      · rw [hpass.1] at hp; cases hp
      · rw [hpass.2] at hp; cases hp
      · have := descends_of_within hbL hp
        subst this
        rw [hL.2.2.2] at hc; cases hc
      · right
        cases hbL with
        | refl => rw [hL.2.2.1] at hp; cases hp
        | first _ _ _ hs2 _ => rw [hsn] at hs2; cases hs2
        | second _ _ _ hs2 _ => rw [hsn] at hs2; cases hs2
    · exact Or.inr ⟨b, hb, hbL⟩
  · rw [h1]
    refine ⟨hrwf, ?_⟩
    rcases hcar with ⟨e0, he0, hle⟩ | ⟨b, hb, hbL⟩
    · left
      subst he0
      simp only [not_before, ge_iff_le, decide_eq_false_iff_not, not_le] at hnb
      exact ⟨x, rfl, le_trans (le_of_lt hnb) hle⟩
    simp only [List.mem_cons] at hb
    rcases hb with hb | hb
    · subst hb
      have := descends_of_within hbL hacc.2.2.1
      subst this
      exact Or.inl ⟨_, rfl, le_refl _⟩
    · exact Or.inr ⟨b, hb, hbL⟩
  · rw [h1]
    refine ⟨?_, ?_⟩
    · intro b hb
      simp only [List.mem_cons] at hb
      rcases hb with hb | hb | hb
      · rw [hb]; exact (halves_wf hmed hxwf i).1
      · rw [hb]; exact (halves_wf hmed hxwf i).2
      · exact hrwf b hb
    rcases hcar with hf | ⟨b, hb, hbL⟩
    · exact Or.inl hf
    right
    simp only [List.mem_cons] at hb
    rcases hb with hb | hb
    · subst hb
      cases hbL with
      | refl => rw [hL.2.2.1] at hw; cases hw
      | first _ _ _ hs2 hrec =>
        rw [hs] at hs2; cases hs2
        exact ⟨_, List.mem_cons_self _ _, hrec⟩
      | second _ _ _ hs2 hrec =>
        rw [hs] at hs2; cases hs2
        exact ⟨_, List.mem_cons_of_mem _ (List.mem_cons_self _ _), hrec⟩
    · exact ⟨b, List.mem_cons_of_mem _ (List.mem_cons_of_mem _ hb), hbL⟩

theorem foldl_split_update (w t : List ℚ) :
    ∀ (l : List ℕ) (acc : Option ℕ) (i : ℕ),
      l.foldl (split_update w t) acc = some i →
      acc = some i ∨ (i ∈ l ∧ w.getD i 0 > t.getD i 0) := by
  intro l
  induction l with
  | nil => intro acc i h; exact Or.inl h
  | cons a l ih =>
    intro acc i h
    rw [List.foldl_cons] at h
    rcases ih _ _ h with h1 | ⟨h1, h2⟩
    · cases acc with
      | none =>
        simp only [split_update] at h1
        split_ifs at h1 with hgt
        cases h1
        exact Or.inr ⟨List.mem_cons_self _ _, hgt⟩
      | some j =>
        simp only [split_update] at h1
        split_ifs at h1 with hgt
        · cases h1
          exact Or.inr ⟨List.mem_cons_self _ _, hgt.1⟩
        · exact Or.inl h1
    · exact Or.inr ⟨List.mem_cons_of_mem _ h1, h2⟩

/-- The split axis is an axis of the box whose width exceeds its tolerance. -/
theorem split_axis_some {x : Box} {i : ℕ} (h : split_axis (width x) tol = some i) :
    i < x.length ∧ (coeff x i).width > tol.getD i 0 := by
  rcases foldl_split_update _ _ _ _ _ h with h1 | ⟨h1, h2⟩
  · cases h1
  · rw [width_getD] at h2
    simp only [width, List.length_map, List.mem_range] at h1
    exact ⟨h1, h2⟩

theorem run_succ_cons (fuel : ℕ) (x : Box) (rest : List Box) (e : Option Box) (fnd : Bool) :
    run median f c d tol (fuel + 1) ⟨x :: rest, e, fnd⟩
      = run median f c d tol fuel (loop_body median f c d tol x ⟨rest, e, fnd⟩) := rfl

theorem depthLe_halves {N : ℕ} {x : Box} {i : ℕ} (h : DepthLe tol N x)
    (hi : i < x.length) (hgt : (coeff x i).width > tol.getD i 0) :
    ∃ M, N = M + 1 ∧ DepthLe tol M (halves Interval.midpoint x i).1
      ∧ DepthLe tol M (halves Interval.midpoint x i).2 := by
  obtain ⟨ks, hsum, hb⟩ := h
  have hki : 1 ≤ ks i := by
    by_contra hk
    have hk0 : ks i = 0 := by omega
    have := hb i hi
    rw [hk0] at this
    simp only [pow_zero, mul_one] at this
    linarith
  have hlt : (∑ j in Finset.range x.length, (if j = i then ks i - 1 else ks j))
      < ∑ j in Finset.range x.length, ks j := by
    apply Finset.sum_lt_sum
    · intro j _
      split_ifs with hji
      · rw [hji]; omega
      · exact le_refl _
    · exact ⟨i, Finset.mem_range.mpr hi, by simp; omega⟩
  obtain ⟨M, hM⟩ : ∃ M, N = M + 1 := ⟨N - 1, by omega⟩
  have hpow : (2 : ℚ) ^ ks i = 2 * 2 ^ (ks i - 1) := by
    rw [← pow_succ']
    congr 1
    omega
  have hhalf : (coeff x i).width / 2 ≤ tol.getD i 0 * 2 ^ (ks i - 1) := by
    have := hb i hi
    rw [hpow] at this
    linarith
  refine ⟨M, hM, ?_, ?_⟩
  · refine ⟨fun j => if j = i then ks i - 1 else ks j, ?_, ?_⟩
    · rw [(@halves_length Interval.midpoint x i).1]; simp only; omega
    · intro j hj
      rw [(@halves_length Interval.midpoint x i).1] at hj
      simp only [halves, coeff_set]
      by_cases hji : j = i
      · subst hji
        simp only [hi, and_self, if_true]
        rw [(bisect_width _).1]
        exact hhalf
      · have : ¬ (i = j ∧ i < x.length) := fun h => hji h.1.symm
        simp only [this, hji, if_false]
        exact hb j hj
  · refine ⟨fun j => if j = i then ks i - 1 else ks j, ?_, ?_⟩
    · rw [(@halves_length Interval.midpoint x i).2]; simp only; omega
    · intro j hj
      rw [(@halves_length Interval.midpoint x i).2] at hj
      simp only [halves, coeff_set]
      by_cases hji : j = i
      · subst hji
        simp only [hi, and_self, if_true]
        rw [(bisect_width _).2]
        exact hhalf
      · have : ¬ (i = j ∧ i < x.length) := fun h => hji h.1.symm
        simp only [this, hji, if_false]
        exact hb j hj

/-- A box with a finite bisection tree is worked off in finitely many iterations: the
loop gets from the stack `x :: rest` to the stack `rest`. -/
theorem run_finite (c : Box → Bool) {x : Box} (hx : FiniteTree median f d tol x) :
    ∀ (rest : List Box) (e : Option Box) (fnd : Bool),
      ∃ (m : ℕ) (e' : Option Box) (fnd' : Bool), ∀ k,
        run median f c d tol (k + m) ⟨x :: rest, e, fnd⟩
          = run median f c d tol k ⟨rest, e', fnd'⟩ := by
  induction hx with
  | @leaf x hleaf =>
    intro rest e fnd
    rcases loop_body_cases median f c d tol x ⟨rest, e, fnd⟩ with ⟨h1, _⟩ | ⟨_, _, h1⟩
      | ⟨_, hd, hz, hw, i, hs, _⟩
    · exact ⟨1, e, fnd, fun k => by rw [run_succ_cons, h1]⟩
    · exact ⟨1, some x, true, fun k => by rw [run_succ_cons, h1]⟩
    · rcases hleaf with h | h | h | h
      · rw [hd] at h; cases h
      · rw [hz] at h; cases h
      · rw [hw] at h; cases h
      · rw [hs] at h; cases h
  | @node x i hsplit _ _ ih1 ih2 =>
    intro rest e fnd
    rcases loop_body_cases median f c d tol x ⟨rest, e, fnd⟩ with ⟨h1, _⟩ | ⟨_, _, h1⟩
      | ⟨_, _, _, _, j, hs, h1⟩
    · exact ⟨1, e, fnd, fun k => by rw [run_succ_cons, h1]⟩
    · exact ⟨1, some x, true, fun k => by rw [run_succ_cons, h1]⟩
    · rw [hsplit] at hs
      cases hs
      obtain ⟨m1, e1, f1, hr1⟩ := ih1 ((halves median x i).2 :: rest) e fnd
      obtain ⟨m2, e2, f2, hr2⟩ := ih2 rest e1 f1
      refine ⟨m2 + m1 + 1, e2, f2, fun k => ?_⟩
      rw [← Nat.add_assoc, run_succ_cons, h1, ← Nat.add_assoc]
      exact (hr1 (k + m2)).trans (hr2 k)

/-- In exact arithmetic a box with a depth bound has a finite bisection tree. -/
theorem depthLe_finite (f : Box → Box) (d : Box → Bool) (tol : List ℚ) :
    ∀ (N : ℕ) (x : Box), DepthLe tol N x → FiniteTree Interval.midpoint f d tol x := by
  intro N
  induction N with
  | zero =>
    intro x hx
    cases hs : split_axis (width x) tol with
    | none => exact FiniteTree.leaf (Or.inr (Or.inr (Or.inr hs)))
    | some i =>
      obtain ⟨hi, hgt⟩ := split_axis_some hs
      obtain ⟨M, hM, _⟩ := depthLe_halves hx hi hgt
      omega
  | succ N ih =>
    intro x hx
    cases hs : split_axis (width x) tol with
    | none => exact FiniteTree.leaf (Or.inr (Or.inr (Or.inr hs)))
    | some i =>
      obtain ⟨hi, hgt⟩ := split_axis_some hs
      obtain ⟨M, hM, hd1, hd2⟩ := depthLe_halves hx hi hgt
      have hMN : M = N := by omega
      subst hMN
      exact FiniteTree.node hs (ih _ hd1) (ih _ hd2)

theorem run_nil (fuel : ℕ) (e : Option Box) (fnd : Bool) :
    run median f c d tol fuel ⟨[], e, fnd⟩ = some ⟨[], e, fnd⟩ := by
  cases fuel <;> rfl

theorem exists_depthLe (x : Box) (tol : List ℚ)
    (htol : ∀ i, i < x.length → 0 < tol.getD i 0) : ∃ N, DepthLe tol N x := by
  have h : ∀ i, ∃ k : ℕ, i < x.length → (coeff x i).width ≤ tol.getD i 0 * 2 ^ k := by
    intro i
    by_cases hi : i < x.length
    · obtain ⟨k, hk⟩ := pow_unbounded_of_one_lt ((coeff x i).width / tol.getD i 0)
        (one_lt_two : (1 : ℚ) < 2)
      refine ⟨k, fun _ => ?_⟩
      have hpos := htol i hi
      rw [div_lt_iff₀ hpos] at hk
      linarith
    · exact ⟨0, fun h => absurd h hi⟩
  choose ks hks using h
  exact ⟨_, ks, le_refl _, hks⟩

theorem reduce_tol_pos (tol : List ℚ) (i : ℕ) (h : 0 < tol.getD i 0) :
    0 < (reduce_tol tol).getD i 0 := by
  cases tol with
  | nil => exact h
  | cons t rest =>
    cases i with
    | zero =>
      simp only [reduce_tol, List.getD_cons_zero] at h ⊢
      positivity
    | succ j => simpa [reduce_tol] using h

theorem effective_tol_pos (f : Box → Box) (tol : List ℚ) (i : ℕ) (h : 0 < tol.getD i 0) :
    0 < (effective_tol f tol).getD i 0 := by
  unfold effective_tol
  split_ifs
  · exact reduce_tol_pos tol i h
  · exact h

/-- What a finished run from the initial state looks like. -/
theorem finder_some {fuel : ℕ} {x0 : Box} {mi : ℤ} {found : Bool} {r : Option Box}
    (h : interval_root_finder median fuel f c d x0 tol mi = some (found, r)) :
    ∃ s, run median f c d (effective_tol f tol) fuel (init x0) = some s
      ∧ s.found_root = found ∧ s.earliest_root = r := by
  unfold interval_root_finder at h
  simp only [Option.map_eq_some', Prod.mk.injEq] at h
  obtain ⟨s, hs, h1, h2⟩ := h
  exact ⟨s, hs, h1, h2⟩

/-- A found root is an accepted leaf of the bisection tree. -/
theorem found_has_root {fuel : ℕ} {x0 : Box} {mi : ℤ} {r : Option Box}
    (h : interval_root_finder median fuel f c d x0 tol mi = some (true, r)) :
    ∃ x, r = some x ∧ AcceptedLeaf median f c d (effective_tol f tol) x0 x := by
  obtain ⟨s, hs, h1, h2⟩ := finder_some h
  have hinv := (run_invariant (InvReach median f c d (effective_tol f tol) x0)
    (fun x rest e fnd => invReach_step x0 x rest e fnd) fuel _ _ (invReach_init x0) hs).1
  obtain ⟨x, hx, hacc⟩ := hinv.2.1 h1
  exact ⟨x, by rw [← h2, hx], hacc⟩

/-- C1: whenever the n-D `interval_root_finder` returns true, its output `x` is a box
reached from `x0` by repeated bisection (and a sub-box of `x0` when `x0` is well formed and
the median lies between the bounds), zero is in `f(x)`, the width of `x` is within the
tolerance on every axis (the tolerance of the loop, with `tol_0 / 100` when the check of
the start fired), `c(x)` and `d(x)` hold, and every box on the bisection path from `x0` to
`x` passes `d` and has zero in its image under `f`. -/
theorem interval_root_finder_sound (fuel : ℕ) (f : Box → Box) (c d : Box → Bool)
    (x0 : Box) (tol : List ℚ) (mi : ℤ) (r : Option Box)
    (h : interval_root_finder median fuel f c d x0 tol mi = some (true, r)) :
    ∃ x, r = some x
      ∧ Descends median f d (effective_tol f tol) x0 x
      ∧ (Interval.MedianInside median → BoxWF x0 → SubBox x x0)
      ∧ zero_in (f x) = true
      ∧ WithinTol x (effective_tol f tol)
      ∧ c x = true ∧ d x = true
      ∧ (∀ a, Descends median f d (effective_tol f tol) x0 a →
          Descends median f d (effective_tol f tol) a x → d a = true ∧ zero_in (f a) = true)
      ∧ (zero_in (f (x_tol tol)) = true → effective_tol f tol = reduce_tol tol)
      ∧ (zero_in (f (x_tol tol)) = false → effective_tol f tol = tol) := by
  obtain ⟨x, hr, hdesc, hd, hz, hw, hc⟩ := found_has_root h
  refine ⟨x, hr, hdesc, fun hmed hwf => (descends_wf_subBox hmed hdesc hwf).2, hz,
    (all_le_iff x _).mp hw, hc, hd, fun a _ hax => descends_passes hax ⟨hd, hz⟩, ?_, ?_⟩
  · intro hp; simp [effective_tol, hp]
  · intro hp; simp [effective_tol, hp]

/-- C2: whenever the n-D `interval_root_finder` returns true with box `x` for a well-formed
`x0` (the median lying between the bounds of a well-formed interval), no accepted leaf of
the bisection tree has a lower bound on coordinate 0 strictly smaller than
`x[0].lower()`; and whenever the lower-bound test discards a box of the tree against a
recorded root `e`, every leaf below that box has a lower bound on coordinate 0 of at
least `e[0].lower()`. -/
theorem interval_root_finder_earliest (fuel : ℕ) (f : Box → Box) (c d : Box → Bool)
    (x0 : Box) (tol : List ℚ) (mi : ℤ) (r : Option Box)
    (hmed : Interval.MedianInside median) (hwf : BoxWF x0)
    (h : interval_root_finder median fuel f c d x0 tol mi = some (true, r)) :
    ∃ x, r = some x
      ∧ (∀ L, AcceptedLeaf median f c d (effective_tol f tol) x0 L →
          ¬ (coeff L 0).lower < (coeff x 0).lower)
      ∧ (∀ X e L, Descends median f d (effective_tol f tol) x0 X →
          Descends median f d (effective_tol f tol) X L → not_before X (some e) = true →
          (coeff e 0).lower ≤ (coeff L 0).lower) := by
  obtain ⟨x, hr, _⟩ := found_has_root h
  obtain ⟨s, hs, _, h2⟩ := finder_some h
  refine ⟨x, hr, ?_, ?_⟩
  · intro L hL
    have h0 : InvEarliest median f d (effective_tol f tol) L (init x0) := by
      refine ⟨?_, Or.inr ⟨x0, List.mem_singleton.mpr rfl, hL.1⟩⟩
      intro b hb
      simp only [init, List.mem_singleton] at hb
      rw [hb]; exact hwf
    obtain ⟨hinv, hnil⟩ := run_invariant (InvEarliest median f d (effective_tol f tol) L)
      (fun x rest e fnd => invEarliest_step hmed L x rest e fnd hL.2) fuel _ _ h0 hs
    rcases hinv.2 with ⟨e, he, hle⟩ | ⟨b, hb, _⟩
    · rw [h2, hr] at he
      cases he
      exact not_lt.mpr hle
    · rw [hnil] at hb; cases hb
  · intro X e L hX hXL hp
    simp only [not_before, ge_iff_le, decide_eq_true_eq] at hp
    exact le_trans hp
      (subBox_lower (descends_wf_subBox hmed hXL (descends_wf_subBox hmed hX hwf).1).2)

/-- A finite bisection tree is searched to the end: the finder returns, and more fuel
gives the same result. -/
theorem finder_of_finite (median : Interval → ℚ) (f : Box → Box) (c d : Box → Bool)
    (x0 : Box) (tol : List ℚ) (mi : ℤ)
    (h : FiniteTree median f d (effective_tol f tol) x0) :
    ∃ (fuel : ℕ) (found : Bool) (r : Option Box), ∀ k,
      interval_root_finder median (k + fuel) f c d x0 tol mi = some (found, r) := by
  obtain ⟨m, e, fnd, hm⟩ := run_finite c h [] none false
  refine ⟨m, fnd, e, fun k => ?_⟩
  unfold interval_root_finder
  simp only [init, hm k, run_nil, Option.map_some']

/-- In exact arithmetic, with tolerances that are positive on all axes of `x0`, the
bisection tree of `x0` is finite. -/
theorem finite_of_pos_tol (f : Box → Box) (d : Box → Bool) (x0 : Box) (tol : List ℚ)
    (htol : ∀ i, i < x0.length → 0 < tol.getD i 0) :
    FiniteTree Interval.midpoint f d tol x0 := by
  obtain ⟨N, hN⟩ := exists_depthLe x0 tol htol
  exact depthLe_finite f d tol N x0 hN

/-- In exact arithmetic, for every tolerance vector that is positive on all axes of `x0`,
the work-stack loop ends: some number of iterations empties the stack and the function
returns a result (the same for every larger bound); each iteration either pushes nothing
or replaces the popped box by its two halves on an axis of the box, each of half the
width on that axis.  (On `double` the midpoint is rounded and this fails, see the section
on the bisection on `double`.) -/
theorem exact_bisection_terminates (f : Box → Box) (c d : Box → Bool)
    (x0 : Box) (tol : List ℚ) (mi : ℤ)
    (htol : ∀ i, i < x0.length → 0 < tol.getD i 0) :
    (∃ (fuel : ℕ) (r : Bool × Option Box), ∀ k,
        interval_root_finder Interval.midpoint (k + fuel) f c d x0 tol mi = some r)
      ∧ (∀ (t : List ℚ) (x : Box) (s : State),
          (loop_body Interval.midpoint f c d t x s).xs = s.xs
          ∨ ∃ i, i < x.length
            ∧ (loop_body Interval.midpoint f c d t x s).xs
              = (halves Interval.midpoint x i).1 :: (halves Interval.midpoint x i).2 :: s.xs
            ∧ (coeff (halves Interval.midpoint x i).1 i).width = (coeff x i).width / 2
            ∧ (coeff (halves Interval.midpoint x i).2 i).width = (coeff x i).width / 2) := by
  constructor
  · obtain ⟨fuel, found, r, h⟩ := finder_of_finite Interval.midpoint f c d x0 tol mi
      (finite_of_pos_tol f d x0 _ (fun i hi => effective_tol_pos f tol i (htol i hi)))
    exact ⟨fuel, (found, r), h⟩
  · intro t x s
    rcases loop_body_cases Interval.midpoint f c d t x s with
      ⟨h1, _⟩ | ⟨_, _, h1⟩ | ⟨_, _, _, _, i, hs, h1⟩
    · left; rw [h1]
    · left; rw [h1]
    · right
      obtain ⟨hi, _⟩ := split_axis_some hs
      refine ⟨i, hi, by rw [h1], ?_, ?_⟩
      · simp only [halves, coeff_set, hi, and_self, if_true]
        exact (bisect_width _).1
      · simp only [halves, coeff_set, hi, and_self, if_true]
        exact (bisect_width _).2

/-- C5: the 1D `interval_root_finder` returns the found flag of the n-D routine run on
the 1-vector `[x0]` with tolerance `[tol]`, the lifted `f` and `c` and an always-true
domain predicate; when found, its output interval is component 0 of the n-D result, a
vector of size one; and the overload without a predicate equals the one with `c` always
true. -/
theorem interval_root_finder_1d_wraps (fuel : ℕ) (f : Interval → Interval)
    (c : Interval → Bool) (x0 : Interval) (tol : ℚ) (x : Interval) (mi : ℤ) :
    (interval_root_finder_1d median fuel f c x0 tol x mi).map Prod.fst
        = (interval_root_finder median fuel (fun v => [f (coeff v 0)]) (fun v => c (coeff v 0))
            (fun _ => true) [x0] [tol] mi).map Prod.fst
      ∧ (∀ r, interval_root_finder_1d median fuel f c x0 tol x mi = some (true, r) →
          ∃ v, interval_root_finder median fuel (fun v => [f (coeff v 0)])
                (fun v => c (coeff v 0)) (fun _ => true) [x0] [tol] mi = some (true, some v)
            ∧ v.length = 1 ∧ r = coeff v 0)
      ∧ interval_root_finder_1d_plain median fuel f x0 tol x mi
        = interval_root_finder_1d median fuel f (fun _ => true) x0 tol x mi := by
  refine ⟨?_, ?_, rfl⟩
  · unfold interval_root_finder_1d
    cases h : interval_root_finder median fuel (fun v => [f (coeff v 0)]) (fun v => c (coeff v 0))
        (fun _ => true) [x0] [tol] mi with
    | none => simp only [h]; rfl
    | some p =>
      obtain ⟨found, xv⟩ := p
      cases found with
      | false => simp only [h]; rfl
      | true => cases xv <;> simp only [h] <;> rfl
  · intro r hr
    unfold interval_root_finder_1d at hr
    cases h : interval_root_finder median fuel (fun v => [f (coeff v 0)]) (fun v => c (coeff v 0))
        (fun _ => true) [x0] [tol] mi with
    | none => simp only [h] at hr; cases hr
    | some p =>
      obtain ⟨found, xv⟩ := p
      simp only [h] at hr
      cases found with
      | false => simp at hr
      | true =>
        obtain ⟨v, hv, hacc⟩ := found_has_root h
        subst hv
        simp only [if_true, Option.some.injEq, Prod.mk.injEq, true_and] at hr
        exact ⟨v, rfl, descends_length hacc.1, hr.symm⟩

/-- The run used in the concrete instances: `f` shifts by `-3/2`, the start box is
`[0, 2]` and the tolerance is `1`; one iteration is not enough, three iterations end the
search with the root `[1, 2]`.  (The bounds met are small dyadic numbers, whose midpoints
are exact on `double` too.) -/
theorem shift_run (mi : ℤ) :
    interval_root_finder Interval.midpoint 1 shift_f (fun _ => true) (fun _ => true)
        [⟨0, 2⟩] [1] mi = none
      ∧ interval_root_finder Interval.midpoint 3 shift_f (fun _ => true) (fun _ => true)
          [⟨0, 2⟩] [1] mi
        = some (true, some [⟨1, 2⟩]) := by
  constructor <;>
  norm_num [interval_root_finder, run, loop_body, init, effective_tol, x_tol, zero_in,
    Interval.zero_in, reduce_tol, not_before, width, Interval.width, all_le, split_axis,
    split_update, halves, coeff, Interval.bisect, Interval.midpoint, Interval.lower,
    List.range_succ, shift_f]

/-- C6 as stated fails: with `max_iterations = 1` the search on `[0, 2]` is not over after
one iteration, yet it is not aborted and the function returns true. -/
theorem max_iterations_not_honored :
    interval_root_finder Interval.midpoint 1 shift_f (fun _ => true) (fun _ => true)
        [⟨0, 2⟩] [1] 1 = none
      ∧ interval_root_finder Interval.midpoint 3 shift_f (fun _ => true) (fun _ => true)
          [⟨0, 2⟩] [1] 1
        = some (true, some [⟨1, 2⟩]) :=
  shift_run 1

/-- C6, amended: `interval_root_finder` does not honor `max_iterations`; the parameter is
accepted and never consulted.  The result is the same for all values of `max_iterations`,
and for an input whose search is not over after `max_iterations` loop iterations the
search is not aborted: the loop ends only with an empty stack, and the function then
returns the flag and the root the loop has found. -/
theorem max_iterations_ignored (median : Interval → ℚ) (f : Box → Box) (c d : Box → Bool)
    (x0 : Box) (tol : List ℚ) :
    (∀ (fuel : ℕ) (m1 m2 : ℤ), interval_root_finder median fuel f c d x0 tol m1
        = interval_root_finder median fuel f c d x0 tol m2)
      ∧ (∀ (fuel : ℕ) (mi : ℤ) (s : State),
          run median f c d (effective_tol f tol) mi.toNat (init x0) = none →
          run median f c d (effective_tol f tol) fuel (init x0) = some s →
          s.xs = []
            ∧ interval_root_finder median fuel f c d x0 tol mi
              = some (s.found_root, s.earliest_root)) := by
  refine ⟨fun _ _ _ => rfl, fun fuel mi s _ hs => ?_⟩
  have hnil := (run_invariant (fun _ => True) (fun _ _ _ _ _ => trivial) fuel _ _
    trivial hs).2
  refine ⟨hnil, ?_⟩
  unfold interval_root_finder
  rw [hs]
  rfl

theorem shift_run_states :
    run Interval.midpoint shift_f (fun _ => true) (fun _ => true)
        (effective_tol shift_f [1]) (1 : ℤ).toNat (init [⟨0, 2⟩]) = none
      ∧ run Interval.midpoint shift_f (fun _ => true) (fun _ => true)
          (effective_tol shift_f [1]) 3 (init [⟨0, 2⟩])
        = some ⟨[], some [⟨1, 2⟩], true⟩ := by
  constructor <;>
  norm_num [run, loop_body, init, effective_tol, x_tol, zero_in,
    Interval.zero_in, reduce_tol, not_before, width, Interval.width, all_le, split_axis,
    split_update, halves, coeff, Interval.bisect, Interval.midpoint, Interval.lower,
    List.range_succ, shift_f]

/-- Instance of the amended C6 on the run of `shift_run`: with `max_iterations = 1` the
search is not over after one iteration, and it ends after three with the root. -/
theorem max_iterations_ignored_witness :
    (run Interval.midpoint shift_f (fun _ => true) (fun _ => true)
        (effective_tol shift_f [1]) (1 : ℤ).toNat (init [⟨0, 2⟩]) = none
      ∧ run Interval.midpoint shift_f (fun _ => true) (fun _ => true)
          (effective_tol shift_f [1]) 3 (init [⟨0, 2⟩])
        = some ⟨[], some [⟨1, 2⟩], true⟩)
    ∧ (State.xs ⟨[], some [⟨1, 2⟩], true⟩ = []
      ∧ interval_root_finder Interval.midpoint 3 shift_f (fun _ => true) (fun _ => true)
          [⟨0, 2⟩] [1] 1
        = some (State.found_root ⟨[], some [⟨1, 2⟩], true⟩,
            State.earliest_root ⟨[], some [⟨1, 2⟩], true⟩)) :=
  ⟨shift_run_states,
    (max_iterations_ignored Interval.midpoint shift_f (fun _ => true) (fun _ => true)
      [⟨0, 2⟩] [1]).2 3 1 _ shift_run_states.1 shift_run_states.2⟩

/-- Instance of C1 on the run of `shift_run`. -/
theorem interval_root_finder_sound_witness :
    interval_root_finder Interval.midpoint 3 shift_f (fun _ => true) (fun _ => true)
        [⟨0, 2⟩] [1] 0
        = some (true, some [⟨1, 2⟩])
    ∧ ∃ x, some [(⟨1, 2⟩ : Interval)] = some x
      ∧ Descends Interval.midpoint shift_f (fun _ => true) (effective_tol shift_f [1])
          [⟨0, 2⟩] x
      ∧ (Interval.MedianInside Interval.midpoint → BoxWF [⟨0, 2⟩] → SubBox x [⟨0, 2⟩])
      ∧ zero_in (shift_f x) = true
      ∧ WithinTol x (effective_tol shift_f [1])
      ∧ (fun _ => true) x = true ∧ (fun _ => true) x = true
      ∧ (∀ a, Descends Interval.midpoint shift_f (fun _ => true) (effective_tol shift_f [1])
            [⟨0, 2⟩] a →
          Descends Interval.midpoint shift_f (fun _ => true) (effective_tol shift_f [1]) a x →
          (fun _ => true) a = true ∧ zero_in (shift_f a) = true)
      ∧ (zero_in (shift_f (x_tol [1])) = true → effective_tol shift_f [1] = reduce_tol [1])
      ∧ (zero_in (shift_f (x_tol [1])) = false → effective_tol shift_f [1] = [1]) :=
  ⟨(shift_run 0).2,
    interval_root_finder_sound 3 shift_f (fun _ => true) (fun _ => true) [⟨0, 2⟩] [1] 0
      (some [⟨1, 2⟩]) (shift_run 0).2⟩

theorem boxWF_example : BoxWF [⟨0, 2⟩] := by
  intro a ha
  simp only [List.mem_singleton] at ha
  subst ha
  show (0 : ℚ) ≤ 2
  norm_num

/-- Instance of C2 on the run of `shift_run`. -/
theorem interval_root_finder_earliest_witness :
    (Interval.MedianInside Interval.midpoint ∧ BoxWF [⟨0, 2⟩]
      ∧ interval_root_finder Interval.midpoint 3 shift_f (fun _ => true) (fun _ => true)
          [⟨0, 2⟩] [1] 0
        = some (true, some [⟨1, 2⟩]))
    ∧ ∃ x, some [(⟨1, 2⟩ : Interval)] = some x
      ∧ (∀ L, AcceptedLeaf Interval.midpoint shift_f (fun _ => true) (fun _ => true)
            (effective_tol shift_f [1]) [⟨0, 2⟩] L →
          ¬ (coeff L 0).lower < (coeff x 0).lower)
      ∧ (∀ X e L,
          Descends Interval.midpoint shift_f (fun _ => true) (effective_tol shift_f [1])
            [⟨0, 2⟩] X →
          Descends Interval.midpoint shift_f (fun _ => true) (effective_tol shift_f [1]) X L →
          not_before X (some e) = true → (coeff e 0).lower ≤ (coeff L 0).lower) :=
  ⟨⟨midpoint_inside, boxWF_example, (shift_run 0).2⟩,
    interval_root_finder_earliest 3 shift_f (fun _ => true) (fun _ => true) [⟨0, 2⟩] [1] 0
      (some [⟨1, 2⟩]) midpoint_inside boxWF_example (shift_run 0).2⟩

/-- A run that finds nothing: zero is not in the image of the start box `[0, 1]`. -/
theorem shift_run_none :
    interval_root_finder Interval.midpoint 1 shift_f (fun _ => true) (fun _ => true)
        [⟨0, 1⟩] [1] 0
      = some (false, none) := by
  norm_num [interval_root_finder, run, loop_body, init, effective_tol, x_tol, zero_in,
    Interval.zero_in, reduce_tol, not_before, width, Interval.width, all_le, split_axis,
    split_update, halves, coeff, Interval.bisect, Interval.midpoint, Interval.lower,
    List.range_succ, shift_f]

/-- A box `x0` that passes the tests, exceeds the tolerance and equals one of its two
halves is never worked off: with a constraint predicate that accepts nothing, the stack
holds `x0` at every iteration, and the loop does not end. -/
theorem stalled_run (median : Interval → ℚ) (f : Box → Box) (c d : Box → Bool)
    (tol : List ℚ) (x0 : Box) (hc : ∀ x, c x = false) (hd : d x0 = true)
    (hz : zero_in (f x0) = true) (hw : all_le (width x0) tol = false)
    (hsome : split_axis (width x0) tol ≠ none)
    (hhalf : ∀ i, split_axis (width x0) tol = some i →
      (halves median x0 i).1 = x0 ∨ (halves median x0 i).2 = x0) :
    ∀ (fuel : ℕ) (s : State), x0 ∈ s.xs → s.earliest_root = none →
      run median f c d tol fuel s = none := by
  intro fuel
  induction fuel with
  | zero =>
    intro s hmem _
    obtain ⟨xs, e, fnd⟩ := s
    cases xs with
    | nil => cases hmem
    | cons b rest => rfl
  | succ n ih =>
    intro s hmem he
    obtain ⟨xs, e, fnd⟩ := s
    simp only at hmem he
    subst he
    cases xs with
    | nil => cases hmem
    | cons b rest =>
      rw [run_succ_cons]
      apply ih
      · rcases loop_body_cases median f c d tol b ⟨rest, none, fnd⟩ with ⟨h1, hwhy⟩
          | ⟨_, hacc, _⟩ | ⟨_, _, _, _, i, hs, h1⟩
        · rw [h1]
          rcases List.mem_cons.mp hmem with hb | hb
          · subst hb
            rcases hwhy with hp | hp | hp | ⟨hp, _⟩ | ⟨_, hp⟩
            · simp [not_before] at hp
            · rw [hd] at hp; cases hp
            · rw [hz] at hp; cases hp
            · rw [hw] at hp; cases hp
            · exact absurd hp hsome
          · exact hb
        · have hcb := hacc.2.2.2
          rw [hc b] at hcb
          cases hcb
        · rw [h1]
          rcases List.mem_cons.mp hmem with hb | hb
          · subst hb
            rcases hhalf i hs with h | h
            · exact List.mem_cons.mpr (Or.inl h.symm)
            · exact List.mem_cons_of_mem _ (List.mem_cons.mpr (Or.inl h.symm))
          · exact List.mem_cons_of_mem _ (List.mem_cons_of_mem _ hb)
      · rcases loop_body_cases median f c d tol b ⟨rest, none, fnd⟩ with ⟨h1, _⟩
          | ⟨_, hacc, _⟩ | ⟨_, _, _, _, i, _, h1⟩
        · rw [h1]
        · have hcb := hacc.2.2.2
          rw [hc b] at hcb
          cases hcb
        · rw [h1]

theorem int_log_two (q : ℚ) (e : ℤ) (h1 : (2 : ℚ) ^ e ≤ q) (h2 : q < 2 ^ (e + 1)) :
    Int.log 2 q = e := by
  have hq : 0 < q := lt_of_lt_of_le (by positivity) h1
  apply le_antisymm
  · have := (Int.lt_zpow_iff_log_lt (by norm_num : 1 < 2) hq).mp (by exact_mod_cast h2)
    omega
  · exact (Int.zpow_le_iff_le_log (by norm_num : 1 < 2) hq).mp (by exact_mod_cast h1)

/-- The sum `(2^53 + 2) + (2^53 + 4) = 2^54 + 6` lies halfway between the two nearest
doubles `2^54 + 4` and `2^54 + 8`, and is rounded to the even one, `2^54 + 8`. -/
theorem round_sum_example : round_to_double 18014398509481990 = 18014398509481992 := by
  have hlog : Int.log 2 |(18014398509481990 : ℚ)| = 54 := by
    rw [abs_of_pos (by norm_num)]
    exact int_log_two _ 54 (by norm_num) (by norm_num)
  have hfl : ⌊(18014398509481990 : ℚ) / 2 ^ ((54 : ℤ) - 52)⌋ = 4503599627370497 := by
    rw [Int.floor_eq_iff]
    constructor <;> norm_num
  unfold round_to_double round_half_even
  rw [hlog, hfl]
  norm_num

/-- The number `2^53 + 4` is a double. -/
theorem round_upper_example : round_to_double 9007199254740996 = 9007199254740996 := by
  have hlog : Int.log 2 |(9007199254740996 : ℚ)| = 53 := by
    rw [abs_of_pos (by norm_num)]
    exact int_log_two _ 53 (by norm_num) (by norm_num)
  have hfl : ⌊(9007199254740996 : ℚ) / 2 ^ ((53 : ℤ) - 52)⌋ = 4503599627370498 := by
    rw [Int.floor_eq_iff]
    constructor <;> norm_num
  unfold round_to_double round_half_even
  rw [hlog, hfl]
  norm_num

/-- On `double` the median of `[2^53 + 2, 2^53 + 4]` is the upper bound. -/
theorem median_double_example :
    median_double ⟨9007199254740994, 9007199254740996⟩ = 9007199254740996 := by
  unfold median_double
  have h1 : ((9007199254740994 : ℚ) + 9007199254740996) = 18014398509481990 := by norm_num
  have h2 : ((18014398509481992 : ℚ) / 2) = 9007199254740996 := by norm_num
  simp only [h1, round_sum_example, h2, round_upper_example]

/-- The bounds `2^53 + 2` and `2^53 + 4` are neighbours among the doubles, so that a
median computed on `double`, however rounded, is one of the two.  With either one, one of
the two halves of `[2^53 + 2, 2^53 + 4]` is the interval itself, and the loop of
`interval_root_finder` does not end for the tolerance `1`, a function whose values contain
zero and a constraint predicate that accepts nothing. -/
theorem stalls_at_bound (median : Interval → ℚ)
    (h : median ⟨9007199254740994, 9007199254740996⟩ = 9007199254740994
      ∨ median ⟨9007199254740994, 9007199254740996⟩ = 9007199254740996)
    (fuel : ℕ) (mi : ℤ) :
    interval_root_finder median fuel (fun _ => [⟨-1, 1⟩]) (fun _ => false)
      (fun _ => true) [⟨9007199254740994, 9007199254740996⟩] [1] mi = none := by
  have hhalves : (halves median [⟨9007199254740994, 9007199254740996⟩] 0).1
        = [⟨9007199254740994, 9007199254740996⟩]
      ∨ (halves median [⟨9007199254740994, 9007199254740996⟩] 0).2
        = [⟨9007199254740994, 9007199254740996⟩] := by
    rcases h with h | h
    · right; simp [halves, coeff, Interval.bisect, h]
    · left; simp [halves, coeff, Interval.bisect, h]
  have htol : effective_tol (fun _ => [(⟨-1, 1⟩ : Interval)]) [1] = [1 / 100] := by
    norm_num [effective_tol, zero_in, Interval.zero_in, reduce_tol]
  have hw : all_le (width [(⟨9007199254740994, 9007199254740996⟩ : Interval)]) [1 / 100]
      = false := by
    norm_num [all_le, width, Interval.width, List.range_succ]
  have hs : split_axis (width [(⟨9007199254740994, 9007199254740996⟩ : Interval)])
      [1 / 100] = some 0 := by
    norm_num [split_axis, split_update, width, Interval.width, List.range_succ]
  unfold interval_root_finder
  rw [htol]
  rw [stalled_run median (fun _ => [⟨-1, 1⟩]) (fun _ => false) (fun _ => true)
    [1 / 100] [⟨9007199254740994, 9007199254740996⟩] (fun _ => rfl) rfl
    (by norm_num [zero_in, Interval.zero_in]) hw (by rw [hs]; simp)
    (fun i hi => by
      rw [hs] at hi
      cases hi
      exact hhalves)
    fuel (init _) (by simp [init]) rfl]
  rfl

/-- C4 at a failing input: the interval `[2^53 + 2, 2^53 + 4]` has two doubles as bounds
and the width `2`, above the tolerance `1 > 0`; its median on `double` is its upper bound,
so that its first half is the interval itself; with a function whose values contain zero
and a constraint predicate that accepts nothing, the loop of `interval_root_finder` does
not end, whatever the bound on the iterations. -/
theorem bisection_stalls :
    median_double ⟨9007199254740994, 9007199254740996⟩ = 9007199254740996
      ∧ (halves median_double [⟨9007199254740994, 9007199254740996⟩] 0).1
        = [⟨9007199254740994, 9007199254740996⟩]
      ∧ ∀ (fuel : ℕ) (mi : ℤ),
          interval_root_finder median_double fuel (fun _ => [⟨-1, 1⟩]) (fun _ => false)
            (fun _ => true) [⟨9007199254740994, 9007199254740996⟩] [1] mi = none :=
  ⟨median_double_example, by simp [halves, coeff, Interval.bisect, median_double_example],
    fun fuel mi => stalls_at_bound median_double (Or.inr median_double_example) fuel mi⟩

/-! ## Line search -/

theorem dot_smul (a : ℚ) (u v : Vec) : dot (smul a u) v = a * dot u v := by
  unfold dot smul
  induction u generalizing v with
  | nil => simp
  | cons p u ih =>
    cases v with
    | nil => simp
    | cons q v =>
      simp only [List.map_cons, List.zipWith_cons_cons, List.sum_cons, ih v]
      ring

/-- What the acceptance rule says, in the two cases of `armijo_rule_coeff`. -/
theorem minimization_rule_iff (x dir : Vec) (f : Vec → ℚ) (grad_fx : Vec) (a s : ℚ) :
    minimization_rule x dir f grad_fx a s = true ↔
      (a ≠ 0 → f (step_point x dir s) ≤ f x + s * a * dot dir grad_fx)
        ∧ (a = 0 → f (step_point x dir s) < f x) := by
  unfold minimization_rule
  by_cases ha : a = 0
  · simp [ha]
  · simp only [ne_eq, ha, not_false_eq_true, if_true, decide_eq_true_eq, dot_smul,
      forall_true_left, false_implies, and_true]
    rw [mul_assoc]

theorem halved_zero (s0 : ℚ) : halved s0 0 = s0 := by simp [halved]

theorem halved_succ (s0 : ℚ) (k : ℕ) : halved (s0 / 2) k = halved s0 (k + 1) := by
  unfold halved
  rw [pow_succ, div_div]
  ring_nf

/-- The loop stops at the first step of the halving sequence that is too small or
accepted, and reports which of the two happened (too small is tested first). -/
theorem line_search_loop_spec (norm : Vec → ℚ) (x dir : Vec) (f : Vec → ℚ) (grad_fx : Vec)
    (constraint : Vec → Bool) (m a : ℚ) :
    ∀ (fuel : ℕ) (s0 : ℚ) (b : Bool) (s : ℚ),
      line_search_loop norm x dir f grad_fx constraint m a fuel s0 = some (b, s) →
      ∃ k, k ≤ fuel ∧ s = halved s0 k
        ∧ (∀ j, j < k → too_small norm dir m s0 j = false
            ∧ accepted x dir f grad_fx constraint a s0 j = false)
        ∧ (b = true → too_small norm dir m s0 k = false
            ∧ accepted x dir f grad_fx constraint a s0 k = true)
        ∧ (b = false → too_small norm dir m s0 k = true) := by
  intro fuel
  induction fuel with
  | zero =>
    intro s0 b s h
    simp only [line_search_loop] at h
    split_ifs at h with hn
    simp only [Option.some.injEq, Prod.mk.injEq] at h
    refine ⟨0, le_refl _, by rw [halved_zero]; exact h.2.symm, fun j hj => by omega, ?_, ?_⟩
    · intro hb; rw [← h.1] at hb; cases hb
    · intro _
      simp only [too_small, halved_zero, decide_eq_true_eq]
      exact not_le.mp hn
  | succ n ih =>
    intro s0 b s h
    simp only [line_search_loop] at h
    split_ifs at h with hn hacc
    · simp only [Option.some.injEq, Prod.mk.injEq] at h
      refine ⟨0, Nat.zero_le _, by rw [halved_zero]; exact h.2.symm, fun j hj => by omega,
        ?_, ?_⟩
      · intro _
        refine ⟨?_, ?_⟩
        · simp only [too_small, halved_zero, decide_eq_false_iff_not, not_lt]
          exact hn
        · simp only [accepted, halved_zero]
          exact hacc
      · intro hb; rw [← h.1] at hb; cases hb
    · obtain ⟨k, hk, hs, hmin, htrue, hfalse⟩ := ih _ _ _ h
      refine ⟨k + 1, by omega, by rw [← halved_succ]; exact hs, ?_, ?_, ?_⟩
      · intro j hj
        cases j with
        | zero =>
          refine ⟨?_, ?_⟩
          · simp only [too_small, halved_zero, decide_eq_false_iff_not, not_lt]
            exact hn
          · simp only [accepted, halved_zero]
            simpa using hacc
        | succ j =>
          have := hmin j (by omega)
          simpa only [too_small, accepted, halved_succ] using this
      · intro hb
        simpa only [too_small, accepted, halved_succ] using htrue hb
      · intro hb
        simpa only [too_small, accepted, halved_succ] using hfalse hb
    · simp only [Option.some.injEq, Prod.mk.injEq] at h
      refine ⟨0, Nat.zero_le _, by rw [halved_zero]; exact h.2.symm, fun j hj => by omega,
        ?_, ?_⟩
      · intro hb; rw [← h.1] at hb; cases hb
      · intro _
        simp only [too_small, halved_zero, decide_eq_true_eq]
        exact not_le.mp hn

/-- What a true result of `constrained_line_search` means for the final step length. -/
theorem line_search_true_spec {norm : Vec → ℚ} {fuel : ℕ} {x dir : Vec}
    {f : Vec → ℚ} {grad_fx : Vec} {constraint : Vec → Bool}
    {s0 min_step_length armijo_rule_coeff s : ℚ}
    (h : constrained_line_search norm fuel x dir f grad_fx constraint s0 min_step_length
      armijo_rule_coeff = some (true, s)) :
    constraint (step_point x dir s) = true
      ∧ (armijo_rule_coeff ≠ 0 →
          f (step_point x dir s) ≤ f x + s * armijo_rule_coeff * dot dir grad_fx)
      ∧ (armijo_rule_coeff = 0 → f (step_point x dir s) < f x)
      ∧ norm (smul s dir) ≥ min_step_length := by
  obtain ⟨k, _, hs, _, htrue, _⟩ := line_search_loop_spec norm x dir f grad_fx constraint
    min_step_length armijo_rule_coeff fuel s0 true s h
  obtain ⟨hsmall, hacc⟩ := htrue rfl
  simp only [accepted, Bool.and_eq_true, ← hs] at hacc
  simp only [too_small, ← hs, decide_eq_false_iff_not, not_lt] at hsmall
  have hrule := (minimization_rule_iff x dir f grad_fx armijo_rule_coeff s).mp hacc.1
  exact ⟨hacc.2, hrule.1, hrule.2, hsmall⟩

/-- C7: whenever `constrained_line_search` returns true, the final step length `s`
satisfies the constraint predicate at `x + s * dir` and the acceptance rule (the Armijo
inequality when `armijo_rule_coeff != 0`, strict decrease when it is zero), and the norm
of `s * dir` is at least `min_step_length`. -/
theorem constrained_line_search_accepts (norm : Vec → ℚ) (fuel : ℕ) (x dir : Vec)
    (f : Vec → ℚ) (grad_fx : Vec) (constraint : Vec → Bool)
    (s0 min_step_length armijo_rule_coeff s : ℚ)
    (h : constrained_line_search norm fuel x dir f grad_fx constraint s0 min_step_length
      armijo_rule_coeff = some (true, s)) :
    constraint (step_point x dir s) = true
      ∧ (armijo_rule_coeff ≠ 0 →
          f (step_point x dir s) ≤ f x + s * armijo_rule_coeff * dot dir grad_fx)
      ∧ (armijo_rule_coeff = 0 → f (step_point x dir s) < f x)
      ∧ norm (smul s dir) ≥ min_step_length :=
  line_search_true_spec h

/-- A line search on vectors of size one: `f(v) = v(0)²`, from `x = 1` along `dir = -4`
with the gradient `2`, is accepted after two halvings. -/
theorem line_search_example (a : ℚ) (ha : a = 0 ∨ a = 1 / 2) :
    constrained_line_search norm1 3 [1] [-4] (fun v => (v.headD 0) ^ 2) [2]
      (fun _ => true) 1 (1 / 100) a = some (true, 1 / 4) := by
  rcases ha with ha | ha <;> subst ha <;>
  norm_num [constrained_line_search, line_search_loop, minimization_rule, step_point,
    vadd, smul, dot, norm1]

/-- Instance of C7 on the run of `line_search_example`. -/
theorem constrained_line_search_accepts_witness :
    constrained_line_search norm1 3 [1] [-4] (fun v => (v.headD 0) ^ 2) [2]
        (fun _ => true) 1 (1 / 100) (1 / 2) = some (true, 1 / 4)
      ∧ (fun _ => true) (step_point [1] [-4] (1 / 4)) = true
      ∧ ((1 / 2 : ℚ) ≠ 0 →
          (fun v : Vec => (v.headD 0) ^ 2) (step_point [1] [-4] (1 / 4))
            ≤ (fun v : Vec => (v.headD 0) ^ 2) [1] + 1 / 4 * (1 / 2) * dot [-4] [2])
      ∧ ((1 / 2 : ℚ) = 0 →
          (fun v : Vec => (v.headD 0) ^ 2) (step_point [1] [-4] (1 / 4))
            < (fun v : Vec => (v.headD 0) ^ 2) [1])
      ∧ norm1 (smul (1 / 4) [-4]) ≥ 1 / 100 :=
  ⟨line_search_example (1 / 2) (Or.inr rfl),
    constrained_line_search_accepts norm1 3 [1] [-4] (fun v => (v.headD 0) ^ 2) [2]
      (fun _ => true) 1 (1 / 100) (1 / 2) (1 / 4)
      (line_search_example (1 / 2) (Or.inr rfl))⟩

/-- C8: `constrained_line_search` only halves the step.  On return the step length is
`s0 / 2^k` for the least `k` at which the step is accepted (acceptance rule and
constraint) or its norm is below `min_step_length`; it returns true when the step at that
`k` is accepted and not too small, and false when it is too small.  Hence it returns true
iff an accepted step occurs in the halving sequence before the norm drops below
`min_step_length`; and for `s0` in `(0, 1]` the returned step lies in `(0, 1]`. -/
theorem constrained_line_search_halves (norm : Vec → ℚ) (fuel : ℕ) (x dir : Vec)
    (f : Vec → ℚ) (grad_fx : Vec) (constraint : Vec → Bool)
    (s0 min_step_length armijo_rule_coeff : ℚ) (b : Bool) (s : ℚ)
    (h : constrained_line_search norm fuel x dir f grad_fx constraint s0 min_step_length
      armijo_rule_coeff = some (b, s)) :
    ∃ k, s = s0 / 2 ^ k
      ∧ (∀ j, j < k → too_small norm dir min_step_length s0 j = false
          ∧ accepted x dir f grad_fx constraint armijo_rule_coeff s0 j = false)
      ∧ (b = true ↔ too_small norm dir min_step_length s0 k = false
          ∧ accepted x dir f grad_fx constraint armijo_rule_coeff s0 k = true)
      ∧ (b = false ↔ too_small norm dir min_step_length s0 k = true)
      ∧ (b = true ↔ ∃ k', accepted x dir f grad_fx constraint armijo_rule_coeff s0 k' = true
          ∧ ∀ j, j ≤ k' → too_small norm dir min_step_length s0 j = false)
      ∧ (0 < s0 → s0 ≤ 1 → 0 < s ∧ s ≤ 1) := by
  obtain ⟨k, _, hs, hmin, htrue, hfalse⟩ := line_search_loop_spec norm x dir f grad_fx
    constraint min_step_length armijo_rule_coeff fuel s0 b s h
  have hb1 : b = true ↔ too_small norm dir min_step_length s0 k = false
      ∧ accepted x dir f grad_fx constraint armijo_rule_coeff s0 k = true := by
    constructor
    · exact htrue
    · intro hk
      cases b with
      | true => rfl
      | false => rw [hfalse rfl] at hk; cases hk.1
  have hb2 : b = false ↔ too_small norm dir min_step_length s0 k = true := by
    constructor
    · exact hfalse
    · intro hk
      cases b with
      | false => rfl
      | true => rw [(htrue rfl).1] at hk; cases hk
  refine ⟨k, hs, hmin, hb1, hb2, ?_, ?_⟩
  · constructor
    · intro hb
      refine ⟨k, (htrue hb).2, fun j hj => ?_⟩
      rcases Nat.lt_or_eq_of_le hj with hlt | heq
      · exact (hmin j hlt).1
      · rw [heq]; exact (htrue hb).1
    · rintro ⟨k', hacc, hnot⟩
      cases hbv : b with
      | true => rfl
      | false =>
        have hsm := hb2.mp hbv
        rcases Nat.lt_or_ge k' k with hlt | hge
        · rw [(hmin k' hlt).2] at hacc; cases hacc
        · rw [hnot k hge] at hsm; cases hsm
  · intro hpos hle
    rw [hs]
    have hp : (0 : ℚ) < 2 ^ k := by positivity
    have h1 : (1 : ℚ) ≤ 2 ^ k := one_le_pow₀ (by norm_num)
    refine ⟨div_pos hpos hp, ?_⟩
    rw [halved, div_le_iff₀ hp]
    nlinarith

/-- Instance of C8 on the run of `line_search_example`. -/
theorem constrained_line_search_halves_witness :
    constrained_line_search norm1 3 [1] [-4] (fun v => (v.headD 0) ^ 2) [2]
        (fun _ => true) 1 (1 / 100) 0 = some (true, 1 / 4)
    ∧ ∃ k, (1 / 4 : ℚ) = 1 / 2 ^ k
      ∧ (∀ j, j < k → too_small norm1 [-4] (1 / 100) 1 j = false
          ∧ accepted [1] [-4] (fun v => (v.headD 0) ^ 2) [2] (fun _ => true) 0 1 j = false)
      ∧ (true = true ↔ too_small norm1 [-4] (1 / 100) 1 k = false
          ∧ accepted [1] [-4] (fun v => (v.headD 0) ^ 2) [2] (fun _ => true) 0 1 k = true)
      ∧ (true = false ↔ too_small norm1 [-4] (1 / 100) 1 k = true)
      ∧ (true = true ↔
          ∃ k', accepted [1] [-4] (fun v => (v.headD 0) ^ 2) [2] (fun _ => true) 0 1 k' = true
            ∧ ∀ j, j ≤ k' → too_small norm1 [-4] (1 / 100) 1 j = false)
      ∧ ((0 : ℚ) < 1 → (1 : ℚ) ≤ 1 → (0 : ℚ) < 1 / 4 ∧ (1 / 4 : ℚ) ≤ 1) :=
  ⟨line_search_example 0 (Or.inl rfl),
    constrained_line_search_halves norm1 3 [1] [-4] (fun v => (v.headD 0) ^ 2) [2]
      (fun _ => true) 1 (1 / 100) 0 true (1 / 4) (line_search_example 0 (Or.inl rfl))⟩

/-- C9 at a failing input: the comments above `line_search` and `constrained_line_search`
state that the step length found is "such that f(x + step_length * dir) ≤ f(x)"; yet for
`f(v) = v(0)`, `x = 0`, `dir = 1`, the gradient `1` and `armijo_rule_coeff = 1`, both
`constrained_line_search` and `line_search` return true with the step length `1`, although
`f(x + dir) = 1 > 0 = f(x)`. -/
theorem line_search_may_increase :
    constrained_line_search norm1 1 [0] [1] (fun v => v.headD 0) [1] (fun _ => true) 1 0 1
        = some (true, 1)
      ∧ line_search norm1 1 [0] [1] (fun v => v.headD 0) [1] 1 0 1 = some (true, 1)
      ∧ ¬ ((fun v : Vec => v.headD 0) (step_point [0] [1] 1)
          ≤ (fun v : Vec => v.headD 0) [0]) := by
  refine ⟨?_, ?_, ?_⟩ <;>
  norm_num [line_search, constrained_line_search, line_search_loop, minimization_rule,
    step_point, vadd, smul, dot, norm1]

/-- Where the decrease does hold: whenever `constrained_line_search` or `line_search`
returns true and either `armijo_rule_coeff = 0` or
`step_length * armijo_rule_coeff * (dir . grad_fx) ≤ 0`
(as for a descent direction with a positive coefficient and step), the resulting step
length satisfies `f(x + step_length * dir) ≤ f(x)`; for the `line_search` overload without
a gradient this holds whenever it returns true. -/
theorem line_search_decrease (norm : Vec → ℚ) (fuel : ℕ) (x dir : Vec) (f : Vec → ℚ)
    (grad_fx : Vec) (constraint : Vec → Bool) (s0 min_step_length armijo_rule_coeff s : ℚ)
    (h : (constrained_line_search norm fuel x dir f grad_fx constraint s0 min_step_length
            armijo_rule_coeff = some (true, s)
          ∧ (armijo_rule_coeff = 0 ∨ s * armijo_rule_coeff * dot dir grad_fx ≤ 0))
        ∨ (line_search norm fuel x dir f grad_fx s0 min_step_length armijo_rule_coeff
            = some (true, s)
          ∧ (armijo_rule_coeff = 0 ∨ s * armijo_rule_coeff * dot dir grad_fx ≤ 0))
        ∨ line_search_plain norm fuel x dir f s0 min_step_length = some (true, s)) :
    f (step_point x dir s) ≤ f x := by
  have key : ∀ (g : Vec) (cs : Vec → Bool) (a : ℚ),
      constrained_line_search norm fuel x dir f g cs s0 min_step_length a = some (true, s) →
      (a = 0 ∨ s * a * dot dir g ≤ 0) → f (step_point x dir s) ≤ f x := by
    intro g cs a hr hc
    obtain ⟨_, h1, h2, _⟩ := line_search_true_spec hr
    by_cases ha : a = 0
    · exact le_of_lt (h2 ha)
    · rcases hc with hc | hc
      · exact absurd hc ha
      · linarith [h1 ha]
  rcases h with ⟨hr, hc⟩ | ⟨hr, hc⟩ | hr
  · exact key _ _ _ hr hc
  · exact key _ _ _ hr hc
  · exact key _ _ _ hr (Or.inl rfl)

/-- Instance of `line_search_decrease` on the run of `line_search_example`. -/
theorem line_search_decrease_witness :
    (constrained_line_search norm1 3 [1] [-4] (fun v => (v.headD 0) ^ 2) [2]
          (fun _ => true) 1 (1 / 100) (1 / 2) = some (true, 1 / 4)
        ∧ (1 / 4 : ℚ) * (1 / 2) * dot [-4] [2] ≤ 0)
      ∧ (fun v : Vec => (v.headD 0) ^ 2) (step_point [1] [-4] (1 / 4))
        ≤ (fun v : Vec => (v.headD 0) ^ 2) [1] :=
  ⟨⟨line_search_example (1 / 2) (Or.inr rfl), by norm_num [dot]⟩,
    line_search_decrease norm1 3 [1] [-4] (fun v => (v.headD 0) ^ 2) [2] (fun _ => true)
      1 (1 / 100) (1 / 2) (1 / 4)
      (Or.inl ⟨line_search_example (1 / 2) (Or.inr rfl), Or.inr (by norm_num [dot])⟩)⟩

/-! ## `zero_in` on vectors -/

theorem interval_zero_in_iff (a : Interval) : a.zero_in = true ↔ a.lo ≤ 0 ∧ 0 ≤ a.hi := by
  simp [Interval.zero_in]

theorem coeff_cons_zero (a : Interval) (x : Box) : coeff (a :: x) 0 = a := rfl

theorem coeff_cons_succ (a : Interval) (x : Box) (i : ℕ) :
    coeff (a :: x) (i + 1) = coeff x i := rfl

theorem zero_in_eq_true_iff (x : Box) :
    zero_in x = true ↔ ∀ i, i < x.length → (coeff x i).zero_in = true := by
  induction x with
  | nil => simp [zero_in]
  | cons a rest ih =>
    simp only [zero_in, List.length_cons]
    constructor
    · intro h i hi
      cases ha : a.zero_in with
      | false => simp [ha] at h
      | true =>
        simp only [ha, Bool.not_true, Bool.false_eq_true, if_false] at h
        cases i with
        | zero => rw [coeff_cons_zero]; exact ha
        | succ j => rw [coeff_cons_succ]; exact ih.mp h j (by omega)
    · intro h
      have ha : a.zero_in = true := h 0 (by omega)
      simp only [ha, Bool.not_true, Bool.false_eq_true, if_false]
      exact ih.mpr fun i hi => by
        have := h (i + 1) (by omega)
        rwa [coeff_cons_succ] at this

/-- C10: for every vector (or matrix, through its coefficients) `x` of intervals,
`zero_in(x)` returns true if and only if `0` lies in `x(i)` for every component `i`; in
particular it returns true for an empty vector and false as soon as one component
excludes `0`. -/
theorem zero_in_iff_all (x : Box) :
    (zero_in x = true ↔ ∀ i, i < x.length → (coeff x i).lo ≤ 0 ∧ 0 ≤ (coeff x i).hi)
      ∧ zero_in [] = true
      ∧ (∀ i, i < x.length → ¬ ((coeff x i).lo ≤ 0 ∧ 0 ≤ (coeff x i).hi) →
          zero_in x = false) := by
  have h1 : zero_in x = true ↔
      ∀ i, i < x.length → (coeff x i).lo ≤ 0 ∧ 0 ≤ (coeff x i).hi := by
    rw [zero_in_eq_true_iff]
    constructor
    · intro h i hi; exact (interval_zero_in_iff _).mp (h i hi)
    · intro h i hi; exact (interval_zero_in_iff _).mpr (h i hi)
  refine ⟨h1, rfl, fun i hi hn => ?_⟩
  cases hz : zero_in x with
  | false => rfl
  | true => exact absurd (h1.mp hz i hi) hn

end ccd

namespace ccd

/-! ## AABB -/

theorem cwise_le_iff (a b : Vec) :
    cwise_le a b = true ↔ ∀ i, i < a.length → i < b.length → vcoeff a i ≤ vcoeff b i := by
  unfold cwise_le vcoeff
  induction a generalizing b with
  | nil => simp
  | cons p a ih =>
    cases b with
    | nil => simp
    | cons q b =>
      simp only [List.zipWith_cons_cons, List.all_cons, id_eq, Bool.and_eq_true,
        decide_eq_true_eq, List.length_cons]
      rw [ih b]
      constructor
      · rintro ⟨h0, h⟩ i hi hj
        cases i with
        | zero => simpa using h0
        | succ k => simpa using h k (by omega) (by omega)
      · intro h
        refine ⟨by simpa using h 0 (by omega) (by omega), fun i hi hj => ?_⟩
        simpa using h (i + 1) (by omega) (by omega)

theorem vcoeff_zipWith (g : ℚ → ℚ → ℚ) (a b : Vec) (i : ℕ) (ha : i < a.length)
    (hb : i < b.length) : vcoeff (List.zipWith g a b) i = g (vcoeff a i) (vcoeff b i) := by
  unfold vcoeff
  simp [List.getD_eq_getElem?_getD, List.getElem?_zipWith, List.getElem?_eq_getElem ha,
    List.getElem?_eq_getElem hb]

theorem vcoeff_map (g : ℚ → ℚ) (a : Vec) (i : ℕ) (ha : i < a.length) :
    vcoeff (a.map g) i = g (vcoeff a i) := by
  unfold vcoeff
  simp [List.getD_eq_getElem?_getD, List.getElem?_eq_getElem ha]

/-- The constructor establishes the invariant when its assertions hold. -/
theorem from_min_max_invariant (min max : Vec) (h : AABB.asserts min max = true) :
    (AABB.from_min_max min max).Invariant := by
  simp only [AABB.asserts, Bool.and_eq_true, decide_eq_true_eq, Nat.cast_inj] at h
  obtain ⟨hle, hlen⟩ := h
  rw [cwise_le_iff] at hle
  simp only [AABB.Invariant, AABB.from_min_max, vdiv, vsub, vadd, List.length_map,
    List.length_zipWith, hlen, Nat.min_self, Nat.cast_inj, true_and]
  intro i hi
  have hmaxlen : i < max.length := by omega
  have hsub : vcoeff (List.zipWith (fun p q => p - q) max min) i
      = vcoeff max i - vcoeff min i := vcoeff_zipWith _ _ _ _ hmaxlen hi
  have hhalf : vcoeff (List.map (fun p => p / 2) (List.zipWith (fun p q => p - q) max min)) i
      = (vcoeff max i - vcoeff min i) / 2 := by
    rw [vcoeff_map _ _ _ (by simp [hlen, hi]), hsub]
  have hcen : vcoeff (List.zipWith (fun p q => p + q) min
        (List.map (fun p => p / 2) (List.zipWith (fun p q => p - q) max min))) i
      = vcoeff min i + (vcoeff max i - vcoeff min i) / 2 := by
    rw [vcoeff_zipWith _ _ _ _ hi (by simp [hlen, hi]), hhalf]
  refine ⟨hle i hi hmaxlen, hhalf, ?_, ?_⟩
  · rw [hcen, hhalf]
  · rw [hcen]; ring

/-- The arguments that the union constructor passes on satisfy the assertions of the
delegated constructor, when both boxes satisfy the invariant. -/
theorem from_union_asserts (a b : AABB) (ha : a.Invariant) (hb : b.Invariant) :
    AABB.asserts (cwise_min a.min b.min) (cwise_max a.max b.max) = true := by
  obtain ⟨ha1, ha2, _, _, ha5⟩ := ha
  obtain ⟨hb1, hb2, _, _, hb5⟩ := hb
  have hla : a.max.length = a.min.length := by exact_mod_cast ha2.trans ha1.symm
  have hlb : b.max.length = b.min.length := by exact_mod_cast hb2.trans hb1.symm
  simp only [AABB.asserts, Bool.and_eq_true, decide_eq_true_eq, Nat.cast_inj]
  refine ⟨?_, by simp [cwise_min, cwise_max, hla, hlb]⟩
  rw [cwise_le_iff]
  intro i hi _
  simp only [cwise_min, List.length_zipWith, lt_min_iff] at hi
  rw [cwise_min, cwise_max, vcoeff_zipWith _ _ _ _ hi.1 hi.2,
    vcoeff_zipWith _ _ _ _ (by omega) (by omega)]
  exact le_trans (min_le_left _ _) (le_trans (ha5 i hi.1).1 (le_max_left _ _))

theorem built_invariant {b : AABB} (h : AABB.Built b) : b.Invariant := by
  induction h with
  | from_min_max min max hab => exact from_min_max_invariant min max hab
  | from_union a b _ _ iha ihb =>
    exact from_min_max_invariant _ _ (from_union_asserts a b iha ihb)

/-- C11: every AABB built by `AABB(min, max)` with its assertions holding (`min <= max`
componentwise), or by the union constructor from such boxes, satisfies `min <= max`
componentwise, `half_extent = (max - min) / 2` and
`center = min + half_extent = (min + max) / 2`; and the union constructor of two such boxes
never violates the assertions of the delegated constructor. -/
theorem aabb_invariant (b : AABB) (h : AABB.Built b) :
    b.Invariant
      ∧ ∀ c, AABB.Built c →
          AABB.asserts (cwise_min b.min c.min) (cwise_max b.max c.max) = true
          ∧ (AABB.from_union b c).Invariant := by
  refine ⟨built_invariant h, fun c hc => ?_⟩
  exact ⟨from_union_asserts b c (built_invariant h) (built_invariant hc),
    built_invariant (AABB.Built.from_union b c h hc)⟩

/-- Instance of C11: the union of the boxes `[0, 1] x [0, 2]` and `[-1, 3] x [1, 1]`. -/
theorem aabb_invariant_witness :
    AABB.Built (AABB.from_union (AABB.from_min_max [0, 0] [1, 2])
        (AABB.from_min_max [-1, 1] [3, 1]))
      ∧ (AABB.from_union (AABB.from_min_max [0, 0] [1, 2])
          (AABB.from_min_max [-1, 1] [3, 1])).Invariant
      ∧ ∀ c, AABB.Built c →
          AABB.asserts
              (cwise_min (AABB.from_union (AABB.from_min_max [0, 0] [1, 2])
                (AABB.from_min_max [-1, 1] [3, 1])).min c.min)
              (cwise_max (AABB.from_union (AABB.from_min_max [0, 0] [1, 2])
                (AABB.from_min_max [-1, 1] [3, 1])).max c.max) = true
          ∧ (AABB.from_union (AABB.from_union (AABB.from_min_max [0, 0] [1, 2])
                (AABB.from_min_max [-1, 1] [3, 1])) c).Invariant :=
  have hb : AABB.Built (AABB.from_union (AABB.from_min_max [0, 0] [1, 2])
      (AABB.from_min_max [-1, 1] [3, 1])) :=
    AABB.Built.from_union _ _
      (AABB.Built.from_min_max _ _ (by norm_num [AABB.asserts, cwise_le]))
      (AABB.Built.from_min_max _ _ (by norm_num [AABB.asserts, cwise_le]))
  ⟨hb, aabb_invariant _ hb⟩

/-- C12: for AABBs `a` and `b` of equal dimension `n`, the union `AABB(a, b)` has `min`
equal to the componentwise minimum of `a.min` and `b.min` and `max` equal to the
componentwise maximum of `a.max` and `b.max`; it contains both `a` and `b` and is
contained in every AABB that contains both. -/
theorem aabb_union_hull (a b : AABB) (n : ℕ)
    (ha : a.min.length = n ∧ a.max.length = n) (hb : b.min.length = n ∧ b.max.length = n) :
    ((AABB.from_union a b).min.length = n ∧ (AABB.from_union a b).max.length = n)
      ∧ (∀ i, i < n →
          vcoeff (AABB.from_union a b).min i = Min.min (vcoeff a.min i) (vcoeff b.min i)
          ∧ vcoeff (AABB.from_union a b).max i = Max.max (vcoeff a.max i) (vcoeff b.max i))
      ∧ (AABB.from_union a b).Contains a
      ∧ (AABB.from_union a b).Contains b
      ∧ ∀ c : AABB, c.Contains a → c.Contains b → c.Contains (AABB.from_union a b) := by
  obtain ⟨ha1, ha2⟩ := ha
  obtain ⟨hb1, hb2⟩ := hb
  have hmin : (AABB.from_union a b).min = cwise_min a.min b.min := rfl
  have hmax : (AABB.from_union a b).max = cwise_max a.max b.max := rfl
  have hlmin : (AABB.from_union a b).min.length = n := by
    simp [hmin, cwise_min, ha1, hb1]
  have hlmax : (AABB.from_union a b).max.length = n := by
    simp [hmax, cwise_max, ha2, hb2]
  have hco : ∀ i, i < n →
      vcoeff (AABB.from_union a b).min i = Min.min (vcoeff a.min i) (vcoeff b.min i)
      ∧ vcoeff (AABB.from_union a b).max i = Max.max (vcoeff a.max i) (vcoeff b.max i) := by
    intro i hi
    rw [hmin, hmax, cwise_min, cwise_max]
    exact ⟨vcoeff_zipWith _ _ _ _ (by omega) (by omega),
      vcoeff_zipWith _ _ _ _ (by omega) (by omega)⟩
  refine ⟨⟨hlmin, hlmax⟩, hco, ?_, ?_, ?_⟩
  · refine ⟨by omega, by omega, fun i hi => ?_⟩
    rw [(hco i (by omega)).1, (hco i (by omega)).2]
    exact ⟨min_le_left _ _, le_max_left _ _⟩
  · refine ⟨by omega, by omega, fun i hi => ?_⟩
    rw [(hco i (by omega)).1, (hco i (by omega)).2]
    exact ⟨min_le_right _ _, le_max_right _ _⟩
  · rintro c ⟨hca1, hca2, hca⟩ ⟨_, _, hcb⟩
    refine ⟨by omega, by omega, fun i hi => ?_⟩
    rw [hlmin] at hi
    rw [(hco i hi).1, (hco i hi).2]
    exact ⟨le_min (hca i (by omega)).1 (hcb i (by omega)).1,
      max_le (hca i (by omega)).2 (hcb i (by omega)).2⟩

/-- Instance of C12 for the boxes `[0, 1] x [0, 2]` and `[-1, 3] x [1, 1]`. -/
theorem aabb_union_hull_witness :
    ((AABB.from_min_max [0, 0] [1, 2]).min.length = 2
        ∧ (AABB.from_min_max [0, 0] [1, 2]).max.length = 2)
      ∧ ((AABB.from_min_max [-1, 1] [3, 1]).min.length = 2
        ∧ (AABB.from_min_max [-1, 1] [3, 1]).max.length = 2)
      ∧ (AABB.from_union (AABB.from_min_max [0, 0] [1, 2])
          (AABB.from_min_max [-1, 1] [3, 1])).Contains (AABB.from_min_max [0, 0] [1, 2]) :=
  ⟨⟨rfl, rfl⟩, ⟨rfl, rfl⟩,
    (aabb_union_hull (AABB.from_min_max [0, 0] [1, 2]) (AABB.from_min_max [-1, 1] [3, 1]) 2
      ⟨rfl, rfl⟩ ⟨rfl, rfl⟩).2.2.1⟩

/-! ## Hash items and cell keys -/

theorem hashItem_lt_iff (a b : HashItem) :
    a.lt b = true ↔ (a.key < b.key ∨ (a.key = b.key ∧ a.id < b.id)) := by
  unfold HashItem.lt
  split_ifs with h
  · simp only [decide_eq_true_eq]
    constructor
    · intro hid; exact Or.inr ⟨h, hid⟩
    · rintro (hk | ⟨_, hid⟩)
      · omega
      · exact hid
  · simp only [decide_eq_true_eq]
    constructor
    · intro hk; exact Or.inl hk
    · rintro (hk | ⟨hk, _⟩)
      · exact hk
      · exact absurd hk h

/-- C13: `HashItem::operator<` is the strict lexicographic order on `(key, id)`; it is
irreflexive and transitive, for any two items exactly one of `a < b`, `b < a` and
`(a.key, a.id) = (b.key, b.id)` holds, and the `aabb` field never affects the
comparison. -/
theorem hashItem_lt_lex :
    (∀ a b : HashItem,
        a.lt b = true ↔ (a.key < b.key ∨ (a.key = b.key ∧ a.id < b.id)))
      ∧ (∀ a : HashItem, a.lt a = false)
      ∧ (∀ a b c : HashItem, a.lt b = true → b.lt c = true → a.lt c = true)
      ∧ (∀ a b : HashItem,
          (a.lt b = true ∧ b.lt a = false ∧ (a.key, a.id) ≠ (b.key, b.id))
          ∨ (a.lt b = false ∧ b.lt a = true ∧ (a.key, a.id) ≠ (b.key, b.id))
          ∨ (a.lt b = false ∧ b.lt a = false ∧ (a.key, a.id) = (b.key, b.id)))
      ∧ (∀ (a b : HashItem) (aabb1 aabb2 : AABB),
          HashItem.lt { a with aabb := aabb1 } { b with aabb := aabb2 } = a.lt b) := by
  refine ⟨hashItem_lt_iff, ?_, ?_, ?_, ?_⟩
  · intro a
    cases h : a.lt a with
    | false => rfl
    | true => rw [hashItem_lt_iff] at h; omega
  · intro a b c hab hbc
    rw [hashItem_lt_iff] at hab hbc ⊢
    omega
  · intro a b
    have hn : ∀ p q : HashItem, p.lt q = false ↔
        ¬ (p.key < q.key ∨ (p.key = q.key ∧ p.id < q.id)) := by
      intro p q
      rw [← hashItem_lt_iff, Bool.not_eq_true]
    simp only [hashItem_lt_iff, hn, ne_eq, Prod.mk.injEq]
    omega
  · intro a b aabb1 aabb2
    rfl

/-- An `int` operation whose mathematical result fits the `int` range gives that
result. -/
theorem wrap_int_of_fits (n : ℤ) (h1 : -2147483648 ≤ n) (h2 : n < 2147483648) :
    wrap_int n = n := by
  unfold wrap_int
  omega

/-- For grid sizes up to 1290 no operation of `hash` overflows, and the key is the
mathematical value, which lies in `[0, S^3)`. -/
theorem hash_exact (S x y z : ℤ) (hS : 1 ≤ S) (hS2 : S ≤ 1290)
    (hx : 0 ≤ x ∧ x < S) (hy : 0 ≤ y ∧ y < S) (hz : 0 ≤ z ∧ z < S) :
    HashGrid.hash S x y z = (z * S + y) * S + x
      ∧ 0 ≤ (z * S + y) * S + x ∧ (z * S + y) * S + x < S ^ 3 := by
  have h1 : 0 ≤ z * S := by nlinarith
  have h2 : z * S ≤ (S - 1) * S := by nlinarith
  have h3 : (S - 1) * S ≤ 1289 * 1290 := by nlinarith
  have h4 : 0 ≤ (z * S + y) * S := by nlinarith
  have h5 : (z * S + y) * S ≤ ((S - 1) * S + (S - 1)) * S := by nlinarith
  have h6 : ((S - 1) * S + (S - 1)) * S + (S - 1) = S ^ 3 - 1 := by ring
  have h7 : S ^ 3 ≤ 1290 ^ 3 := by
    have : S ^ 2 ≤ 1290 ^ 2 := by nlinarith
    nlinarith
  unfold HashGrid.hash
  rw [wrap_int_of_fits (z * S) (by omega) (by omega),
    wrap_int_of_fits (z * S + y) (by omega) (by omega),
    wrap_int_of_fits ((z * S + y) * S) (by omega) (by omega),
    wrap_int_of_fits ((z * S + y) * S + x) (by omega) (by omega)]
  refine ⟨rfl, by omega, by omega⟩

/-- The mathematical key determines the cell. -/
theorem key_injective (S x y z x' y' z' : ℤ)
    (hx : 0 ≤ x ∧ x < S) (hy : 0 ≤ y ∧ y < S)
    (hx' : 0 ≤ x' ∧ x' < S) (hy' : 0 ≤ y' ∧ y' < S)
    (h : (z * S + y) * S + x = (z' * S + y') * S + x') :
    x = x' ∧ y = y' ∧ z = z' := by
  have hS : 0 < S := by omega
  have hdiv : ∀ q r q' r' : ℤ, 0 ≤ r → r < S → 0 ≤ r' → r' < S →
      q * S + r = q' * S + r' → q = q' ∧ r = r' := by
    intro q r q' r' h1 h2 h3 h4 he
    have hq : q = q' := by
      by_contra hne
      rcases lt_or_gt_of_ne hne with hlt | hgt
      · have : (q + 1) * S ≤ q' * S := by nlinarith
        nlinarith
      · have : (q' + 1) * S ≤ q * S := by nlinarith
        nlinarith
    subst hq
    exact ⟨rfl, by linarith⟩
  obtain ⟨h1, h2⟩ := hdiv _ _ _ _ hx.1 hx.2 hx'.1 hx'.2 h
  obtain ⟨h3, h4⟩ := hdiv _ _ _ _ hy.1 hy.2 hy'.1 hy'.2 h1
  exact ⟨h2, h4, h3⟩

/-- C14 at a failing input: for the grid size `S = 1291` the cell `(1290, 1290, 1290)`
passes the assertions of `hash`, its mathematical key `1291^3 - 1` exceeds the `int`
range, and the key computed is negative; for `S = 2048` the distinct cells `(0, 0, 0)`
and `(0, 0, 1024)` pass the assertions and get the same key. -/
theorem hash_overflows :
    HashGrid.hash_asserts 1291 1290 1290 1290 = true
      ∧ HashGrid.hash 1291 1290 1290 1290 < 0
      ∧ HashGrid.hash 1291 1290 1290 1290 ≠ (1290 * 1291 + 1290) * 1291 + 1290
      ∧ HashGrid.hash_asserts 2048 0 0 1024 = true
      ∧ HashGrid.hash_asserts 2048 0 0 0 = true
      ∧ HashGrid.hash 2048 0 0 1024 = HashGrid.hash 2048 0 0 0 := by
  refine ⟨by decide, by decide, by decide, by decide, by decide, by decide⟩

/-- For every grid size `S` with `1 <= S <= 1290` and all cell coordinates with
`0 <= x, y, z < S`, `hash(x, y, z)` is `(z * S + y) * S + x`, a non-negative integer
strictly less than `S^3`, and `hash` is injective on such cells. -/
theorem hash_injective (S x y z : ℤ) (hS : 1 ≤ S) (hS2 : S ≤ 1290)
    (hx : 0 ≤ x ∧ x < S) (hy : 0 ≤ y ∧ y < S) (hz : 0 ≤ z ∧ z < S) :
    HashGrid.hash S x y z = (z * S + y) * S + x
      ∧ 0 ≤ HashGrid.hash S x y z ∧ HashGrid.hash S x y z < S ^ 3
      ∧ ∀ x' y' z' : ℤ, 0 ≤ x' ∧ x' < S → 0 ≤ y' ∧ y' < S → 0 ≤ z' ∧ z' < S →
          HashGrid.hash S x' y' z' = HashGrid.hash S x y z → x' = x ∧ y' = y ∧ z' = z := by
  obtain ⟨he, h0, h1⟩ := hash_exact S x y z hS hS2 hx hy hz
  refine ⟨he, by rw [he]; exact h0, by rw [he]; exact h1, ?_⟩
  intro x' y' z' hx' hy' hz' h
  rw [he, (hash_exact S x' y' z' hS hS2 hx' hy' hz').1] at h
  exact key_injective S x' y' z' x y z hx' hy' hx hy h

/-! ## Rigid-body hash grid -/

/-- A loop over a pair whose two components are updated independently is the pair of the
two loops. -/
theorem foldl_pair {α β ι : Type} (g : α → ι → α) (h : β → ι → β) (l : List ι) (a : α)
    (b : β) :
    l.foldl (fun (st : α × β) j => (g st.1 j, h st.2 j)) (a, b)
      = (l.foldl g a, l.foldl h b) := by
  induction l generalizing a b with
  | nil => rfl
  | cons x l ih => simp only [List.foldl_cons, ih]

/-- The second component of a loop over a pair, when its update does not read the
first. -/
theorem foldl_snd {α β ι : Type} (g : α × β → ι → α) (h : β → ι → β) (l : List ι) (a : α)
    (b : β) :
    (l.foldl (fun (st : α × β) j => (g st j, h st.2 j)) (a, b)).2 = l.foldl h b := by
  induction l generalizing a b with
  | nil => rfl
  | cons x l ih => simp only [List.foldl_cons, ih]

theorem foldl_add_eq_sum (w : ℕ → ℚ) (l : List ℕ) (b : ℚ) :
    l.foldl (fun acc i => acc + w i) b = b + (l.map w).sum := by
  induction l generalizing b with
  | nil => simp
  | cons x l ih => simp only [List.foldl_cons, ih, List.map_cons, List.sum_cons]; ring

/-- The running maximum of a loop is an upper bound of its start value and of all the
values met, and it is one of them. -/
theorem foldl_max_spec (w : ℕ → ℚ) (l : List ℕ) (b : ℚ) :
    b ≤ l.foldl (fun m j => Max.max m (w j)) b
      ∧ (∀ j ∈ l, w j ≤ l.foldl (fun m j => Max.max m (w j)) b)
      ∧ (l.foldl (fun m j => Max.max m (w j)) b = b
        ∨ ∃ j ∈ l, w j = l.foldl (fun m j => Max.max m (w j)) b) := by
  induction l generalizing b with
  | nil => simp
  | cons x l ih =>
    simp only [List.foldl_cons, List.mem_cons, forall_eq_or_imp, exists_eq_or_imp]
    obtain ⟨h1, h2, h3⟩ := ih (Max.max b (w x))
    refine ⟨le_trans (le_max_left _ _) h1, ⟨le_trans (le_max_right _ _) h1, h2⟩, ?_⟩
    rcases h3 with h3 | ⟨j, hj, h3⟩
    · rcases max_choice b (w x) with hm | hm
      · left; rw [h3, hm]
      · right; left; rw [h3, hm]
    · right; right; exact ⟨j, hj, h3⟩

/-- The value `max_side_width` of row `i` after the inner loop of `resize`. -/
theorem resize_row_snd (vertices : MatrixXI) (i : ℕ) (mesh_extents : Box) :
    (resize_row vertices i mesh_extents).2
      = (List.range vertices.cols).foldl
          (fun m j => Max.max m (vertices.entry i j).width) 0 := by
  unfold resize_row
  exact foldl_snd
    (fun (st : Box × ℚ) j => st.1.set j
      (if i = 0 then vertices.entry i j
       else Interval.hull (coeff st.1 j) (vertices.entry i j)))
    (fun m j => Max.max m (vertices.entry i j).width) _ _ _

/-- The sum `average_displacement_length` after the outer loop of `resize`. -/
theorem resize_extents_snd (vertices : MatrixXI) (dim : ℕ) :
    (resize_extents vertices dim).2
      = ((List.range vertices.rows).map fun i =>
          (List.range vertices.cols).foldl
            (fun m j => Max.max m (vertices.entry i j).width) 0).sum := by
  unfold resize_extents
  simp only [resize_row_snd]
  rw [foldl_snd (fun (st : Box × ℚ) i => (resize_row vertices i st.1).1)
    (fun acc i => acc + (List.range vertices.cols).foldl
      (fun m j => Max.max m (vertices.entry i j).width) 0)]
  rw [foldl_add_eq_sum]
  ring

/-- For a row of `cols >= 1` well-formed intervals, `max_side_width` is the largest
coordinate width. -/
theorem max_side_width_largest (vertices : MatrixXI) (i : ℕ) (hcols : 1 ≤ vertices.cols)
    (hrow : (vertices.data.getD i []).length = vertices.cols)
    (hwf : BoxWF (vertices.data.getD i [])) :
    IsLargestWidth (vertices.data.getD i [])
      ((List.range vertices.cols).foldl
        (fun m j => Max.max m (vertices.entry i j).width) 0) := by
  obtain ⟨h1, h2, h3⟩ := foldl_max_spec (fun j => (vertices.entry i j).width)
    (List.range vertices.cols) 0
  have hnonneg : ∀ j, 0 ≤ (vertices.entry i j).width := by
    intro j
    have := coeff_wf hwf j
    unfold Interval.WF at this
    unfold MatrixXI.entry Interval.width
    linarith
  refine ⟨?_, ?_⟩
  · rw [hrow]
    rcases h3 with h3 | ⟨j, hj, h3⟩
    · refine ⟨0, by omega, ?_⟩
      have hle := h2 0 (List.mem_range.mpr (by omega))
      have := hnonneg 0
      show (vertices.entry i 0).width = _
      linarith
    · exact ⟨j, List.mem_range.mp hj, h3⟩
  · intro j hj
    rw [hrow] at hj
    exact h2 j (List.mem_range.mpr hj)

/-- C15: for every matrix of vertex intervals with at least one row (and at least one
column of well-formed intervals), `RigidBodyHashGrid::resize` calls `HashGrid::resize`
with the cell size `max(D, average_edge_length) + inflation_radius`, where `D` is the mean
over all vertices of the largest coordinate width of the vertex's interval position. -/
theorem resize_cell_size (HashGrid_resize : HashGrid → Vec → Vec → ℚ → HashGrid)
    (grid : HashGrid) (dim : ℕ) (average_edge_length : ℚ) (vertices : MatrixXI)
    (inflation_radius : ℚ)
    (hrows : 1 ≤ vertices.rows) (hcols : 1 ≤ vertices.cols)
    (hshape : ∀ row ∈ vertices.data, row.length = vertices.cols)
    (hwf : ∀ row ∈ vertices.data, BoxWF row) :
    ∃ (ws : List ℚ) (min max : Vec),
      ws.length = vertices.rows ∧ 0 < ws.length
        ∧ (∀ i, i < vertices.rows → IsLargestWidth (vertices.data.getD i []) (ws.getD i 0))
        ∧ RigidBodyHashGrid.resize HashGrid_resize grid dim average_edge_length vertices
            inflation_radius
          = HashGrid_resize grid min max
              (Max.max (ws.sum / (ws.length : ℚ)) average_edge_length + inflation_radius) := by
  refine ⟨(List.range vertices.rows).map fun i =>
      (List.range vertices.cols).foldl
        (fun m j => Max.max m (vertices.entry i j).width) 0,
    (resize_extents vertices dim).1.map (fun e => e.lower - inflation_radius),
    (resize_extents vertices dim).1.map (fun e => e.upper + inflation_radius), ?_, ?_, ?_, ?_⟩
  · simp
  · simpa using hrows
  · intro i hi
    have hmem : vertices.data.getD i [] ∈ vertices.data := by
      unfold MatrixXI.rows at hi
      rw [List.getD_eq_getElem?_getD, List.getElem?_eq_getElem hi, Option.getD_some]
      exact List.getElem_mem hi
    have := max_side_width_largest vertices i hcols (hshape _ hmem) (hwf _ hmem)
    simpa [List.getD_eq_getElem?_getD, hi] using this
  · unfold RigidBodyHashGrid.resize
    simp only [resize_extents_snd, List.length_map, List.length_range]

theorem example_vertices_shape :
    (1 ≤ example_vertices.rows ∧ 1 ≤ example_vertices.cols)
    ∧ (∀ row ∈ example_vertices.data, row.length = example_vertices.cols)
    ∧ (∀ row ∈ example_vertices.data, BoxWF row) := by
  refine ⟨⟨by simp [MatrixXI.rows, example_vertices], by simp [example_vertices]⟩, ?_, ?_⟩
  · intro row hrow
    simp only [example_vertices, List.mem_cons, List.mem_singleton, List.not_mem_nil,
      or_false] at hrow
    rcases hrow with h | h <;> subst h <;> rfl
  · intro row hrow a ha
    simp only [example_vertices, List.mem_cons, List.mem_singleton, List.not_mem_nil,
      or_false] at hrow
    rcases hrow with h | h <;> subst h <;>
      simp only [List.mem_cons, List.mem_singleton, List.not_mem_nil, or_false] at ha <;>
      rcases ha with h | h <;> subst h <;> norm_num [Interval.WF]

/-- Instance of C15 on the matrix `example_vertices`. -/
theorem resize_cell_size_witness :
    ((1 ≤ example_vertices.rows ∧ 1 ≤ example_vertices.cols)
      ∧ (∀ row ∈ example_vertices.data, row.length = example_vertices.cols)
      ∧ (∀ row ∈ example_vertices.data, BoxWF row))
    ∧ ∃ (ws : List ℚ) (min max : Vec),
      ws.length = example_vertices.rows ∧ 0 < ws.length
        ∧ (∀ i, i < example_vertices.rows →
            IsLargestWidth (example_vertices.data.getD i []) (ws.getD i 0))
        ∧ RigidBodyHashGrid.resize store_resize ⟨0, 0, [], [], [], [], []⟩ 2 (1 / 2)
            example_vertices (1 / 10)
          = store_resize ⟨0, 0, [], [], [], [], []⟩ min max
              (Max.max (ws.sum / (ws.length : ℚ)) (1 / 2) + 1 / 10) :=
  ⟨example_vertices_shape,
    resize_cell_size store_resize _ 2 (1 / 2) example_vertices (1 / 10)
      example_vertices_shape.1.1 example_vertices_shape.1.2 example_vertices_shape.2.1
      example_vertices_shape.2.2⟩

/-- A loop that sets the coefficients `0 .. n-1` of a vector of size `n` yields the
vector of the values set. -/
theorem foldl_set_range (g : ℕ → ℚ) :
    ∀ (n : ℕ) (l : Vec),
      ((List.range n).foldl (fun st j => st.set j (g j)) l).length = l.length
        ∧ ∀ j, ((List.range n).foldl (fun st j => st.set j (g j)) l)[j]?
            = if j < n ∧ j < l.length then some (g j) else l[j]? := by
  intro n
  induction n with
  | zero => intro l; simp
  | succ n ih =>
    intro l
    obtain ⟨hlen, hget⟩ := ih l
    rw [List.range_succ, List.foldl_append]
    simp only [List.foldl_cons, List.foldl_nil, List.length_set, hlen, true_and]
    intro j
    rw [List.getElem?_set, hget j]
    by_cases hnj : n = j
    · subst hnj
      by_cases hl : n < l.length
      · simp [hl, hlen]
      · simp [hl, hlen, List.getElem?_eq_none (not_lt.mp hl)]
    · have h1 : (j < n + 1 ∧ j < l.length) ↔ (j < n ∧ j < l.length) := by omega
      simp only [hnj, if_false, h1]

theorem foldl_set_range_eq (g : ℕ → ℚ) (n : ℕ) (l : Vec) (hl : l.length = n) :
    (List.range n).foldl (fun st j => st.set j (g j)) l = (List.range n).map g := by
  obtain ⟨hlen, hget⟩ := foldl_set_range g n l
  apply List.ext_getElem?
  intro j
  rw [hget j]
  by_cases hj : j < n
  · simp [hj, hl]
  · have h1 : ¬ (j < n ∧ j < l.length) := fun h => hj h.1
    rw [if_neg h1, List.getElem?_eq_none (by omega), List.getElem?_eq_none (by simp; omega)]

/-- When `vertices` has `dim` columns the inner loop of `addBodies` sets all coefficients
of `min` and `max`. -/
theorem vertex_bounds_eq (vertices : MatrixXI) (i : ℕ) (r : ℚ) (mm : Vec × Vec)
    (h1 : mm.1.length = vertices.cols) (h2 : mm.2.length = vertices.cols) :
    vertex_bounds vertices i r mm
      = ((List.range vertices.cols).map fun j => (vertices.entry i j).lower - r,
         (List.range vertices.cols).map fun j => (vertices.entry i j).upper + r) := by
  unfold vertex_bounds
  obtain ⟨mn, mx⟩ := mm
  rw [foldl_pair (fun (st : Vec) j => st.set j ((vertices.entry i j).lower - r))
    (fun (st : Vec) j => st.set j ((vertices.entry i j).upper + r))]
  rw [foldl_set_range_eq _ _ mn h1, foldl_set_range_eq _ _ mx h2]

theorem vertices_aabb_loop (vertices : MatrixXI) (r : ℚ) :
    ∀ (l : List ℕ) (mm : Vec × Vec) (acc : List AABB),
      mm.1.length = vertices.cols → mm.2.length = vertices.cols →
      (l.foldl
        (fun (st : (Vec × Vec) × List AABB) i =>
          (vertex_bounds vertices i r st.1,
            st.2 ++ [AABB.from_min_max (vertex_bounds vertices i r st.1).1
              (vertex_bounds vertices i r st.1).2]))
        (mm, acc)).2 = acc ++ l.map (inflated_box vertices r) := by
  intro l
  induction l with
  | nil => intro mm acc _ _; simp
  | cons i l ih =>
    intro mm acc h1 h2
    simp only [List.foldl_cons, List.map_cons]
    rw [vertex_bounds_eq vertices i r mm h1 h2]
    rw [ih _ _ (by simp) (by simp)]
    simp [inflated_box]

/-- When `vertices` has `dim` columns, `vertices_aabb[i]` is the box
`[lower - r, upper + r]` of row `i`. -/
theorem vertices_aabb_eq (vertices : MatrixXI) (dim : ℕ) (r : ℚ)
    (hdim : vertices.cols = dim) :
    vertices_aabb vertices dim r
      = (List.range vertices.rows).map (inflated_box vertices r) := by
  unfold vertices_aabb
  rw [vertices_aabb_loop vertices r _ _ _ (by simp [hdim]) (by simp [hdim])]
  simp

theorem aabb_at_map (g : ℕ → AABB) (n : ℕ) (k : ℤ) (h0 : 0 ≤ k) (h1 : k < n) :
    aabb_at ((List.range n).map g) k = g k.toNat := by
  unfold aabb_at
  have hk : k.toNat < n := by omega
  simp [List.getD_eq_getElem?_getD, hk]

/-- C16: when the matrix of vertex intervals has `dim` columns, `addBodies` inserts, for
every vertex `i`, the box `[lower_j - r, upper_j + r]` of its interval position with the
id `i` into the vertex bucket; for every edge the union of the boxes of its two endpoint
vertices, with the edge index as id, into the edge bucket; and for every face the union
of the boxes of its three vertices, with the face index as id, into the face bucket. -/
theorem addBodies_inserts (addElement : AABB → ℤ → List HashItem → List HashItem)
    (grid : HashGrid) (dim : ℕ) (m_edges m_faces : List (List ℤ)) (vertices : MatrixXI)
    (r : ℚ) (hdim : vertices.cols = dim) :
    ∃ boxes : List AABB,
      boxes.length = vertices.rows
      ∧ (∀ k : ℤ, 0 ≤ k → k < vertices.rows →
          aabb_at boxes k = inflated_box vertices r k.toNat)
      ∧ (∀ i j, j < vertices.cols →
          vcoeff (inflated_box vertices r i).min j = (vertices.entry i j).lower - r
          ∧ vcoeff (inflated_box vertices r i).max j = (vertices.entry i j).upper + r)
      ∧ (RigidBodyHashGrid.addBodies addElement grid dim m_edges m_faces vertices
            r).m_vertexItems
          = (List.range vertices.rows).foldl
              (fun items (i : ℕ) => addElement (inflated_box vertices r i) (i : ℤ) items)
              grid.m_vertexItems
      ∧ (RigidBodyHashGrid.addBodies addElement grid dim m_edges m_faces vertices
            r).m_edgeItems
          = (List.range m_edges.length).foldl
              (fun items (i : ℕ) =>
                addElement
                  (AABB.from_union (aabb_at boxes (int_entry m_edges i 0))
                    (aabb_at boxes (int_entry m_edges i 1)))
                  (i : ℤ) items)
              grid.m_edgeItems
      ∧ (RigidBodyHashGrid.addBodies addElement grid dim m_edges m_faces vertices
            r).m_faceItems
          = (List.range m_faces.length).foldl
              (fun items (i : ℕ) =>
                addElement
                  (AABB.from_union
                    (AABB.from_union (aabb_at boxes (int_entry m_faces i 0))
                      (aabb_at boxes (int_entry m_faces i 1)))
                    (aabb_at boxes (int_entry m_faces i 2)))
                  (i : ℤ) items)
              grid.m_faceItems := by
  refine ⟨(List.range vertices.rows).map (inflated_box vertices r), by simp,
    fun k h0 h1 => aabb_at_map _ _ k h0 h1, ?_, ?_, ?_, ?_⟩
  · intro i j hj
    unfold inflated_box AABB.from_min_max
    simp only [vcoeff, List.getD_eq_getElem?_getD, List.getElem?_map,
      List.getElem?_range hj, Option.map_some', Option.getD_some, and_self]
  · unfold RigidBodyHashGrid.addBodies
    simp only [vertices_aabb_eq vertices dim r hdim]
    apply List.foldl_ext
    intro items i hi
    rw [aabb_at_map _ _ (i : ℤ) (by omega) (by exact_mod_cast List.mem_range.mp hi)]
    simp
  · unfold RigidBodyHashGrid.addBodies
    simp only [vertices_aabb_eq vertices dim r hdim]
  · unfold RigidBodyHashGrid.addBodies
    simp only [vertices_aabb_eq vertices dim r hdim]

/-- Instance of C16 on the matrix `example_vertices`, with one edge. -/
theorem addBodies_inserts_witness :
    example_vertices.cols = 2
    ∧ ∃ boxes : List AABB,
      boxes.length = example_vertices.rows
      ∧ (∀ k : ℤ, 0 ≤ k → k < example_vertices.rows →
          aabb_at boxes k = inflated_box example_vertices (1 / 10) k.toNat)
      ∧ (∀ i j, j < example_vertices.cols →
          vcoeff (inflated_box example_vertices (1 / 10) i).min j
            = (example_vertices.entry i j).lower - 1 / 10
          ∧ vcoeff (inflated_box example_vertices (1 / 10) i).max j
            = (example_vertices.entry i j).upper + 1 / 10)
      ∧ (RigidBodyHashGrid.addBodies store_element ⟨0, 0, [], [], [], [], []⟩ 2 [[0, 1]] []
            example_vertices (1 / 10)).m_vertexItems
          = (List.range example_vertices.rows).foldl
              (fun items (i : ℕ) =>
                store_element (inflated_box example_vertices (1 / 10) i) (i : ℤ) items)
              []
      ∧ (RigidBodyHashGrid.addBodies store_element ⟨0, 0, [], [], [], [], []⟩ 2 [[0, 1]] []
            example_vertices (1 / 10)).m_edgeItems
          = (List.range 1).foldl
              (fun items (i : ℕ) =>
                store_element
                  (AABB.from_union (aabb_at boxes (int_entry [[0, 1]] i 0))
                    (aabb_at boxes (int_entry [[0, 1]] i 1)))
                  (i : ℤ) items)
              []
      ∧ (RigidBodyHashGrid.addBodies store_element ⟨0, 0, [], [], [], [], []⟩ 2 [[0, 1]] []
            example_vertices (1 / 10)).m_faceItems
          = (List.range 0).foldl
              (fun items (i : ℕ) =>
                store_element
                  (AABB.from_union
                    (AABB.from_union (aabb_at boxes (int_entry [] i 0))
                      (aabb_at boxes (int_entry [] i 1)))
                    (aabb_at boxes (int_entry [] i 2)))
                  (i : ℤ) items)
              [] :=
  ⟨rfl, addBodies_inserts store_element ⟨0, 0, [], [], [], [], []⟩ 2 [[0, 1]] []
    example_vertices (1 / 10) rfl⟩

/-! ## Scene reader -/

/-- Once `dim` is set, the dimension check passes exactly for a body with `dim`
columns, and it leaves the state as it is. -/
theorem check_dim_set (vertices : Mat ℚ) (st : ReaderState) (h : st.dim ≠ -1) :
    (st.dim = (vertices.cols : ℤ) → check_dim vertices st = .ok st)
      ∧ (st.dim ≠ (vertices.cols : ℤ) → check_dim vertices st
          = .error (Error.NotImplementedError
              "Mixing 2D and 3D bodies are not currently allowed.")) := by
  unfold check_dim
  constructor
  · intro he; simp [h, he]
  · intro hne; simp [h, hne]

theorem conservativeResize_ok {α : Type} (v : List α) (n : ℤ) (what : String)
    (h : (v.length : ℤ) ≥ n) : conservativeResize v n what = .ok (v.take n.toNat) := by
  unfold conservativeResize
  rw [if_pos h]

theorem conservativeResize_fails {α : Type} (v : List α) (n : ℤ) (what : String)
    (h : ¬ (v.length : ℤ) ≥ n) :
    conservativeResize v n what = .error (Error.AssertionFailure what) := by
  unfold conservativeResize
  rw [if_neg h]

/-- The loop body succeeds when the dimension check does and the five assertions hold;
it then appends one body to `rbs` and keeps the `dim`, `ndof` and `angular_dim` of the
check. -/
theorem read_body_ok (env : ReaderEnv) (args : BodyArgs) (st st1 : ReaderState)
    (h : check_dim (body_geometry env args).1 st = .ok st1)
    (hs : SizesOk st1.dim st1.ndof st1.angular_dim args) :
    ∃ st2 rb, read_body env args st = .ok st2 ∧ st2.dim = st1.dim
      ∧ st2.rbs = st1.rbs ++ [rb]
      ∧ rb.faces = (if st1.dim = 2 ∧ (body_geometry env args).2.1.size ≠ 0 then Mat.empty
          else (body_geometry env args).2.1)
      ∧ st2.log = (if st1.dim = 2 ∧ (body_geometry env args).2.1.size ≠ 0
          then st1.log ++ ["Ignoring faces for 2D rigid body."] else st1.log)
      ∧ st2.ndof = st1.ndof ∧ st2.angular_dim = st1.angular_dim := by
  obtain ⟨h1, h2, h3, h4, h5⟩ := hs
  unfold read_body
  simp only [h, conservativeResize_ok _ _ _ h1, conservativeResize_ok _ _ _ h2,
    conservativeResize_ok _ _ _ h3, conservativeResize_ok _ _ _ h4,
    conservativeResize_ok _ _ _ h5]
  refine ⟨_, _, rfl, rfl, rfl, ?_, ?_, rfl, rfl⟩
  · by_cases hc : st1.dim = 2 ∧ (body_geometry env args).2.1.size ≠ 0
    · simp [hc.1, hc.2]
    · simp only [hc, if_false]
      by_cases h2 : st1.dim = 2
      · have : (body_geometry env args).2.1.size = 0 := by
          by_contra h0; exact hc ⟨h2, h0⟩
        simp [this]
      · simp [h2]
  · by_cases hc : st1.dim = 2 ∧ (body_geometry env args).2.1.size ≠ 0
    · simp [hc.1, hc.2]
    · simp only [hc, if_false]
      by_cases h2 : st1.dim = 2
      · have : (body_geometry env args).2.1.size = 0 := by
          by_contra h0; exact hc ⟨h2, h0⟩
        simp [this]
      · simp [h2]

theorem read_body_error (env : ReaderEnv) (args : BodyArgs) (st : ReaderState) (e : Error)
    (h : check_dim (body_geometry env args).1 st = .error e) :
    read_body env args st = .error e := by
  unfold read_body
  simp only [h]

/-- The loop body aborts on an assertion when the dimension check passes and one of the
five assertions fails. -/
theorem read_body_aborts (env : ReaderEnv) (args : BodyArgs) (st st1 : ReaderState)
    (h : check_dim (body_geometry env args).1 st = .ok st1)
    (hs : ¬ SizesOk st1.dim st1.ndof st1.angular_dim args) :
    ∃ what, read_body env args st = .error (Error.AssertionFailure what) := by
  unfold read_body
  simp only [h]
  by_cases h1 : (args.position.length : ℤ) ≥ st1.dim
  · rw [conservativeResize_ok _ _ _ h1]
    by_cases h2 : (args.rotation.length : ℤ) ≥ st1.angular_dim
    · rw [conservativeResize_ok _ _ _ h2]
      by_cases h3 : (args.linear_velocity.length : ℤ) ≥ st1.dim
      · rw [conservativeResize_ok _ _ _ h3]
        by_cases h4 : (args.angular_velocity.length : ℤ) ≥ st1.angular_dim
        · rw [conservativeResize_ok _ _ _ h4]
          by_cases h5 : (args.is_dof_fixed.length : ℤ) ≥ st1.ndof
          · exact absurd ⟨h1, h2, h3, h4, h5⟩ hs
          · rw [conservativeResize_fails _ _ _ h5]
            exact ⟨_, rfl⟩
        · rw [conservativeResize_fails _ _ _ h4]
          exact ⟨_, rfl⟩
      · rw [conservativeResize_fails _ _ _ h3]
        exact ⟨_, rfl⟩
    · rw [conservativeResize_fails _ _ _ h2]
      exact ⟨_, rfl⟩
  · rw [conservativeResize_fails _ _ _ h1]
    exact ⟨_, rfl⟩

/-- With `dim` set to `c`, the loop ends in one of three ways: it throws the
mixed-dimension error, at a body with a number of columns other than `c`; it ends with
`dim = c`, all bodies having `c` columns; or it aborts on an assertion, at a body with `c`
columns for which one of the five assertions fails. -/
theorem read_loop_set (env : ReaderEnv) (c n a : ℤ) (hc : c ≠ -1) :
    ∀ (rest : List BodyArgs) (st : ReaderState),
      st.dim = c → st.ndof = n → st.angular_dim = a →
      ((read_loop env rest st).2
          = some (Error.NotImplementedError
              "Mixing 2D and 3D bodies are not currently allowed.")
        ∧ ∃ b ∈ rest, (body_cols env b : ℤ) ≠ c)
      ∨ ((read_loop env rest st).2 = none ∧ (read_loop env rest st).1.dim = c
        ∧ ∀ b ∈ rest, (body_cols env b : ℤ) = c)
      ∨ ((∃ what, (read_loop env rest st).2 = some (Error.AssertionFailure what))
        ∧ ∃ b ∈ rest, (body_cols env b : ℤ) = c ∧ ¬ SizesOk c n a b) := by
  intro rest
  induction rest with
  | nil =>
    intro st hst _ _
    right; left
    exact ⟨rfl, hst, fun b hb => by cases hb⟩
  | cons args rest ih =>
    intro st hst hn ha
    have hne : st.dim ≠ -1 := by rw [hst]; exact hc
    by_cases hcols : st.dim = ((body_geometry env args).1.cols : ℤ)
    · have hcheck := (check_dim_set _ st hne).1 hcols
      have hargs : (body_cols env args : ℤ) = c := by rw [body_cols, ← hcols, hst]
      by_cases hs : SizesOk c n a args
      · obtain ⟨st2, rb, hok, hdim, _, _, _, hn2, ha2⟩ :=
          read_body_ok env args st st hcheck (by rw [hst, hn, ha]; exact hs)
        have hloop : read_loop env (args :: rest) st = read_loop env rest st2 := by
          simp only [read_loop, hok]
        rw [hloop]
        rcases ih st2 (by rw [hdim, hst]) (by rw [hn2, hn]) (by rw [ha2, ha]) with
          ⟨h1, b, hb, hbc⟩ | ⟨h1, h2, h3⟩ | ⟨h1, b, hb, hbc⟩
        · left; exact ⟨h1, b, List.mem_cons_of_mem _ hb, hbc⟩
        · right; left
          refine ⟨h1, h2, fun b hb => ?_⟩
          rcases List.mem_cons.mp hb with hb | hb
          · rw [hb]; exact hargs
          · exact h3 b hb
        · right; right; exact ⟨h1, b, List.mem_cons_of_mem _ hb, hbc⟩
      · obtain ⟨what, hab⟩ :=
          read_body_aborts env args st st hcheck (by rw [hst, hn, ha]; exact hs)
        right; right
        exact ⟨⟨what, by simp only [read_loop, hab]⟩, args, List.mem_cons_self _ _, hargs,
          hs⟩
    · have herr := read_body_error env args st _ ((check_dim_set _ st hne).2 hcols)
      left
      refine ⟨by simp only [read_loop, herr], args, List.mem_cons_self _ _, ?_⟩
      rw [body_cols, ← hst]
      exact fun h => hcols h.symm

/-- C17 as stated fails: in the scene of a 2D body whose `position` array has one
coefficient, followed by a 3D body, the first body has vertices with 2 columns and the
later body has 3, yet `read_rb_scene` raises no `NotImplementedError`: the load aborts for
the first body, on the assertion `position.size() >= dim`. -/
theorem mixed_dim_not_raised :
    body_cols example_env example_body_short = 2
      ∧ (∃ b ∈ [example_body_3d],
          body_cols example_env b ≠ body_cols example_env example_body_short)
      ∧ (read_rb_scene example_env [example_body_short, example_body_3d] []).2
        = .error (Error.AssertionFailure "position.size() >= dim")
      ∧ ¬ ∃ what, (read_rb_scene example_env [example_body_short, example_body_3d] []).2
          = .error (Error.NotImplementedError what) := by
  have hres : (read_rb_scene example_env [example_body_short, example_body_3d] []).2
      = .error (Error.AssertionFailure "position.size() >= dim") := by
    simp [read_rb_scene, read_loop, read_body, check_dim, body_geometry, example_body_short,
      example_body_2d, example_env, conservativeResize]
  refine ⟨by simp [body_cols, body_geometry, example_body_short, example_body_2d],
    ⟨example_body_3d, by simp, ?_⟩, hres, ?_⟩
  · simp [body_cols, body_geometry, example_body_short, example_body_2d, example_body_3d]
  · rintro ⟨what, hw⟩
    rw [hres] at hw
    cases hw

/-- C17, amended: for every scene whose first rigid body has vertices with 2 or 3 columns:
when `read_rb_scene` raises `NotImplementedError`, some later body's vertex matrix has a
different number of columns than the first body's; when it returns, it returns the number
of columns of the first body, which all later bodies share; and when the arrays of the
bodies have the sizes that the assertions of the loop body require, it raises
`NotImplementedError` if and only if some later body's vertex matrix has a different
number of columns than the first body's, and returns that common dimension otherwise. -/
theorem read_rb_scene_mixed_dim (env : ReaderEnv) (first : BodyArgs)
    (rest : List BodyArgs) (rbs : List RigidBody)
    (hfirst : body_cols env first = 2 ∨ body_cols env first = 3) :
    ((∃ what, (read_rb_scene env (first :: rest) rbs).2
          = .error (Error.NotImplementedError what))
        → ∃ b ∈ rest, body_cols env b ≠ body_cols env first)
      ∧ (∀ dim, (read_rb_scene env (first :: rest) rbs).2 = .ok dim →
          dim = (body_cols env first : ℤ) ∧ ∀ b ∈ rest, body_cols env b = body_cols env first)
      ∧ ((∀ b ∈ first :: rest, body_cols env b = body_cols env first →
            SizesOk (body_cols env first) (dim_to_ndof (body_cols env first))
              (if (body_cols env first : ℤ) = 2 then 1 else 3) b) →
          ((∃ what, (read_rb_scene env (first :: rest) rbs).2
                = .error (Error.NotImplementedError what))
              ↔ ∃ b ∈ rest, body_cols env b ≠ body_cols env first)
            ∧ ((∀ b ∈ rest, body_cols env b = body_cols env first) →
                (read_rb_scene env (first :: rest) rbs).2
                  = .ok (body_cols env first : ℤ))) := by
  have hc : (body_cols env first : ℤ) ≠ -1 := by omega
  have hne0 : (body_geometry env first).1.cols ≠ 0 := by
    unfold body_cols at hfirst; omega
  have hcheck : check_dim (body_geometry env first).1
        ⟨-1, env.ndof0, env.angular_dim0, rbs, []⟩
      = .ok ⟨((body_geometry env first).1.cols : ℤ),
          dim_to_ndof ((body_geometry env first).1.cols : ℤ),
          (if ((body_geometry env first).1.cols : ℤ) = 2 then 1 else 3), rbs, []⟩ := by
    unfold check_dim
    simp [hne0]
  by_cases hs : SizesOk (body_cols env first) (dim_to_ndof (body_cols env first))
      (if (body_cols env first : ℤ) = 2 then 1 else 3) first
  · obtain ⟨st2, rb, hok, hdim, _, _, _, hn2, ha2⟩ := read_body_ok env first _ _ hcheck hs
    have hloop : read_loop env (first :: rest) ⟨-1, env.ndof0, env.angular_dim0, rbs, []⟩
        = read_loop env rest st2 := by
      simp only [read_loop, hok]
    have hst2 : st2.dim = (body_cols env first : ℤ) := by rw [hdim]; rfl
    unfold read_rb_scene
    simp only [hloop]
    rcases read_loop_set env _ _ _ hc rest st2 hst2 hn2 ha2 with
      ⟨h1, b, hb, hbc⟩ | ⟨h1, h2, h3⟩ | ⟨⟨what, h1⟩, b, hb, hbc, hbs⟩
    · simp only [h1]
      have hex : ∃ b ∈ rest, body_cols env b ≠ body_cols env first :=
        ⟨b, hb, fun h => hbc (by rw [h])⟩
      refine ⟨fun _ => hex, fun dim hd => (by cases hd), fun _ =>
        ⟨⟨fun _ => hex, fun _ => ⟨_, rfl⟩⟩, fun hall => ?_⟩⟩
      exact absurd (by exact_mod_cast congrArg (Nat.cast : ℕ → ℤ) (hall b hb)) hbc
    · simp only [h1]
      have hall : ∀ b ∈ rest, body_cols env b = body_cols env first :=
        fun b hb => by exact_mod_cast h3 b hb
      refine ⟨?_, ?_, fun _ => ⟨⟨?_, ?_⟩, fun _ => by rw [h2]⟩⟩
      · rintro ⟨what, hw⟩; cases hw
      · intro dim hd
        simp only [Except.ok.injEq] at hd
        exact ⟨by rw [← hd, h2], hall⟩
      · rintro ⟨what, hw⟩; cases hw
      · rintro ⟨b, hb, hbc⟩
        exact absurd (hall b hb) hbc
    · simp only [h1]
      refine ⟨?_, fun dim hd => (by cases hd), fun hsz => ?_⟩
      · rintro ⟨w, hw⟩
        simp only [Except.error.injEq] at hw
        cases hw
      · exact absurd (hsz b (List.mem_cons_of_mem _ hb) (by exact_mod_cast hbc)) hbs
  · obtain ⟨what, hab⟩ := read_body_aborts env first _ _ hcheck hs
    have hloop : (read_loop env (first :: rest)
        ⟨-1, env.ndof0, env.angular_dim0, rbs, []⟩).2
          = some (Error.AssertionFailure what) := by
      simp only [read_loop, hab]
    unfold read_rb_scene
    simp only [hloop]
    refine ⟨?_, fun dim hd => (by cases hd), fun hsz => ?_⟩
    · rintro ⟨w, hw⟩
      simp only [Except.error.injEq] at hw
      cases hw
    · exact absurd (hsz first (List.mem_cons_self _ _) rfl) hs

theorem example_cols :
    body_cols example_env example_body_2d = 2 ∧ body_cols example_env example_body_3d = 3 := by
  constructor <;> simp [body_cols, body_geometry, example_body_2d, example_body_3d]

theorem example_sizes : SizesOk 2 3 1 example_body_2d ∧ SizesOk 2 3 1 example_body_3d := by
  constructor <;> simp [SizesOk, example_body_2d, example_body_3d]

/-- Instance of the amended C17: a 2D body followed by a 3D body. -/
theorem read_rb_scene_mixed_dim_witness :
    (body_cols example_env example_body_2d = 2 ∨ body_cols example_env example_body_2d = 3)
    ∧ ((∃ what, (read_rb_scene example_env [example_body_2d, example_body_3d] []).2
          = .error (Error.NotImplementedError what))
        ↔ ∃ b ∈ [example_body_3d],
            body_cols example_env b ≠ body_cols example_env example_body_2d) := by
  refine ⟨Or.inl example_cols.1,
    ((read_rb_scene_mixed_dim example_env example_body_2d [example_body_3d] []
      (Or.inl example_cols.1)).2.2 ?_).1⟩
  intro b hb hcols
  simp only [List.mem_cons, List.mem_singleton, List.not_mem_nil, or_false] at hb
  rcases hb with hb | hb
  · subst hb
    rw [example_cols.1]
    exact example_sizes.1
  · subst hb
    rw [example_cols.1, example_cols.2] at hcols
    cases hcols

/-- An entry with a `position` array that is too short: the loop body aborts on the first
assertion, nothing is thrown and no body is produced. -/
theorem read_body_assertion_example :
    read_body example_env example_body_short ⟨-1, 0, 0, [], []⟩
      = .error (Error.AssertionFailure "position.size() >= dim") := by
  simp [read_body, check_dim, body_geometry, example_body_short, example_body_2d,
    example_env, conservativeResize]

/-- C18 as stated fails: for a scene of one 2D body with a non-empty face matrix,
`read_rb_scene` raises nothing; it returns the dimension 2 and has produced the body. -/
theorem faces_2d_no_error :
    body_cols example_env example_body_2d = 2
      ∧ (body_geometry example_env example_body_2d).2.1.size ≠ 0
      ∧ (read_rb_scene example_env [example_body_2d] []).2 = .ok 2
      ∧ (read_rb_scene example_env [example_body_2d] []).1.length = 1 := by
  refine ⟨example_cols.1, ?_, ?_, ?_⟩
  · simp [body_geometry, example_body_2d, Mat.size]
  · simp [read_rb_scene, read_loop, read_body, check_dim, body_geometry, example_body_2d,
      example_env, conservativeResize, dim_to_ndof]
  · simp [read_rb_scene, read_loop, read_body, check_dim, body_geometry, example_body_2d,
      example_env, conservativeResize, dim_to_ndof]

/-- C18, amended: supplying non-empty faces for a 2D rigid body is not an error.  For an
entry whose arrays have the sizes that the assertions of the loop body require, the loop
body logs the warning "Ignoring faces for 2D rigid body.", discards the faces and still
produces the body, with an empty face matrix, and the load goes on with the next
entry. -/
theorem faces_2d_ignored (env : ReaderEnv) (args : BodyArgs) (rest : List BodyArgs)
    (st : ReaderState)
    (hdim : st.dim = -1 ∨ (st.dim = 2 ∧ st.ndof = 3 ∧ st.angular_dim = 1))
    (hcols : body_cols env args = 2)
    (hfaces : (body_geometry env args).2.1.size ≠ 0) (hsizes : SizesOk 2 3 1 args) :
    ∃ st2 rb, read_body env args st = .ok st2
      ∧ st2.dim = 2
      ∧ st2.rbs = st.rbs ++ [rb]
      ∧ rb.faces = Mat.empty
      ∧ st2.log = st.log ++ ["Ignoring faces for 2D rigid body."]
      ∧ read_loop env (args :: rest) st = read_loop env rest st2 := by
  have hc : (body_geometry env args).1.cols = 2 := hcols
  have hcheck : ∃ st1, check_dim (body_geometry env args).1 st = .ok st1 ∧ st1.dim = 2
      ∧ st1.rbs = st.rbs ∧ st1.log = st.log ∧ st1.ndof = 3 ∧ st1.angular_dim = 1 := by
    unfold check_dim
    rcases hdim with h | ⟨h, hn, ha⟩
    · refine ⟨{ st with dim := 2, ndof := dim_to_ndof 2, angular_dim := 1 }, ?_, rfl, rfl,
        rfl, rfl, rfl⟩
      simp [h, hc]
    · have h1 : st.dim ≠ -1 := by omega
      exact ⟨st, by simp [h, hc], h, rfl, rfl, hn, ha⟩
  obtain ⟨st1, hst1, hd1, hr1, hl1, hn1, ha1⟩ := hcheck
  obtain ⟨st2, rb, hok, hdim2, hrbs, hf, hlog, _, _⟩ :=
    read_body_ok env args st st1 hst1 (by rw [hd1, hn1, ha1]; exact hsizes)
  refine ⟨st2, rb, hok, by rw [hdim2, hd1], by rw [hrbs, hr1], ?_, ?_, ?_⟩
  · rw [hf, if_pos ⟨hd1, hfaces⟩]
  · rw [hlog, if_pos ⟨hd1, hfaces⟩, hl1]
  · simp only [read_loop, hok]

/-- Instance of the amended C18: the 2D body of the concrete scene, read first. -/
theorem faces_2d_ignored_witness :
    (((-1 : ℤ) = -1 ∨ ((-1 : ℤ) = 2 ∧ (0 : ℤ) = 3 ∧ (0 : ℤ) = 1))
      ∧ body_cols example_env example_body_2d = 2
      ∧ (body_geometry example_env example_body_2d).2.1.size ≠ 0
      ∧ SizesOk 2 3 1 example_body_2d)
    ∧ ∃ st2 rb, read_body example_env example_body_2d ⟨-1, 0, 0, [], []⟩ = .ok st2
      ∧ st2.dim = 2
      ∧ st2.rbs = [] ++ [rb]
      ∧ rb.faces = Mat.empty
      ∧ st2.log = [] ++ ["Ignoring faces for 2D rigid body."]
      ∧ read_loop example_env (example_body_2d :: []) ⟨-1, 0, 0, [], []⟩
        = read_loop example_env [] st2 :=
  ⟨⟨Or.inl rfl, example_cols.1, by simp [body_geometry, example_body_2d, Mat.size],
      example_sizes.1⟩,
    faces_2d_ignored example_env example_body_2d [] ⟨-1, 0, 0, [], []⟩ (Or.inl rfl)
      example_cols.1 (by simp [body_geometry, example_body_2d, Mat.size]) example_sizes.1⟩

/-! ## Time steppers -/

theorem mapM_ok {β : Type} (g : β → β) (l : List β) :
    l.mapM (fun b => (Except.ok (g b) : Except Error β)) = .ok (l.map g) := by
  induction l with
  | nil => rfl
  | cons a l ih =>
    rw [List.mapM_cons, ih]
    rfl

theorem mapM_error {β : Type} (e : Error) (a : β) (l : List β) :
    (a :: l).mapM (fun _ => (Except.error e : Except Error β)) = .error e := by
  rw [List.mapM_cons]
  rfl

/-- When the per-body call raises, for a missing override. -/
theorem step2D_error_iff {β : Type} (ts : TimeStepper β) (body : β) (g : Vec) (dt : ℚ) :
    (∃ what, ts.step2D body g dt = .error (Error.NotImplementedError what))
      ↔ ts.step2D_override = none := by
  unfold TimeStepper.step2D
  cases ts.step2D_override with
  | none => simp
  | some impl => simp

theorem step3D_error_iff {β : Type} (ts : TimeStepper β) (body : β) (g : Vec) (dt : ℚ) :
    (∃ what, ts.step3D body g dt = .error (Error.NotImplementedError what))
      ↔ ts.step3D_override = none := by
  unfold TimeStepper.step3D
  cases ts.step3D_override with
  | none => simp
  | some impl => simp

theorem step2D_bodies_error_iff {β : Type} (ts : TimeStepper β) (m_rbs : List β) (g : Vec)
    (dt : ℚ) (hne : m_rbs ≠ []) :
    (∃ what, ts.step2D_bodies m_rbs g dt = .error (Error.NotImplementedError what))
      ↔ ts.step2D_override = none := by
  unfold TimeStepper.step2D_bodies TimeStepper.step2D
  cases ts.step2D_override with
  | none =>
    cases m_rbs with
    | nil => exact absurd rfl hne
    | cons a l => simp only [mapM_error]; simp
  | some impl => simp only [mapM_ok]; simp

theorem step3D_bodies_error_iff {β : Type} (ts : TimeStepper β) (m_rbs : List β) (g : Vec)
    (dt : ℚ) (hne : m_rbs ≠ []) :
    (∃ what, ts.step3D_bodies m_rbs g dt = .error (Error.NotImplementedError what))
      ↔ ts.step3D_override = none := by
  unfold TimeStepper.step3D_bodies TimeStepper.step3D
  cases ts.step3D_override with
  | none =>
    cases m_rbs with
    | nil => exact absurd rfl hne
    | cons a l => simp only [mapM_error]; simp
  | some impl => simp only [mapM_ok]; simp

/-- C19: `TimeStepper::step`, for a single body and for an assembler (one that holds a
body when its dimension is 2 or 3), raises `NotImplementedError` if and only if `dim` is
not 2 or 3, or the concrete stepper does not override the per-body step for that `dim`
(`ExponentialEulerTimeStepper` in 2D, `SympleticEulerTimeStepper` in 3D); otherwise it
forwards the same body, gravity and time step to `step2D` when `dim = 2` and to `step3D`
when `dim = 3`. -/
theorem time_stepper_step {β : Type} (ts : TimeStepper β) (body_dim bodies_dim : ℤ)
    (body : β) (m_rbs : List β) (g : Vec) (dt : ℚ)
    (hbodies : m_rbs = [] → bodies_dim ≠ 2 ∧ bodies_dim ≠ 3) :
    ((∃ what, ts.step body_dim body g dt = .error (Error.NotImplementedError what))
        ↔ (body_dim ≠ 2 ∧ body_dim ≠ 3) ∨ (body_dim = 2 ∧ ts.step2D_override = none)
          ∨ (body_dim = 3 ∧ ts.step3D_override = none))
      ∧ (∀ impl, body_dim = 2 → ts.step2D_override = some impl →
          ts.step body_dim body g dt = ts.step2D body g dt
          ∧ ts.step2D body g dt = .ok (impl body g dt))
      ∧ (∀ impl, body_dim = 3 → ts.step3D_override = some impl →
          ts.step body_dim body g dt = ts.step3D body g dt
          ∧ ts.step3D body g dt = .ok (impl body g dt))
      ∧ ((∃ what, ts.step_bodies bodies_dim m_rbs g dt
            = .error (Error.NotImplementedError what))
        ↔ (bodies_dim ≠ 2 ∧ bodies_dim ≠ 3) ∨ (bodies_dim = 2 ∧ ts.step2D_override = none)
          ∨ (bodies_dim = 3 ∧ ts.step3D_override = none))
      ∧ (∀ impl, bodies_dim = 2 → ts.step2D_override = some impl →
          ts.step_bodies bodies_dim m_rbs g dt = ts.step2D_bodies m_rbs g dt
          ∧ ts.step2D_bodies m_rbs g dt = .ok (m_rbs.map fun b => impl b g dt))
      ∧ (∀ impl, bodies_dim = 3 → ts.step3D_override = some impl →
          ts.step_bodies bodies_dim m_rbs g dt = ts.step3D_bodies m_rbs g dt
          ∧ ts.step3D_bodies m_rbs g dt = .ok (m_rbs.map fun b => impl b g dt))
      ∧ (∀ impl : β → Vec → ℚ → β,
          (ExponentialEulerTimeStepper impl).step2D_override = none
          ∧ (ExponentialEulerTimeStepper impl).step3D_override = some impl
          ∧ (SympleticEulerTimeStepper impl).step2D_override = some impl
          ∧ (SympleticEulerTimeStepper impl).step3D_override = none) := by
  refine ⟨?_, ?_, ?_, ?_, ?_, ?_, fun impl => ⟨rfl, rfl, rfl, rfl⟩⟩
  · unfold TimeStepper.step
    by_cases h2 : body_dim = 2
    · have h3 : body_dim ≠ 3 := by omega
      simp only [h2, if_true, step2D_error_iff]
      simp
    · by_cases h3 : body_dim = 3
      · subst h3
        rw [if_neg (by decide), if_pos rfl, step3D_error_iff]
        simp
      · simp [h2, h3]
  · intro impl h2 ho
    refine ⟨by simp [TimeStepper.step, h2], by simp [TimeStepper.step2D, ho]⟩
  · intro impl h3 ho
    refine ⟨by simp [TimeStepper.step, h3], by simp [TimeStepper.step3D, ho]⟩
  · unfold TimeStepper.step_bodies
    by_cases h2 : bodies_dim = 2
    · have hne : m_rbs ≠ [] := fun h => (hbodies h).1 h2
      simp only [h2, if_true, step2D_bodies_error_iff ts m_rbs g dt hne]
      simp
    · by_cases h3 : bodies_dim = 3
      · have hne : m_rbs ≠ [] := fun h => (hbodies h).2 h3
        subst h3
        rw [if_neg (by decide), if_pos rfl, step3D_bodies_error_iff ts m_rbs g dt hne]
        simp
      · simp [h2, h3]
  · intro impl h2 ho
    refine ⟨by simp [TimeStepper.step_bodies, h2], ?_⟩
    simp only [TimeStepper.step2D_bodies, TimeStepper.step2D, ho, mapM_ok]
  · intro impl h3 ho
    refine ⟨by simp [TimeStepper.step_bodies, h3], ?_⟩
    simp only [TimeStepper.step3D_bodies, TimeStepper.step3D, ho, mapM_ok]

/-- Instance of C19: `ExponentialEulerTimeStepper` on a 2D body and on an assembler of
two 2D bodies (bodies are numbers here, and the 3D step adds the time step). -/
theorem time_stepper_step_witness :
    ([(1 : ℚ), 2] = [] → (2 : ℤ) ≠ 2 ∧ (2 : ℤ) ≠ 3)
    ∧ ((∃ what, (ExponentialEulerTimeStepper fun (b : ℚ) _ dt => b + dt).step 2 1 [0, -1]
            (1 / 10) = .error (Error.NotImplementedError what))
        ↔ ((2 : ℤ) ≠ 2 ∧ (2 : ℤ) ≠ 3)
          ∨ ((2 : ℤ) = 2
            ∧ (ExponentialEulerTimeStepper fun (b : ℚ) _ dt => b + dt).step2D_override = none)
          ∨ ((2 : ℤ) = 3
            ∧ (ExponentialEulerTimeStepper fun (b : ℚ) _ dt => b + dt).step3D_override
              = none)) :=
  ⟨fun h => absurd h (by simp),
    (time_stepper_step (ExponentialEulerTimeStepper fun (b : ℚ) _ dt => b + dt) 2 2 1
      [1, 2] [0, -1] (1 / 10) (fun h => absurd h (by simp))).1⟩

/-! ## Newton direction -/

/-- Splitting the quadratic form along the first coordinate, for a symmetric matrix with
a non-zero first pivot: `x^T A x = a (x_0 + B / a)^2 + y^T S y`, where `y` is the rest of
`x`, `B = sum_i A_(i+1,0) y_i` and `S` is the Schur complement. -/
theorem quad_form_split {n : ℕ} (A : Matrix (Fin (n + 1)) (Fin (n + 1)) ℚ)
    (hsym : ∀ i j, A i j = A j i) (ha : A 0 0 ≠ 0) (x0 : ℚ) (y : Fin n → ℚ) :
    quad_form A (Fin.cons x0 y)
      = A 0 0 * (x0 + (∑ i, A i.succ 0 * y i) / A 0 0) ^ 2 + quad_form (schur A) y := by
  have h1 : ∀ i : Fin n, A 0 i.succ = A i.succ 0 := fun i => hsym 0 i.succ
  have hC : ∑ i, y i * ∑ j, (schur A) i j * y j
      = (∑ i, y i * ∑ j, A i.succ j.succ * y j)
        - (∑ i, A i.succ 0 * y i) ^ 2 / A 0 0 := by
    have : ∀ i : Fin n, y i * ∑ j, (schur A) i j * y j
        = y i * (∑ j, A i.succ j.succ * y j)
          - (A i.succ 0 * y i) * ((∑ j, A j.succ 0 * y j) / A 0 0) := by
      intro i
      simp only [schur, sub_mul, Finset.sum_sub_distrib]
      rw [mul_sub]
      congr 1
      rw [Finset.sum_div, Finset.mul_sum, Finset.mul_sum]
      apply Finset.sum_congr rfl
      intro j _
      field_simp
      ring
    simp only [this, Finset.sum_sub_distrib]
    rw [← Finset.sum_mul]
    congr 1
    field_simp
    ring
  have hQ : quad_form A (Fin.cons x0 y)
      = A 0 0 * x0 ^ 2 + 2 * x0 * (∑ i, A i.succ 0 * y i)
        + ∑ i, y i * ∑ j, A i.succ j.succ * y j := by
    unfold quad_form
    simp only [Fin.sum_univ_succ, Fin.cons_zero, Fin.cons_succ, h1]
    have : ∀ i : Fin n, y i * (A i.succ 0 * x0 + ∑ j, A i.succ j.succ * y j)
        = x0 * (A i.succ 0 * y i) + y i * ∑ j, A i.succ j.succ * y j := by
      intro i; ring
    simp only [this, Finset.sum_add_distrib, ← Finset.mul_sum]
    ring
  unfold quad_form at hQ ⊢
  rw [hQ, hC]
  field_simp
  ring

theorem schur_symm {n : ℕ} (A : Matrix (Fin (n + 1)) (Fin (n + 1)) ℚ)
    (hsym : ∀ i j, A i j = A j i) : ∀ i j, (schur A) i j = (schur A) j i := by
  intro i j
  unfold schur
  rw [hsym i.succ j.succ]
  ring

/-- The first pivot of a symmetric positive-definite matrix is positive. -/
theorem pivot_pos {n : ℕ} (A : Matrix (Fin (n + 1)) (Fin (n + 1)) ℚ) (h : SymPosDef A) :
    0 < A 0 0 := by
  have hx : (Fin.cons 1 (fun _ => 0) : Fin (n + 1) → ℚ) ≠ 0 := by
    intro h0
    have := congrFun h0 0
    simp at this
  have := h.2 _ hx
  unfold quad_form at this
  simpa [Fin.sum_univ_succ] using this

/-- The Schur complement of a symmetric positive-definite matrix is symmetric
positive-definite. -/
theorem schur_posDef {n : ℕ} (A : Matrix (Fin (n + 1)) (Fin (n + 1)) ℚ) (h : SymPosDef A) :
    SymPosDef (schur A) := by
  have ha := pivot_pos A h
  refine ⟨schur_symm A h.1, fun y hy => ?_⟩
  have hx : (Fin.cons (-((∑ i, A i.succ 0 * y i) / A 0 0)) y : Fin (n + 1) → ℚ) ≠ 0 := by
    intro h0
    apply hy
    funext i
    have := congrFun h0 i.succ
    simpa using this
  have hq := h.2 _ hx
  rw [quad_form_split A h.1 (ne_of_gt ha)] at hq
  simpa using hq

/-- The Cholesky solve succeeds on every symmetric positive-definite matrix. -/
theorem cholesky_solve_succeeds :
    ∀ (n : ℕ) (A : Matrix (Fin n) (Fin n) ℚ) (r : Fin n → ℚ), SymPosDef A →
      ∃ x, cholesky_solve n A r = some x := by
  intro n
  induction n with
  | zero => intro A r _; exact ⟨_, rfl⟩
  | succ n ih =>
    intro A r h
    obtain ⟨x, hx⟩ := ih (schur A) (fun i => r i.succ - A i.succ 0 * r 0 / A 0 0)
      (schur_posDef A h)
    refine ⟨Fin.cons ((r 0 - ∑ j, A j.succ 0 * x j) / A 0 0) x, ?_⟩
    simp only [cholesky_solve, pivot_pos A h, if_true, hx]

/-- What the Cholesky solve returns for a symmetric matrix solves the system. -/
theorem cholesky_solve_solves :
    ∀ (n : ℕ) (A : Matrix (Fin n) (Fin n) ℚ) (r x : Fin n → ℚ), (∀ i j, A i j = A j i) →
      cholesky_solve n A r = some x → Solves A x r := by
  intro n
  induction n with
  | zero => intro A r x _ _ i; exact i.elim0
  | succ n ih =>
    intro A r x hsym hx
    simp only [cholesky_solve] at hx
    split_ifs at hx with ha
    cases hrec : cholesky_solve n (schur A)
        (fun i => r i.succ - A i.succ 0 * r 0 / A 0 0) with
    | none => simp [hrec] at hx
    | some y =>
      simp only [hrec, Option.some.injEq] at hx
      have hy := ih (schur A) _ y (schur_symm A hsym) hrec
      have ha0 : A 0 0 ≠ 0 := ne_of_gt ha
      have h1 : ∀ i : Fin n, A 0 i.succ = A i.succ 0 := fun i => hsym 0 i.succ
      subst hx
      intro i
      refine Fin.cases ?_ (fun k => ?_) i
      · simp only [Fin.sum_univ_succ, Fin.cons_zero, Fin.cons_succ, h1]
        field_simp
      · have hk := hy k
        simp only [schur, sub_mul, Finset.sum_sub_distrib] at hk
        have hsum : ∑ j, A k.succ 0 * A j.succ 0 / A 0 0 * y j
            = A k.succ 0 * (∑ j, A j.succ 0 * y j) / A 0 0 := by
          rw [Finset.mul_sum, Finset.sum_div]
          apply Finset.sum_congr rfl
          intro j _
          field_simp
          ring
        rw [hsum] at hk
        simp only [Fin.sum_univ_succ, Fin.cons_zero, Fin.cons_succ]
        have : ∑ j, A k.succ j.succ * y j
            = r k.succ - A k.succ 0 * r 0 / A 0 0
              + A k.succ 0 * (∑ j, A j.succ 0 * y j) / A 0 0 := by linarith
        rw [this]
        field_simp
        ring

/-- A symmetric positive-definite system has at most one solution. -/
theorem solves_unique {n : ℕ} (A : Matrix (Fin n) (Fin n) ℚ) (h : SymPosDef A)
    (x y r : Fin n → ℚ) (hx : Solves A x r) (hy : Solves A y r) : x = y := by
  by_contra hne
  have hd : (fun i => x i - y i) ≠ 0 := by
    intro h0
    apply hne
    funext i
    have := congrFun h0 i
    simp only [Pi.zero_apply] at this
    linarith
  have hq := h.2 _ hd
  have hz : ∀ i, ∑ j, A i j * (x j - y j) = 0 := by
    intro i
    simp only [mul_sub, Finset.sum_sub_distrib]
    rw [hx i, hy i]
    ring
  unfold quad_form at hq
  simp only [hz, mul_zero, Finset.sum_const_zero] at hq
  exact lt_irrefl _ hq

theorem two_identity_posDef (n : ℕ) : SymPosDef (two_identity n) := by
  refine ⟨fun i j => ?_, fun x hx => ?_⟩
  · unfold two_identity
    by_cases h : i = j
    · simp [h]
    · rw [if_neg h, if_neg (fun h' => h h'.symm)]
  · have hq : quad_form (two_identity n) x = ∑ i, 2 * x i ^ 2 := by
      unfold quad_form two_identity
      apply Finset.sum_congr rfl
      intro i _
      simp only [ite_mul, zero_mul, Finset.sum_ite_eq, Finset.mem_univ, if_true]
      ring
    rw [hq]
    obtain ⟨k, hk⟩ : ∃ k, x k ≠ 0 := by
      by_contra hall
      apply hx
      funext i
      by_contra hi
      exact hall ⟨i, hi⟩
    apply Finset.sum_pos'
    · intro i _; positivity
    · exact ⟨k, Finset.mem_univ _, by positivity⟩

/-- The call succeeds on a symmetric positive-definite Hessian and returns the solution
of `H delta_x = -g`. -/
theorem compute_direction_spec {n : ℕ} (g : Fin n → ℚ) (H : Matrix (Fin n) (Fin n) ℚ)
    (dx : Fin n → ℚ) (hH : SymPosDef H) :
    (compute_direction g H dx).1 = true
      ∧ Solves H (compute_direction g H dx).2 (fun i => -g i) := by
  obtain ⟨x, hx⟩ := cholesky_solve_succeeds n H (fun i => -g i) hH
  have hs := cholesky_solve_solves n H _ x hH.1 hx
  have hc : compute_direction g H dx = (true, x) := by
    unfold compute_direction
    simp only [hx]
  rw [hc]
  exact ⟨rfl, hs⟩

/-- C20: for every gradient `g` and every symmetric positive-definite Hessian `H`,
`compute_direction(g, H, delta_x)` succeeds and sets `delta_x` to the solution of
`H * delta_x = -g`; in particular for `H = 2I` and `g = 2x` it yields `delta_x = -x`, so
`x + delta_x = 0`. -/
theorem compute_direction_solves {n : ℕ} (g : Fin n → ℚ) (H : Matrix (Fin n) (Fin n) ℚ)
    (dx : Fin n → ℚ) (hH : SymPosDef H) :
    (compute_direction g H dx).1 = true
      ∧ Solves H (compute_direction g H dx).2 (fun i => -g i)
      ∧ (∀ y, Solves H y (fun i => -g i) → y = (compute_direction g H dx).2)
      ∧ ∀ x : Fin n → ℚ,
          (compute_direction (fun i => 2 * x i) (two_identity n) dx).1 = true
          ∧ (∀ i, (compute_direction (fun i => 2 * x i) (two_identity n) dx).2 i = -x i)
          ∧ ∀ i, x i + (compute_direction (fun i => 2 * x i) (two_identity n) dx).2 i
              = 0 := by
  obtain ⟨h1, h2⟩ := compute_direction_spec g H dx hH
  refine ⟨h1, h2, fun y hy => solves_unique H hH _ _ _ hy h2, fun x => ?_⟩
  obtain ⟨h3, h4⟩ := compute_direction_spec (fun i => 2 * x i) (two_identity n) dx
    (two_identity_posDef n)
  have h5 : ∀ i, (compute_direction (fun i => 2 * x i) (two_identity n) dx).2 i = -x i := by
    intro i
    have := h4 i
    simp only [two_identity, ite_mul, zero_mul, Finset.sum_ite_eq, Finset.mem_univ,
      if_true] at this
    linarith
  exact ⟨h3, h5, fun i => by rw [h5 i]; ring⟩

/-- Instance of C20: the Hessian `2 I` in two variables and the gradient `(2, 2)`. -/
theorem compute_direction_solves_witness :
    SymPosDef (two_identity 2)
      ∧ (compute_direction (fun _ => 2) (two_identity 2) (fun _ => 0)).1 = true
      ∧ Solves (two_identity 2)
          (compute_direction (fun _ => 2) (two_identity 2) (fun _ => 0)).2
          (fun _ => -2) :=
  ⟨two_identity_posDef 2,
    (compute_direction_solves (fun _ => 2) (two_identity 2) (fun _ => 0)
      (two_identity_posDef 2)).1,
    (compute_direction_solves (fun _ => 2) (two_identity 2) (fun _ => 0)
      (two_identity_posDef 2)).2.1⟩

/-- The call evaluated on the Hessian `2` in one variable and the gradient `4`. -/
theorem compute_direction_example :
    (compute_direction (fun _ => 4) (two_identity 1) (fun _ => 0)).1 = true
      ∧ (compute_direction (fun _ => 4) (two_identity 1) (fun _ => 0)).2 0 = -2 := by
  constructor <;>
  norm_num [compute_direction, cholesky_solve, two_identity, schur]

end ccd

namespace ccd

/-! ## The split step -/

theorem bestAxis_step (w t : List ℚ) (k : ℕ) (acc : Option ℕ)
    (ht : ∀ i, i ≤ k → 0 < t.getD i 0) (h : BestAxis w t k acc) :
    BestAxis w t (k + 1) (split_update w t acc k) := by
  cases acc with
  | none =>
    simp only [split_update]
    simp only [BestAxis] at h
    split_ifs with hgt
    · refine ⟨Nat.lt_succ_self k, hgt, ?_, ?_⟩
      · intro j hj hjgt
        rcases Nat.lt_succ_iff_lt_or_eq.mp hj with hlt | heq
        · exact absurd hjgt (h j hlt)
        · rw [heq]
      · intro j hj hjgt
        exact absurd hjgt (h j hj)
    · intro j hj
      rcases Nat.lt_succ_iff_lt_or_eq.mp hj with hlt | heq
      · exact h j hlt
      · rw [heq]; exact hgt
  | some i =>
    simp only [split_update]
    obtain ⟨hik, higt, hmax, hleast⟩ := h
    have hti : 0 < t.getD i 0 := ht i (le_of_lt hik)
    have htk : 0 < t.getD k 0 := ht k (le_refl k)
    split_ifs with hgt
    · have hlt : w.getD i 0 / t.getD i 0 < w.getD k 0 / t.getD k 0 := by
        rw [div_lt_div_iff₀ hti htk]
        exact hgt.2
      refine ⟨Nat.lt_succ_self k, hgt.1, ?_, ?_⟩
      · intro j hj hjgt
        rcases Nat.lt_succ_iff_lt_or_eq.mp hj with hlt2 | heq
        · exact le_of_lt (lt_of_le_of_lt (hmax j hlt2 hjgt) hlt)
        · rw [heq]
      · intro j hj hjgt
        exact lt_of_le_of_lt (hmax j hj hjgt) hlt
    · refine ⟨Nat.lt_succ_of_lt hik, higt, ?_, hleast⟩
      intro j hj hjgt
      rcases Nat.lt_succ_iff_lt_or_eq.mp hj with hlt2 | heq
      · exact hmax j hlt2 hjgt
      · subst heq
        have hle : w.getD j 0 * t.getD i 0 ≤ w.getD i 0 * t.getD j 0 := by
          by_contra hcon
          exact hgt ⟨hjgt, not_le.mp hcon⟩
        rw [div_le_div_iff₀ htk hti]
        exact hle

theorem split_axis_best (w t : List ℚ) :
    ∀ k, (∀ i, i < k → 0 < t.getD i 0) →
      BestAxis w t k ((List.range k).foldl (split_update w t) none) := by
  intro k
  induction k with
  | zero =>
    intro _ j hj
    exact absurd hj (Nat.not_lt_zero j)
  | succ k ih =>
    intro ht
    rw [List.range_succ, List.foldl_append, List.foldl_cons, List.foldl_nil]
    exact bestAxis_step w t k _ (fun i hi => ht i (Nat.lt_succ_of_le hi))
      (ih fun i hi => ht i (Nat.lt_succ_of_lt hi))

theorem halves_coeff (median : Interval → ℚ) (x : Box) (i : ℕ) (hi : i < x.length) :
    coeff (halves median x i).1 i = ⟨(coeff x i).lo, median (coeff x i)⟩
      ∧ coeff (halves median x i).2 i = ⟨median (coeff x i), (coeff x i).hi⟩
      ∧ ∀ j, j ≠ i → coeff (halves median x i).1 j = coeff x j
          ∧ coeff (halves median x i).2 j = coeff x j := by
  simp only [halves, Interval.bisect, coeff_set]
  refine ⟨by simp [hi], by simp [hi], ?_⟩
  intro j hj
  have hne : ¬ (i = j ∧ i < x.length) := fun h => hj h.1.symm
  simp [hne]

/-- C22: with positive tolerances, a box that is not within tolerance has a split axis
(`split_i` is never `-1`); the axis is the least index that maximises `width / tol`
among the axes whose width exceeds the tolerance; the box is bisected on that axis only;
and the lower half ends on top of the stack, above the upper half, so that the next
iteration examines the lower half. -/
theorem split_step_axis (median : Interval → ℚ) (f : Box → Box) (c d : Box → Bool)
    (tol : List ℚ) (x : Box) (s : State) (htol : ∀ i, i < x.length → 0 < tol.getD i 0)
    (hw : all_le (width x) tol = false) :
    ∃ i, split_axis (width x) tol = some i
      ∧ i < x.length ∧ (coeff x i).width > tol.getD i 0
      ∧ (∀ j, j < x.length → (coeff x j).width > tol.getD j 0 →
          (coeff x j).width / tol.getD j 0 ≤ (coeff x i).width / tol.getD i 0)
      ∧ (∀ j, j < i → (coeff x j).width > tol.getD j 0 →
          (coeff x j).width / tol.getD j 0 < (coeff x i).width / tol.getD i 0)
      ∧ coeff (halves median x i).1 i = ⟨(coeff x i).lo, median (coeff x i)⟩
      ∧ coeff (halves median x i).2 i = ⟨median (coeff x i), (coeff x i).hi⟩
      ∧ (∀ j, j ≠ i →
          coeff (halves median x i).1 j = coeff x j
            ∧ coeff (halves median x i).2 j = coeff x j)
      ∧ (not_before x s.earliest_root = false → d x = true → zero_in (f x) = true →
          loop_body median f c d tol x s
            = { s with xs := (halves median x i).1 :: (halves median x i).2 :: s.xs })
      ∧ ∀ fuel rest e fnd,
          run median f c d tol (fuel + 1)
              ⟨(halves median x i).1 :: (halves median x i).2 :: rest, e, fnd⟩
            = run median f c d tol fuel
                (loop_body median f c d tol (halves median x i).1
                  ⟨(halves median x i).2 :: rest, e, fnd⟩) := by
  have hlen : (width x).length = x.length := by simp [width]
  have hbest := split_axis_best (width x) tol (width x).length
    (fun i hi => htol i (hlen ▸ hi))
  have hex : ∃ j, j < x.length ∧ (coeff x j).width > tol.getD j 0 := by
    by_contra hcon
    have hall : all_le (width x) tol = true := by
      rw [all_le_iff]
      intro j hj
      by_contra hgt
      exact hcon ⟨j, hj, not_le.mp hgt⟩
    rw [hall] at hw
    cases hw
  obtain ⟨j0, hj0, hj0gt⟩ := hex
  cases hsplit : split_axis (width x) tol with
  | none =>
    unfold split_axis at hsplit
    rw [hsplit] at hbest
    have := hbest j0 (hlen.symm ▸ hj0)
    rw [width_getD] at this
    exact absurd hj0gt this
  | some i =>
    unfold split_axis at hsplit
    rw [hsplit] at hbest
    obtain ⟨hik, higt, hmax, hleast⟩ := hbest
    rw [hlen] at hik
    simp only [width_getD] at higt hmax hleast
    rw [hlen] at hmax
    obtain ⟨hc1, hc2, hc3⟩ := halves_coeff median x i hik
    refine ⟨i, rfl, hik, higt, hmax, hleast, hc1, hc2, hc3, ?_, ?_⟩
    · intro h1 h2 h3
      have hs2 : split_axis (width x) tol = some i := hsplit
      unfold loop_body
      simp [h1, h2, h3, hw, hs2]
    · intro fuel rest e fnd
      rfl

theorem split_step_axis_witness :
    (∀ i, i < ([⟨0, 1⟩, ⟨0, 4⟩] : Box).length → 0 < ([1 / 2, 1] : List ℚ).getD i 0)
      ∧ ∃ i, split_axis (width [⟨0, 1⟩, ⟨0, 4⟩]) [1 / 2, 1] = some i
        ∧ (coeff [⟨0, 1⟩, ⟨0, 4⟩] i).width > ([1 / 2, 1] : List ℚ).getD i 0 := by
  have ht : ∀ i, i < ([⟨0, 1⟩, ⟨0, 4⟩] : Box).length →
      0 < ([1 / 2, 1] : List ℚ).getD i 0 := by
    intro i hi
    simp only [List.length_cons, List.length_nil] at hi
    interval_cases i <;> norm_num
  have hw : all_le (width [⟨0, 1⟩, ⟨0, 4⟩]) [1 / 2, 1] = false := by
    norm_num [all_le, width, Interval.width, List.range_succ]
  obtain ⟨i, h1, _, h3, _⟩ :=
    split_step_axis Interval.midpoint (fun x => x) (fun _ => true) (fun _ => true) [1 / 2, 1]
      [⟨0, 1⟩, ⟨0, 4⟩] (init []) ht hw
  exact ⟨ht, i, h1, h3⟩

/-! ## The check of the start and the tolerance of the search -/

theorem x_tol_coeff (tol : List ℚ) (i : ℕ) (h : i < tol.length) :
    coeff (x_tol tol) i = ⟨0, tol.getD i 0⟩ := by
  simp [coeff, x_tol, List.getD_eq_getElem?_getD, h]

theorem reduce_tol_getD (tol : List ℚ) :
    (reduce_tol tol).getD 0 0 = tol.getD 0 0 / 100
      ∧ (∀ i, 0 < i → (reduce_tol tol).getD i 0 = tol.getD i 0)
      ∧ (reduce_tol tol).length = tol.length := by
  cases tol with
  | nil => simp [reduce_tol]
  | cons t rest =>
    refine ⟨by simp [reduce_tol], ?_, by simp [reduce_tol]⟩
    intro i hi
    obtain ⟨k, rfl⟩ : ∃ k, i = k + 1 := ⟨i - 1, by omega⟩
    simp [reduce_tol]

theorem reduce_tol_ne (tol : List ℚ) (h : tol.getD 0 0 ≠ 0) : reduce_tol tol ≠ tol := by
  intro heq
  have h0 := (reduce_tol_getD tol).1
  rw [heq] at h0
  apply h
  linarith

/-- C23: before the loop the finder evaluates `f` on the box whose `i`-th coefficient
is `[0, tol_i]`; when zero lies in every coefficient of that value the search runs with
`tol_0 / 100` in place of `tol_0` and all other tolerances unchanged, and otherwise it
runs with `tol` itself (so, for `tol_0 ≠ 0`, the tolerance is reduced if and only if
zero lies in every coefficient). -/
theorem preflight_tolerance (median : Interval → ℚ) (fuel : ℕ) (f : Box → Box)
    (c d : Box → Bool) (x0 : Box) (tol : List ℚ) (mi : ℤ) :
    (x_tol tol).length = tol.length
      ∧ (∀ i, i < tol.length → coeff (x_tol tol) i = ⟨0, tol.getD i 0⟩)
      ∧ (zero_in (f (x_tol tol)) = true ↔
          ∀ i, i < (f (x_tol tol)).length →
            (coeff (f (x_tol tol)) i).lo ≤ 0 ∧ 0 ≤ (coeff (f (x_tol tol)) i).hi)
      ∧ (zero_in (f (x_tol tol)) = true →
          interval_root_finder median fuel f c d x0 tol mi
            = (run median f c d (reduce_tol tol) fuel (init x0)).map
                fun s => (s.found_root, s.earliest_root))
      ∧ (zero_in (f (x_tol tol)) = false →
          interval_root_finder median fuel f c d x0 tol mi
            = (run median f c d tol fuel (init x0)).map
                fun s => (s.found_root, s.earliest_root))
      ∧ (reduce_tol tol).getD 0 0 = tol.getD 0 0 / 100
      ∧ (∀ i, 0 < i → (reduce_tol tol).getD i 0 = tol.getD i 0)
      ∧ (reduce_tol tol).length = tol.length
      ∧ (tol.getD 0 0 ≠ 0 →
          (effective_tol f tol = reduce_tol tol ↔ zero_in (f (x_tol tol)) = true)) := by
  refine ⟨by simp [x_tol], x_tol_coeff tol, ?_, ?_, ?_, (reduce_tol_getD tol).1,
    (reduce_tol_getD tol).2.1, (reduce_tol_getD tol).2.2, ?_⟩
  · rw [zero_in_eq_true_iff]
    constructor
    · intro h i hi
      exact (interval_zero_in_iff _).mp (h i hi)
    · intro h i hi
      exact (interval_zero_in_iff _).mpr (h i hi)
  · intro h
    simp only [interval_root_finder, effective_tol, h, if_true]
  · intro h
    simp [interval_root_finder, effective_tol, h]
  · intro h0
    unfold effective_tol
    constructor
    · intro heq
      by_contra hz
      rw [if_neg hz] at heq
      exact reduce_tol_ne tol h0 heq.symm
    · intro hz
      rw [if_pos hz]

/-! ## The interval position of a body over the time step -/

theorem point_segment (a b : ℚ) :
    (((Interval.point b).sub (Interval.point a)).mul ⟨0, 1⟩).add (Interval.point a)
      = ⟨Min.min a b, Max.max a b⟩ := by
  simp only [Interval.point, Interval.sub, Interval.mul, Interval.add, mul_zero, mul_one,
    min_self, max_self, Interval.mk.injEq]
  rcases le_total a b with h | h
  · rw [min_eq_left (by linarith : (0 : ℚ) ≤ b - a), max_eq_right (by linarith : (0 : ℚ) ≤ b - a),
      min_eq_left h, max_eq_right h]
    constructor <;> ring
  · rw [min_eq_right (by linarith : b - a ≤ 0), max_eq_left (by linarith : b - a ≤ 0),
      min_eq_right h, max_eq_left h]
    constructor <;> ring

theorem position_interval_coeff (p0 p1 : Vec) (h : p0.length = p1.length) (j : ℕ)
    (hj : j < p0.length) :
    coeff (position_interval p0 p1) j = ⟨Min.min (vcoeff p0 j) (vcoeff p1 j),
      Max.max (vcoeff p0 j) (vcoeff p1 j)⟩ := by
  have hj1 : j < p1.length := h ▸ hj
  rw [← point_segment]
  simp [coeff, vcoeff, position_interval, List.getD_eq_getElem?_getD, List.getElem?_zipWith,
    hj, hj1]

/-- C24: in `compute_vertices_intervals` the interval position
`(p1 - p0) * [0, 1] + p0` of a body, computed in exact interval arithmetic, is in every
coordinate the interval `[min(p0, p1), max(p0, p1)]`, and it contains the interpolated
position `p0 + s * (p1 - p0)` for every `s` in `[0, 1]`. -/
theorem position_interval_hull (p0 p1 : Vec) (h : p0.length = p1.length) :
    (position_interval p0 p1).length = p0.length
      ∧ ∀ j, j < p0.length →
          coeff (position_interval p0 p1) j
              = ⟨Min.min (vcoeff p0 j) (vcoeff p1 j), Max.max (vcoeff p0 j) (vcoeff p1 j)⟩
            ∧ ∀ s : ℚ, 0 ≤ s → s ≤ 1 →
                (coeff (position_interval p0 p1) j).lo
                    ≤ vcoeff p0 j + s * (vcoeff p1 j - vcoeff p0 j)
                  ∧ vcoeff p0 j + s * (vcoeff p1 j - vcoeff p0 j)
                    ≤ (coeff (position_interval p0 p1) j).hi := by
  refine ⟨by simp [position_interval, h], ?_⟩
  intro j hj
  refine ⟨position_interval_coeff p0 p1 h j hj, ?_⟩
  intro s hs0 hs1
  rw [position_interval_coeff p0 p1 h j hj]
  simp only
  rcases le_total (vcoeff p0 j) (vcoeff p1 j) with hle | hle
  · rw [min_eq_left hle, max_eq_right hle]
    constructor <;> nlinarith
  · rw [min_eq_right hle, max_eq_left hle]
    constructor <;> nlinarith

theorem position_interval_hull_witness :
    ([1, 5] : Vec).length = ([3, 2] : Vec).length
      ∧ (position_interval [1, 5] [3, 2]).length = 2
      ∧ coeff (position_interval [1, 5] [3, 2]) 1 = ⟨2, 5⟩ := by
  have h := position_interval_hull [1, 5] [3, 2] rfl
  refine ⟨rfl, h.1, ?_⟩
  rw [(h.2 1 (by decide)).1]
  norm_num [vcoeff]

/-! ## The domain of the rigid-body hash grid contains the boxes inserted -/

theorem foldl_fst {α β ι : Type} (g : α → ι → α) (h : α × β → ι → β) (l : List ι) (a : α)
    (b : β) :
    (l.foldl (fun (st : α × β) j => (g st.1 j, h st j)) (a, b)).1 = l.foldl g a := by
  induction l generalizing a b with
  | nil => rfl
  | cons x l ih => simp only [List.foldl_cons, ih]

/-- A loop that updates the coefficients `0 .. n-1` of a vector of intervals, each from
its own old value, yields the vector of the updated values. -/
theorem foldl_update_range (g : Interval → ℕ → Interval) :
    ∀ (n : ℕ) (l : Box),
      ((List.range n).foldl (fun st j => st.set j (g (coeff st j) j)) l).length = l.length
        ∧ ∀ j, ((List.range n).foldl (fun st j => st.set j (g (coeff st j) j)) l)[j]?
            = if j < n ∧ j < l.length then some (g (coeff l j) j) else l[j]? := by
  intro n
  induction n with
  | zero => intro l; simp
  | succ n ih =>
    intro l
    obtain ⟨hlen, hget⟩ := ih l
    rw [List.range_succ, List.foldl_append]
    simp only [List.foldl_cons, List.foldl_nil, List.length_set, hlen, true_and]
    have hcn : coeff ((List.range n).foldl (fun st j => st.set j (g (coeff st j) j)) l) n
        = coeff l n := by
      have hn := hget n
      simp only [lt_self_iff_false, false_and, if_false] at hn
      simp only [coeff, List.getD_eq_getElem?_getD] at hn ⊢
      rw [hn]
    intro j
    rw [List.getElem?_set, hget j, hcn]
    by_cases hnj : n = j
    · subst hnj
      by_cases hl : n < l.length
      · simp [hl, hlen]
      · simp [hl, hlen, List.getElem?_eq_none (not_lt.mp hl)]
    · have h1 : (j < n + 1 ∧ j < l.length) ↔ (j < n ∧ j < l.length) := by omega
      simp only [hnj, if_false, h1]

/-- The vector `mesh_extents` after the inner loop of `resize` for row `i`. -/
theorem resize_row_fst (vertices : MatrixXI) (i : ℕ) (ext : Box)
    (hlen : ext.length = vertices.cols) :
    (resize_row vertices i ext).1.length = vertices.cols
      ∧ ∀ j, j < vertices.cols →
          coeff (resize_row vertices i ext).1 j
            = if i = 0 then vertices.entry i j
              else Interval.hull (coeff ext j) (vertices.entry i j) := by
  have hfst : (resize_row vertices i ext).1
      = (List.range vertices.cols).foldl
          (fun st j => st.set j
            ((fun (a : Interval) (j : ℕ) =>
              if i = 0 then vertices.entry i j
              else Interval.hull a (vertices.entry i j)) (coeff st j) j)) ext := by
    unfold resize_row
    exact foldl_fst
      (fun (st : Box) j => st.set j
        (if i = 0 then vertices.entry i j
         else Interval.hull (coeff st j) (vertices.entry i j)))
      (fun (st : Box × ℚ) j => Max.max st.2 (vertices.entry i j).width) _ _ _
  obtain ⟨h1, h2⟩ := foldl_update_range
    (fun (a : Interval) (j : ℕ) =>
      if i = 0 then vertices.entry i j else Interval.hull a (vertices.entry i j))
    vertices.cols ext
  rw [hfst]
  refine ⟨h1.trans hlen, ?_⟩
  intro j hj
  have := h2 j
  rw [if_pos ⟨hj, hlen ▸ hj⟩] at this
  unfold coeff at *
  rw [List.getD_eq_getElem?_getD, this]
  rfl

/-- The vector `mesh_extents` after the rows below `k` of the outer loop of `resize`:
every coefficient bounds the intervals of its column in those rows, and both of its
bounds are taken by one of them. -/
theorem resize_extents_rows (vertices : MatrixXI) :
    ∀ k : ℕ,
      ((List.range k).foldl (fun e i => (resize_row vertices i e).1)
          (List.replicate vertices.cols default)).length = vertices.cols
        ∧ (0 < k → ∀ j, j < vertices.cols →
            (∀ i, i < k →
              (coeff ((List.range k).foldl (fun e i => (resize_row vertices i e).1)
                  (List.replicate vertices.cols default)) j).lo ≤ (vertices.entry i j).lo
              ∧ (vertices.entry i j).hi
                ≤ (coeff ((List.range k).foldl (fun e i => (resize_row vertices i e).1)
                  (List.replicate vertices.cols default)) j).hi)
            ∧ (∃ i, i < k ∧
              (coeff ((List.range k).foldl (fun e i => (resize_row vertices i e).1)
                  (List.replicate vertices.cols default)) j).lo = (vertices.entry i j).lo)
            ∧ (∃ i, i < k ∧
              (coeff ((List.range k).foldl (fun e i => (resize_row vertices i e).1)
                  (List.replicate vertices.cols default)) j).hi
                = (vertices.entry i j).hi)) := by
  intro k
  induction k with
  | zero => exact ⟨by simp, fun h => absurd h (lt_irrefl 0)⟩
  | succ k ih =>
    obtain ⟨hlen, hrows⟩ := ih
    rw [List.range_succ, List.foldl_append, List.foldl_cons, List.foldl_nil]
    obtain ⟨h1, h2⟩ := resize_row_fst vertices k _ hlen
    refine ⟨h1, ?_⟩
    intro _ j hj
    rw [h2 j hj]
    by_cases hk : k = 0
    · subst hk
      rw [if_pos rfl]
      refine ⟨?_, ⟨0, Nat.zero_lt_one, rfl⟩, ⟨0, Nat.zero_lt_one, rfl⟩⟩
      intro i hi
      have : i = 0 := by omega
      subst this
      exact ⟨le_refl _, le_refl _⟩
    · rw [if_neg hk]
      obtain ⟨hb, ⟨i1, hi1, he1⟩, ⟨i2, hi2, he2⟩⟩ := hrows (Nat.pos_of_ne_zero hk) j hj
      simp only [Interval.hull]
      refine ⟨?_, ?_, ?_⟩
      · intro i hi
        rcases Nat.lt_succ_iff_lt_or_eq.mp hi with hlt | heq
        · exact ⟨le_trans (min_le_left _ _) (hb i hlt).1,
            le_trans (hb i hlt).2 (le_max_left _ _)⟩
        · rw [heq]
          exact ⟨min_le_right _ _, le_max_right _ _⟩
      · rcases min_choice
          (coeff ((List.range k).foldl (fun e i => (resize_row vertices i e).1)
            (List.replicate vertices.cols default)) j).lo (vertices.entry k j).lo with hm | hm
        · exact ⟨i1, Nat.lt_succ_of_lt hi1, by rw [hm, he1]⟩
        · exact ⟨k, Nat.lt_succ_self k, hm⟩
      · rcases max_choice
          (coeff ((List.range k).foldl (fun e i => (resize_row vertices i e).1)
            (List.replicate vertices.cols default)) j).hi (vertices.entry k j).hi with hm | hm
        · exact ⟨i2, Nat.lt_succ_of_lt hi2, by rw [hm, he2]⟩
        · exact ⟨k, Nat.lt_succ_self k, hm⟩

/-- The vector `mesh_extents` of `resize` is the hull of the rows of `vertices`, column by
column. -/
theorem resize_extents_fst (vertices : MatrixXI) (dim : ℕ) (hdim : vertices.cols = dim) :
    (resize_extents vertices dim).1.length = dim
      ∧ ∀ j, j < dim →
          (∀ i, i < vertices.rows →
            (coeff (resize_extents vertices dim).1 j).lo ≤ (vertices.entry i j).lo
            ∧ (vertices.entry i j).hi ≤ (coeff (resize_extents vertices dim).1 j).hi)
          ∧ (0 < vertices.rows →
            (∃ i, i < vertices.rows ∧
              (coeff (resize_extents vertices dim).1 j).lo = (vertices.entry i j).lo)
            ∧ ∃ i, i < vertices.rows ∧
              (coeff (resize_extents vertices dim).1 j).hi = (vertices.entry i j).hi) := by
  subst hdim
  have hfst : (resize_extents vertices vertices.cols).1
      = (List.range vertices.rows).foldl (fun e i => (resize_row vertices i e).1)
          (List.replicate vertices.cols default) := by
    unfold resize_extents
    exact foldl_fst (fun (e : Box) i => (resize_row vertices i e).1)
      (fun (st : Box × ℚ) i => st.2 + (resize_row vertices i st.1).2) _ _ _
  obtain ⟨hlen, hrows⟩ := resize_extents_rows vertices vertices.rows
  rw [hfst]
  refine ⟨hlen, ?_⟩
  intro j hj
  constructor
  · intro i hi
    exact (hrows (Nat.lt_of_le_of_lt (Nat.zero_le i) hi) j hj).1 i hi
  · intro hpos
    exact (hrows hpos j hj).2

theorem inflated_box_asserts (vertices : MatrixXI) (r : ℚ) (i : ℕ) (hr : 0 ≤ r)
    (hwf : ∀ j, j < vertices.cols → (vertices.entry i j).lo ≤ (vertices.entry i j).hi) :
    AABB.asserts (inflated_box vertices r i).min (inflated_box vertices r i).max = true := by
  simp only [AABB.asserts, Bool.and_eq_true, decide_eq_true_eq, Nat.cast_inj]
  refine ⟨?_, by simp [inflated_box, AABB.from_min_max]⟩
  rw [cwise_le_iff]
  intro j hj _
  have hj2 : j < vertices.cols := by
    simpa [inflated_box, AABB.from_min_max] using hj
  have := hwf j hj2
  simp only [inflated_box, AABB.from_min_max, vcoeff, List.getD_eq_getElem?_getD,
    List.getElem?_map, List.getElem?_range hj2, Option.map_some', Option.getD_some,
    Interval.lower, Interval.upper]
  linarith

theorem contains_inflated (vertices : MatrixXI) (dim : ℕ) (r : ℚ) (i : ℕ)
    (hdim : vertices.cols = dim) (hi : i < vertices.rows) :
    (AABB.from_min_max
        ((resize_extents vertices dim).1.map fun e => e.lower - r)
        ((resize_extents vertices dim).1.map fun e => e.upper + r)).Contains
      (inflated_box vertices r i) := by
  obtain ⟨hlen, hb⟩ := resize_extents_fst vertices dim hdim
  refine ⟨by simp [AABB.from_min_max, inflated_box, hlen, hdim],
    by simp [AABB.from_min_max, inflated_box, hlen, hdim], ?_⟩
  intro j hj
  have hj2 : j < vertices.cols := by
    simpa [inflated_box, AABB.from_min_max] using hj
  have hjd : j < dim := hdim ▸ hj2
  have hjl : j < (resize_extents vertices dim).1.length := hlen.symm ▸ hjd
  have hc : (coeff (resize_extents vertices dim).1 j)
      = (resize_extents vertices dim).1[j] := by
    simp [coeff, List.getD_eq_getElem?_getD, hjl]
  have := (hb j hjd).1 i hi
  rw [hc] at this
  simp only [inflated_box, AABB.from_min_max, vcoeff, List.getD_eq_getElem?_getD,
    List.getElem?_map, List.getElem?_range hj2, Option.map_some', Option.getD_some,
    Interval.lower, Interval.upper, List.getElem?_eq_getElem hjl]
  constructor <;> linarith

theorem contains_from_union (c a b : AABB) (h1 : a.min.length = b.min.length)
    (h2 : a.max.length = b.max.length) (h3 : a.max.length = a.min.length)
    (ha : c.Contains a) (hb : c.Contains b) :
    c.Contains (AABB.from_union a b) := by
  obtain ⟨ha1, ha2, ha3⟩ := ha
  obtain ⟨hb1, hb2, hb3⟩ := hb
  have hmin : (AABB.from_union a b).min = cwise_min a.min b.min := rfl
  have hmax : (AABB.from_union a b).max = cwise_max a.max b.max := rfl
  refine ⟨by rw [hmin]; simp [cwise_min, ← h1, ha1],
    by rw [hmax]; simp [cwise_max, ← h2, ha2], ?_⟩
  intro i hi
  rw [hmin] at hi
  simp only [cwise_min, List.length_zipWith, lt_min_iff] at hi
  rw [hmin, hmax, cwise_min, cwise_max, vcoeff_zipWith _ _ _ _ hi.1 hi.2,
    vcoeff_zipWith _ _ _ _ (by omega) (by omega)]
  exact ⟨le_min (ha3 i hi.1).1 (hb3 i hi.2).1, max_le (ha3 i hi.1).2 (hb3 i hi.2).2⟩

/-- The union of two boxes of the same size that satisfy the class invariant and lie in
`c` passes the assertions of the constructor, satisfies the invariant, has that size and
lies in `c`. -/
theorem union_in_domain (c a b : AABB) (n : ℕ)
    (ha : a.Invariant ∧ a.min.length = n ∧ c.Contains a)
    (hb : b.Invariant ∧ b.min.length = n ∧ c.Contains b) :
    AABB.asserts (cwise_min a.min b.min) (cwise_max a.max b.max) = true
      ∧ (AABB.from_union a b).Invariant ∧ (AABB.from_union a b).min.length = n
      ∧ c.Contains (AABB.from_union a b) := by
  obtain ⟨hai, han, hac⟩ := ha
  obtain ⟨hbi, hbn, hbc⟩ := hb
  have hla : a.max.length = a.min.length := by exact_mod_cast hai.2.1.trans hai.1.symm
  have hlb : b.max.length = b.min.length := by exact_mod_cast hbi.2.1.trans hbi.1.symm
  have hass := from_union_asserts a b hai hbi
  refine ⟨hass, from_min_max_invariant _ _ hass, ?_, ?_⟩
  · show (cwise_min a.min b.min).length = n
    simp [cwise_min, han, hbn]
  · exact contains_from_union c a b (han.trans hbn.symm) (by omega) hla hac hbc

/-- C25: for the same matrix of vertex intervals (with `dim` columns and well-formed
intervals), an inflation radius `r ≥ 0` and edges and faces that index existing vertices,
`resize` passes to `HashGrid::resize` the vectors `min`, `max` with `min_j` the lower bound
of the hull of column `j` minus `r` and `max_j` its upper bound plus `r`; every box that
`addBodies` hands to `addElement` (the box of a vertex, the union of the boxes of the two
vertices of an edge, the union of the boxes of the three vertices of a face) lies in the
box `[min, max]`, and every constructor call that builds one of them passes the
assertion `min <= max`. -/
theorem addBodies_in_domain (dim : ℕ) (m_edges m_faces : List (List ℤ))
    (vertices : MatrixXI) (r : ℚ) (hdim : vertices.cols = dim) (hr : 0 ≤ r)
    (hwf : ∀ i j, i < vertices.rows → j < vertices.cols →
      (vertices.entry i j).lo ≤ (vertices.entry i j).hi)
    (hedges : ∀ i c, i < m_edges.length → c < 2 →
      0 ≤ int_entry m_edges i c ∧ int_entry m_edges i c < vertices.rows)
    (hfaces : ∀ i c, i < m_faces.length → c < 3 →
      0 ≤ int_entry m_faces i c ∧ int_entry m_faces i c < vertices.rows) :
    ∃ min max : Vec,
      (∀ (R : HashGrid → Vec → Vec → ℚ → HashGrid) (grid : HashGrid) (avg : ℚ),
          ∃ cell_size,
            RigidBodyHashGrid.resize R grid dim avg vertices r = R grid min max cell_size)
      ∧ min.length = dim ∧ max.length = dim
      ∧ (∀ j, j < dim →
          (∀ i, i < vertices.rows →
            vcoeff min j ≤ (vertices.entry i j).lo - r
            ∧ (vertices.entry i j).hi + r ≤ vcoeff max j)
          ∧ (0 < vertices.rows →
            (∃ i, i < vertices.rows ∧ vcoeff min j = (vertices.entry i j).lo - r)
            ∧ ∃ i, i < vertices.rows ∧ vcoeff max j = (vertices.entry i j).hi + r))
      ∧ (∀ i : ℕ, i < vertices.rows →
          AABB.asserts (aabb_at (vertices_aabb vertices dim r) (i : ℤ)).min
              (aabb_at (vertices_aabb vertices dim r) (i : ℤ)).max = true
          ∧ (AABB.from_min_max min max).Contains
              (aabb_at (vertices_aabb vertices dim r) (i : ℤ)))
      ∧ (∀ i : ℕ, i < m_edges.length →
          AABB.asserts
              (cwise_min (aabb_at (vertices_aabb vertices dim r) (int_entry m_edges i 0)).min
                (aabb_at (vertices_aabb vertices dim r) (int_entry m_edges i 1)).min)
              (cwise_max (aabb_at (vertices_aabb vertices dim r) (int_entry m_edges i 0)).max
                (aabb_at (vertices_aabb vertices dim r) (int_entry m_edges i 1)).max) = true
          ∧ (AABB.from_min_max min max).Contains
              (AABB.from_union (aabb_at (vertices_aabb vertices dim r) (int_entry m_edges i 0))
                (aabb_at (vertices_aabb vertices dim r) (int_entry m_edges i 1))))
      ∧ (∀ i : ℕ, i < m_faces.length →
          AABB.asserts
              (cwise_min (aabb_at (vertices_aabb vertices dim r) (int_entry m_faces i 0)).min
                (aabb_at (vertices_aabb vertices dim r) (int_entry m_faces i 1)).min)
              (cwise_max (aabb_at (vertices_aabb vertices dim r) (int_entry m_faces i 0)).max
                (aabb_at (vertices_aabb vertices dim r) (int_entry m_faces i 1)).max) = true
          ∧ AABB.asserts
              (cwise_min
                (AABB.from_union
                  (aabb_at (vertices_aabb vertices dim r) (int_entry m_faces i 0))
                  (aabb_at (vertices_aabb vertices dim r) (int_entry m_faces i 1))).min
                (aabb_at (vertices_aabb vertices dim r) (int_entry m_faces i 2)).min)
              (cwise_max
                (AABB.from_union
                  (aabb_at (vertices_aabb vertices dim r) (int_entry m_faces i 0))
                  (aabb_at (vertices_aabb vertices dim r) (int_entry m_faces i 1))).max
                (aabb_at (vertices_aabb vertices dim r) (int_entry m_faces i 2)).max) = true
          ∧ (AABB.from_min_max min max).Contains
              (AABB.from_union
                (AABB.from_union
                  (aabb_at (vertices_aabb vertices dim r) (int_entry m_faces i 0))
                  (aabb_at (vertices_aabb vertices dim r) (int_entry m_faces i 1)))
                (aabb_at (vertices_aabb vertices dim r) (int_entry m_faces i 2)))) := by
  obtain ⟨hlen, hb⟩ := resize_extents_fst vertices dim hdim
  have hv : ∀ k : ℤ, 0 ≤ k → k < vertices.rows →
      AABB.asserts (aabb_at (vertices_aabb vertices dim r) k).min
          (aabb_at (vertices_aabb vertices dim r) k).max = true
        ∧ (aabb_at (vertices_aabb vertices dim r) k).Invariant
        ∧ (aabb_at (vertices_aabb vertices dim r) k).min.length = dim
        ∧ (AABB.from_min_max
            ((resize_extents vertices dim).1.map fun e => e.lower - r)
            ((resize_extents vertices dim).1.map fun e => e.upper + r)).Contains
          (aabb_at (vertices_aabb vertices dim r) k) := by
    intro k h0 h1
    have hk : k.toNat < vertices.rows := by omega
    rw [vertices_aabb_eq vertices dim r hdim, aabb_at_map _ _ k h0 h1]
    have hass := inflated_box_asserts vertices r k.toNat hr (fun j hj => hwf _ j hk hj)
    exact ⟨hass, from_min_max_invariant _ _ hass,
      by simp [inflated_box, AABB.from_min_max, hdim],
      contains_inflated vertices dim r k.toNat hdim hk⟩
  refine ⟨(resize_extents vertices dim).1.map fun e => e.lower - r,
    (resize_extents vertices dim).1.map fun e => e.upper + r, ?_, by simp [hlen],
    by simp [hlen], ?_, ?_, ?_, ?_⟩
  · intro R grid avg
    exact ⟨_, rfl⟩
  · intro j hj
    have hjl : j < (resize_extents vertices dim).1.length := hlen.symm ▸ hj
    have hc : (coeff (resize_extents vertices dim).1 j)
        = (resize_extents vertices dim).1[j] := by
      simp [coeff, List.getD_eq_getElem?_getD, hjl]
    have hmin : vcoeff ((resize_extents vertices dim).1.map fun e => e.lower - r) j
        = (coeff (resize_extents vertices dim).1 j).lo - r := by
      rw [hc]
      simp [vcoeff, List.getD_eq_getElem?_getD, List.getElem?_eq_getElem hjl, Interval.lower]
    have hmax : vcoeff ((resize_extents vertices dim).1.map fun e => e.upper + r) j
        = (coeff (resize_extents vertices dim).1 j).hi + r := by
      rw [hc]
      simp [vcoeff, List.getD_eq_getElem?_getD, List.getElem?_eq_getElem hjl, Interval.upper]
    rw [hmin, hmax]
    constructor
    · intro i hi
      have := (hb j hj).1 i hi
      constructor <;> linarith
    · intro hpos
      obtain ⟨⟨i1, hi1, he1⟩, ⟨i2, hi2, he2⟩⟩ := (hb j hj).2 hpos
      exact ⟨⟨i1, hi1, by rw [he1]⟩, ⟨i2, hi2, by rw [he2]⟩⟩
  · intro i hi
    obtain ⟨h1, _, _, h4⟩ := hv (i : ℤ) (by omega) (by exact_mod_cast hi)
    exact ⟨h1, h4⟩
  · intro i hi
    obtain ⟨h00, h01⟩ := hedges i 0 hi (by decide)
    obtain ⟨h10, h11⟩ := hedges i 1 hi (by decide)
    obtain ⟨_, a2, a3, a4⟩ := hv _ h00 h01
    obtain ⟨_, b2, b3, b4⟩ := hv _ h10 h11
    obtain ⟨u1, _, _, u4⟩ := union_in_domain _ _ _ dim ⟨a2, a3, a4⟩ ⟨b2, b3, b4⟩
    exact ⟨u1, u4⟩
  · intro i hi
    obtain ⟨h00, h01⟩ := hfaces i 0 hi (by decide)
    obtain ⟨h10, h11⟩ := hfaces i 1 hi (by decide)
    obtain ⟨h20, h21⟩ := hfaces i 2 hi (by decide)
    obtain ⟨_, a2, a3, a4⟩ := hv _ h00 h01
    obtain ⟨_, b2, b3, b4⟩ := hv _ h10 h11
    obtain ⟨_, c2, c3, c4⟩ := hv _ h20 h21
    obtain ⟨u1, u2, u3, u4⟩ := union_in_domain _ _ _ dim ⟨a2, a3, a4⟩ ⟨b2, b3, b4⟩
    obtain ⟨w1, _, _, w4⟩ := union_in_domain _ _ _ dim ⟨u2, u3, u4⟩ ⟨c2, c3, c4⟩
    exact ⟨u1, w1, w4⟩

theorem example_vertices_wf : ∀ i j, i < example_vertices.rows → j < example_vertices.cols →
    (example_vertices.entry i j).lo ≤ (example_vertices.entry i j).hi := by
  intro i j hi hj
  have hi2 : i < 2 := hi
  have hj2 : j < 2 := hj
  interval_cases i <;> interval_cases j <;>
    norm_num [example_vertices, MatrixXI.entry, coeff]

theorem example_edges_valid : ∀ i c, i < ([[0, 1]] : List (List ℤ)).length → c < 2 →
    0 ≤ int_entry [[0, 1]] i c ∧ int_entry [[0, 1]] i c < example_vertices.rows := by
  intro i c hi hc
  have hi2 : i < 1 := hi
  interval_cases i
  interval_cases c <;> simp [int_entry, example_vertices, MatrixXI.rows]

/-- Instance of C25 on the matrix `example_vertices`, with one edge and no face. -/
theorem addBodies_in_domain_witness :
    example_vertices.cols = 2 ∧ (0 : ℚ) ≤ 1 / 10
      ∧ ∃ min max : Vec,
        (∀ avg, ∃ cell_size,
          RigidBodyHashGrid.resize store_resize ⟨0, 0, [], [], [], [], []⟩ 2 avg
            example_vertices (1 / 10)
            = store_resize ⟨0, 0, [], [], [], [], []⟩ min max cell_size)
        ∧ (AABB.from_min_max min max).Contains
            (AABB.from_union
              (aabb_at (vertices_aabb example_vertices 2 (1 / 10)) (int_entry [[0, 1]] 0 0))
              (aabb_at (vertices_aabb example_vertices 2 (1 / 10))
                (int_entry [[0, 1]] 0 1))) := by
  obtain ⟨mn, mx, h1, _, _, _, _, h6, _⟩ :=
    addBodies_in_domain 2 [[0, 1]] [] example_vertices (1 / 10) rfl (by norm_num)
      example_vertices_wf example_edges_valid
      (fun i c hi _ => absurd hi (Nat.not_lt_zero i))
  exact ⟨rfl, by norm_num, mn, mx, fun avg => h1 store_resize _ avg,
    (h6 0 (by decide)).2⟩

/-! ## Projection to the positive semi-definite cone -/

/-- On a sorted diagonal the loop with its early exit clamps every coefficient: no
negative coefficient comes after one that is not negative. -/
theorem clamp_negative_sorted {K : Type} [LinearOrderedField K] (l : List K)
    (h : l.Sorted (· ≤ ·)) : clamp_negative l = l.map fun d => Max.max d 0 := by
  induction l with
  | nil => rfl
  | cons d rest ih =>
    rw [List.sorted_cons] at h
    simp only [clamp_negative, List.map_cons]
    split_ifs with hd
    · rw [ih h.2, max_eq_right (le_of_lt hd)]
    · have hd0 : 0 ≤ d := not_lt.mp hd
      rw [max_eq_left hd0]
      congr 1
      symm
      calc rest.map (fun d => Max.max d 0) = rest.map id :=
            List.map_congr_left fun b hb => max_eq_left (le_trans hd0 (h.1 b hb))
        _ = rest := List.map_id _

theorem clamp_negative_diag {K : Type} [LinearOrderedField K] {n : ℕ} (ev : Fin n → K)
    (h : ∀ i j, i ≤ j → ev i ≤ ev j) (i : Fin n) :
    (clamp_negative (List.ofFn ev)).getD i.val 0 = Max.max (ev i) 0 := by
  have hs : (List.ofFn ev).Sorted (· ≤ ·) := List.sorted_le_ofFn_iff.mpr fun i j hij => h i j hij
  rw [clamp_negative_sorted _ hs, List.map_ofFn]
  simp [List.getD_eq_getElem?_getD, List.getElem?_ofFn]

theorem quad_diag {K : Type} [LinearOrderedField K] {n : ℕ}
    (V : Matrix (Fin n) (Fin n) K) (d x : Fin n → K) :
    Matrix.dotProduct x ((V * Matrix.diagonal d * V.transpose).mulVec x)
      = ∑ i, d i * (V.transpose.mulVec x i) ^ 2 := by
  rw [← Matrix.mulVec_mulVec, ← Matrix.mulVec_mulVec, Matrix.dotProduct_mulVec,
    ← Matrix.mulVec_transpose]
  simp only [Matrix.dotProduct, Matrix.mulVec_diagonal]
  apply Finset.sum_congr rfl
  intro i _
  ring

theorem psd_of_diag {K : Type} [LinearOrderedField K] {n : ℕ}
    (V : Matrix (Fin n) (Fin n) K) (d : Fin n → K) (hd : ∀ i, 0 ≤ d i) (x : Fin n → K) :
    0 ≤ Matrix.dotProduct x ((V * Matrix.diagonal d * V.transpose).mulVec x) := by
  rw [quad_diag]
  exact Finset.sum_nonneg fun i _ => mul_nonneg (hd i) (sq_nonneg _)

theorem symm_of_diag {K : Type} [LinearOrderedField K] {n : ℕ}
    (V : Matrix (Fin n) (Fin n) K) (d : Fin n → K) :
    (V * Matrix.diagonal d * V.transpose).transpose = V * Matrix.diagonal d * V.transpose := by
  rw [Matrix.transpose_mul, Matrix.transpose_mul, Matrix.transpose_transpose,
    Matrix.diagonal_transpose, Matrix.mul_assoc]

/-- The eigenvalues of an eigendecomposition of a positive semi-definite matrix are not
negative. -/
theorem eigenvalues_nonneg {K : Type} [LinearOrderedField K] {n : ℕ}
    (es : SelfAdjointEigenSolver K n) (B : Matrix (Fin n) (Fin n) K)
    (h : IsEigendecomposition es B)
    (hpsd : ∀ x : Fin n → K, 0 ≤ Matrix.dotProduct x (B.mulVec x)) (i : Fin n) :
    0 ≤ es.eigenvalues i := by
  obtain ⟨_, horth, hB⟩ := h
  have hx := hpsd (es.eigenvectors.mulVec (Pi.single i 1))
  rw [hB, quad_diag] at hx
  have hv : es.eigenvectors.transpose.mulVec (es.eigenvectors.mulVec (Pi.single i 1))
      = Pi.single i 1 := by
    rw [Matrix.mulVec_mulVec, horth, Matrix.one_mulVec]
  rw [hv] at hx
  rw [Finset.sum_eq_single i] at hx
  · simpa using hx
  · intro j _ hji
    simp [Pi.single_eq_of_ne hji]
  · intro hi
    exact absurd (Finset.mem_univ i) hi

/-- A matrix on which the eigensolver fails, or gives a least eigenvalue that is not
negative, is returned as it is. -/
theorem project_to_psd_fixed {K : Type} [LinearOrderedField K] {n : ℕ}
    (eigensolver : Matrix (Fin (n + 1)) (Fin (n + 1)) K → SelfAdjointEigenSolver K (n + 1))
    (B : Matrix (Fin (n + 1)) (Fin (n + 1)) K)
    (h : (eigensolver B).success = true → 0 ≤ (eigensolver B).eigenvalues 0) :
    project_to_psd eigensolver B = B := by
  unfold project_to_psd
  by_cases hs : (eigensolver B).success = true
  · simp [hs, h hs]
  · simp [hs]

/-- C26: when the eigensolver succeeds on `A` with an eigendecomposition
`A = V diag(lambda) V^T` (eigenvalues in increasing order, orthonormal eigenvectors),
`A` being then symmetric, `project_to_psd(A)` returns `A` itself when the least
eigenvalue is not negative and `V diag(max(lambda_i, 0)) V^T` otherwise, the loop with
its early exit having clamped every negative eigenvalue; the result is symmetric and
positive semi-definite; and `project_to_psd` of the result is the result (the
eigensolver, when it succeeds on the result, giving an eigendecomposition of it). -/
theorem project_to_psd_spec {K : Type} [LinearOrderedField K] {n : ℕ}
    (eigensolver : Matrix (Fin (n + 1)) (Fin (n + 1)) K → SelfAdjointEigenSolver K (n + 1))
    (A : Matrix (Fin (n + 1)) (Fin (n + 1)) K)
    (hs : (eigensolver A).success = true)
    (hA : IsEigendecomposition (eigensolver A) A)
    (hB : (eigensolver (project_to_psd eigensolver A)).success = true →
      IsEigendecomposition (eigensolver (project_to_psd eigensolver A))
        (project_to_psd eigensolver A)) :
    A.transpose = A
      ∧ ((eigensolver A).eigenvalues 0 ≥ 0 → project_to_psd eigensolver A = A)
      ∧ ((eigensolver A).eigenvalues 0 < 0 →
          project_to_psd eigensolver A
            = (eigensolver A).eigenvectors
              * Matrix.diagonal (fun i => Max.max ((eigensolver A).eigenvalues i) 0)
              * (eigensolver A).eigenvectors.transpose)
      ∧ (∀ i : Fin (n + 1),
          (clamp_negative (List.ofFn (eigensolver A).eigenvalues)).getD i.val 0
            = Max.max ((eigensolver A).eigenvalues i) 0)
      ∧ (project_to_psd eigensolver A).transpose = project_to_psd eigensolver A
      ∧ (∀ x : Fin (n + 1) → K,
          0 ≤ Matrix.dotProduct x ((project_to_psd eigensolver A).mulVec x))
      ∧ project_to_psd eigensolver (project_to_psd eigensolver A)
        = project_to_psd eigensolver A := by
  obtain ⟨hsorted, horth, hdec⟩ := hA
  have hclamp := clamp_negative_diag (eigensolver A).eigenvalues hsorted
  have hsymA : A.transpose = A := by
    rw [hdec]
    exact symm_of_diag _ _
  have hpos : (eigensolver A).eigenvalues 0 ≥ 0 → project_to_psd eigensolver A = A := by
    intro h0
    unfold project_to_psd
    simp [hs, h0]
  have hneg : (eigensolver A).eigenvalues 0 < 0 →
      project_to_psd eigensolver A
        = (eigensolver A).eigenvectors
          * Matrix.diagonal (fun i => Max.max ((eigensolver A).eigenvalues i) 0)
          * (eigensolver A).eigenvectors.transpose := by
    intro h0
    unfold project_to_psd
    simp only [hs, Bool.not_true, Bool.false_eq_true, if_false, ge_iff_le, not_le.mpr h0,
      hclamp]
  have hform : project_to_psd eigensolver A
      = (eigensolver A).eigenvectors
        * Matrix.diagonal (fun i => Max.max ((eigensolver A).eigenvalues i) 0)
        * (eigensolver A).eigenvectors.transpose := by
    by_cases h0 : (eigensolver A).eigenvalues 0 ≥ 0
    · rw [hpos h0]
      have hmax : (fun i => Max.max ((eigensolver A).eigenvalues i) 0)
          = (eigensolver A).eigenvalues := by
        funext i
        exact max_eq_left (le_trans h0 (hsorted 0 i (Fin.zero_le i)))
      rw [hmax]
      exact hdec
    · exact hneg (not_le.mp h0)
  have hpsd : ∀ x : Fin (n + 1) → K,
      0 ≤ Matrix.dotProduct x ((project_to_psd eigensolver A).mulVec x) := by
    intro x
    rw [hform]
    exact psd_of_diag _ _ (fun i => le_max_right _ _) x
  refine ⟨hsymA, hpos, hneg, hclamp, ?_, hpsd, ?_⟩
  · rw [hform]
    exact symm_of_diag _ _
  · exact project_to_psd_fixed eigensolver _
      fun hs2 => eigenvalues_nonneg _ _ (hB hs2) hpsd 0

theorem diagonal_solver_spec (a b : ℚ) (h : a ≤ b) :
    IsEigendecomposition (diagonal_solver (Matrix.diagonal ![a, b]))
      (Matrix.diagonal ![a, b]) := by
  refine ⟨?_, by simp [diagonal_solver], ?_⟩
  · intro i j hij
    fin_cases i <;> fin_cases j <;> simp [diagonal_solver] at hij ⊢
    exact h
  · simp only [diagonal_solver, Matrix.one_mul, Matrix.transpose_one, Matrix.mul_one]
    ext i j
    fin_cases i <;> fin_cases j <;> simp

theorem example_projection :
    project_to_psd diagonal_solver example_matrix = Matrix.diagonal ![0, 2] := by
  unfold project_to_psd
  simp only [diagonal_solver, example_matrix, Matrix.one_mul, Matrix.transpose_one,
    Matrix.mul_one]
  norm_num [clamp_negative, List.ofFn_succ]
  intro i
  fin_cases i <;> simp

/-- Instance of C26 on the matrix `diag(-1, 2)`, whose projection is `diag(0, 2)`. -/
theorem project_to_psd_spec_witness :
    (diagonal_solver example_matrix).success = true
      ∧ IsEigendecomposition (diagonal_solver example_matrix) example_matrix
      ∧ project_to_psd diagonal_solver example_matrix = Matrix.diagonal ![0, 2]
      ∧ project_to_psd diagonal_solver (project_to_psd diagonal_solver example_matrix)
        = project_to_psd diagonal_solver example_matrix := by
  have hA : IsEigendecomposition (diagonal_solver example_matrix) example_matrix :=
    diagonal_solver_spec (-1) 2 (by norm_num)
  have hB : (diagonal_solver (project_to_psd diagonal_solver example_matrix)).success = true →
      IsEigendecomposition (diagonal_solver (project_to_psd diagonal_solver example_matrix))
        (project_to_psd diagonal_solver example_matrix) := by
    intro _
    rw [example_projection]
    exact diagonal_solver_spec 0 2 (by norm_num)
  exact ⟨rfl, hA, example_projection,
    (project_to_psd_spec diagonal_solver example_matrix rfl hA hB).2.2.2.2.2.2⟩

/-! ## The output of the finders when no root is found -/

theorem finder_false_none {median : Interval → ℚ} {f : Box → Box} {c d : Box → Bool}
    {tol : List ℚ} {fuel : ℕ}
    {x0 : Box} {mi : ℤ} {r : Option Box}
    (h : interval_root_finder median fuel f c d x0 tol mi = some (false, r)) : r = none := by
  obtain ⟨s, hs, h1, h2⟩ := finder_some h
  obtain ⟨hinv, _⟩ := run_invariant (InvReach median f c d (effective_tol f tol) x0)
    (fun x rest e fnd => invReach_step x0 x rest e fnd) fuel _ _ (invReach_init x0) hs
  rw [← h2]
  exact hinv.2.2 h1

/-- C27: when no root is found, the 1D finder returns the caller's `x` as it was, and
the n-D finder returns the vector of infinite point intervals (the value `none`), whose
size is the size of `x0`. -/
theorem no_root_output (median : Interval → ℚ) (fuel : ℕ) (f : Box → Box)
    (c d : Box → Bool) (x0 : Box)
    (tol : List ℚ) (mi : ℤ) (f1 : Interval → Interval) (c1 : Interval → Bool)
    (x01 : Interval) (tol1 : ℚ) (x : Interval) :
    (∀ r, interval_root_finder_1d median fuel f1 c1 x01 tol1 x mi = some (false, r) → r = x)
      ∧ (∀ r, interval_root_finder median fuel f c d x0 tol mi = some (false, r) →
          r = none ∧ output_size x0 r = x0.length) := by
  constructor
  · intro r hr
    unfold interval_root_finder_1d at hr
    cases h : interval_root_finder median fuel (fun v => [f1 (coeff v 0)])
        (fun v => c1 (coeff v 0)) (fun _ => true) [x01] [tol1] mi with
    | none => simp only [h] at hr; cases hr
    | some p =>
      obtain ⟨found, xv⟩ := p
      cases found with
      | false =>
        simp only [h] at hr
        simp at hr
        exact hr.symm
      | true =>
        cases xv <;> simp only [h] at hr <;> simp at hr
  · intro r hr
    have := finder_false_none hr
    subst this
    exact ⟨rfl, rfl⟩

/-! ## The range of the keys of `hash` -/

/-- C28: for every grid size `1 ≤ S ≤ 1290` and every cell `0 ≤ x, y, z < S` the key
computed in `int` arithmetic is the mathematical value `(z * S + y) * S + x`; the largest
key is `S^3 - 1`, taken at the cell `(S-1, S-1, S-1)`, it is at most `2^31 - 1`, and the
key is unchanged by the conversion to the `int` key of `HashItem`.  For `S = 1291` the
mathematical key of the cell `(1290, 1290, 1290)` is `1291^3 - 1`, which exceeds
`2^31 - 1`, and the key computed is that value reduced modulo `2^32`, a different
number. -/
theorem hash_key_range :
    (∀ S x y z : ℤ, 1 ≤ S → S ≤ 1290 → 0 ≤ x ∧ x < S → 0 ≤ y ∧ y < S → 0 ≤ z ∧ z < S →
        HashGrid.hash S x y z = (z * S + y) * S + x
          ∧ HashGrid.hash S x y z ≤ S ^ 3 - 1
          ∧ HashGrid.hash S (S - 1) (S - 1) (S - 1) = S ^ 3 - 1
          ∧ S ^ 3 - 1 ≤ 2 ^ 31 - 1
          ∧ wrap_int (HashGrid.hash S x y z) = HashGrid.hash S x y z)
      ∧ (1290 * 1291 + 1290) * 1291 + 1290 = (1291 : ℤ) ^ 3 - 1
      ∧ (2 : ℤ) ^ 31 - 1 < 1291 ^ 3 - 1
      ∧ HashGrid.hash 1291 1290 1290 1290 ≠ 1291 ^ 3 - 1
      ∧ HashGrid.hash 1291 1290 1290 1290 = 1291 ^ 3 - 1 - 2 ^ 32 := by
  refine ⟨?_, by norm_num, by norm_num, by decide, by decide⟩
  intro S x y z hS hS2 hx hy hz
  obtain ⟨he, h0, h1⟩ := hash_exact S x y z hS hS2 hx hy hz
  obtain ⟨hm, _, _⟩ := hash_exact S (S - 1) (S - 1) (S - 1) hS hS2
    ⟨by omega, by omega⟩ ⟨by omega, by omega⟩ ⟨by omega, by omega⟩
  have h7 : S ^ 3 ≤ 1290 ^ 3 := by
    have : S ^ 2 ≤ 1290 ^ 2 := by nlinarith
    nlinarith
  refine ⟨he, by rw [he]; omega, by rw [hm]; ring, by omega, ?_⟩
  rw [he]
  exact wrap_int_of_fits _ (by omega) (by omega)

/-! ## Termination of the line search -/

/-- The counting loop returns what the loop returns; and when it counts `j + 1` passes,
the step after `j` halvings was not too small. -/
theorem line_search_loop_count_spec (norm : Vec → ℚ) (x dir : Vec) (f : Vec → ℚ)
    (grad_fx : Vec) (constraint : Vec → Bool) (m a : ℚ) :
    ∀ (fuel : ℕ) (s0 : ℚ) (b : Bool) (s : ℚ) (n : ℕ),
      line_search_loop_count norm x dir f grad_fx constraint m a fuel s0 = some (b, s, n) →
      line_search_loop norm x dir f grad_fx constraint m a fuel s0 = some (b, s)
        ∧ (n = 0 ∨ ∃ j, n = j + 1 ∧ too_small norm dir m s0 j = false) := by
  intro fuel
  induction fuel with
  | zero =>
    intro s0 b s n h
    simp only [line_search_loop_count] at h
    simp only [line_search_loop]
    split_ifs at h ⊢ with hn
    simp only [Option.some.injEq, Prod.mk.injEq] at h
    obtain ⟨h1, h2, h3⟩ := h
    exact ⟨by rw [h1, h2], Or.inl h3.symm⟩
  | succ k ih =>
    intro s0 b s n h
    simp only [line_search_loop_count] at h
    simp only [line_search_loop]
    have h0 : norm (smul s0 dir) ≥ m → too_small norm dir m s0 0 = false := by
      intro hn
      simp only [too_small, halved_zero, decide_eq_false_iff_not, not_lt]
      exact hn
    split_ifs at h ⊢ with hn hacc
    · simp only [Option.some.injEq, Prod.mk.injEq] at h
      obtain ⟨h1, h2, h3⟩ := h
      exact ⟨by rw [h1, h2], Or.inr ⟨0, h3.symm, h0 hn⟩⟩
    · simp only [Option.map_eq_some', Prod.mk.injEq] at h
      obtain ⟨⟨b2, s2, n2⟩, hr, h1, h2, h3⟩ := h
      simp only at h1 h2 h3
      obtain ⟨hl, hc⟩ := ih _ _ _ _ hr
      refine ⟨by rw [hl, h1, h2], Or.inr ?_⟩
      rcases hc with hc | ⟨j, hj, hts⟩
      · exact ⟨0, by omega, h0 hn⟩
      · refine ⟨j + 1, by omega, ?_⟩
        simpa only [too_small, halved_succ] using hts
    · simp only [Option.some.injEq, Prod.mk.injEq] at h
      obtain ⟨h1, h2, h3⟩ := h
      exact ⟨by rw [h1, h2], Or.inl h3.symm⟩

/-- More fuel does not change a result. -/
theorem line_search_loop_count_mono (norm : Vec → ℚ) (x dir : Vec) (f : Vec → ℚ)
    (grad_fx : Vec) (constraint : Vec → Bool) (m a : ℚ) :
    ∀ (fuel : ℕ) (s0 : ℚ) (r : Bool × ℚ × ℕ),
      line_search_loop_count norm x dir f grad_fx constraint m a fuel s0 = some r →
      ∀ k, line_search_loop_count norm x dir f grad_fx constraint m a (k + fuel) s0
        = some r := by
  intro fuel
  induction fuel with
  | zero =>
    intro s0 r h k
    simp only [line_search_loop_count] at h
    split_ifs at h with hn
    cases k with
    | zero => simp only [Nat.add_zero, line_search_loop_count, if_neg hn]; exact h
    | succ k => simp only [Nat.add_zero, line_search_loop_count, if_neg hn]; exact h
  | succ n ih =>
    intro s0 r h k
    rw [← Nat.add_assoc]
    simp only [line_search_loop_count] at h ⊢
    split_ifs at h ⊢ with hn hacc
    · exact h
    · simp only [Option.map_eq_some'] at h ⊢
      obtain ⟨r2, hr, he⟩ := h
      exact ⟨r2, ih _ _ hr k, he⟩
    · exact h

/-- The loop ends once a step of the halving sequence is too small. -/
theorem line_search_loop_count_some (norm : Vec → ℚ) (x dir : Vec) (f : Vec → ℚ)
    (grad_fx : Vec) (constraint : Vec → Bool) (m a : ℚ) :
    ∀ (fuel : ℕ) (s0 : ℚ), too_small norm dir m s0 fuel = true →
      ∃ r, line_search_loop_count norm x dir f grad_fx constraint m a fuel s0 = some r := by
  intro fuel
  induction fuel with
  | zero =>
    intro s0 h
    simp only [too_small, halved_zero, decide_eq_true_eq] at h
    exact ⟨(false, s0, 0), by simp only [line_search_loop_count, if_neg (not_le.mpr h)]⟩
  | succ n ih =>
    intro s0 h
    rw [too_small, ← halved_succ] at h
    obtain ⟨r, hr⟩ := ih (s0 / 2) (by simpa only [too_small] using h)
    simp only [line_search_loop_count]
    split_ifs with hn hacc
    · exact ⟨_, rfl⟩
    · exact ⟨_, by rw [hr]; rfl⟩
    · exact ⟨_, rfl⟩

theorem norm_halved (norm : Vec → ℚ) (dir : Vec)
    (hnorm : ∀ s : ℚ, norm (smul (s / 2) dir) = norm (smul s dir) / 2) (s0 : ℚ) (k : ℕ) :
    norm (smul (halved s0 k) dir) = norm (smul s0 dir) / 2 ^ k := by
  induction k generalizing s0 with
  | zero => simp [halved]
  | succ k ih =>
    rw [← halved_succ, ih, hnorm, pow_succ, div_div]
    ring

/-- C29: for `min_step_length > 0` and a norm that halves when the step length is
halved, the halving loop of `constrained_line_search` terminates (with enough fuel it
returns, and more fuel gives the same result), after at most
`max(0, floor(log2(‖s0 * dir‖ / min_step_length)) + 1)` passes of the loop body, each of
which evaluates the acceptance rule and the constraint once; and when `‖s0 * dir‖` is
below `min_step_length` at the start, it returns false after no pass, with `step_length`
unchanged. -/
theorem line_search_terminates (norm : Vec → ℚ) (x dir : Vec) (f : Vec → ℚ)
    (grad_fx : Vec) (constraint : Vec → Bool) (s0 m a : ℚ) (hm : 0 < m)
    (hnorm : ∀ s : ℚ, norm (smul (s / 2) dir) = norm (smul s dir) / 2) :
    (∃ (fuel : ℕ) (b : Bool) (s : ℚ) (n : ℕ),
        (∀ k, line_search_loop_count norm x dir f grad_fx constraint m a (k + fuel) s0
              = some (b, s, n)
            ∧ constrained_line_search norm (k + fuel) x dir f grad_fx constraint s0 m a
              = some (b, s))
          ∧ (n : ℤ) ≤ Max.max 0 (Int.log 2 (norm (smul s0 dir) / m) + 1))
      ∧ (norm (smul s0 dir) < m →
          ∀ fuel,
            line_search_loop_count norm x dir f grad_fx constraint m a fuel s0
                = some (false, s0, 0)
              ∧ constrained_line_search norm fuel x dir f grad_fx constraint s0 m a
                = some (false, s0)) := by
  constructor
  · obtain ⟨K, hK⟩ := pow_unbounded_of_one_lt (norm (smul s0 dir) / m) (one_lt_two)
    have hsmall : too_small norm dir m s0 K = true := by
      simp only [too_small, decide_eq_true_eq, norm_halved norm dir hnorm]
      rw [div_lt_iff₀ hm] at hK
      rw [div_lt_iff₀ (by positivity)]
      linarith
    obtain ⟨⟨b, s, n⟩, hr⟩ :=
      line_search_loop_count_some norm x dir f grad_fx constraint m a K s0 hsmall
    refine ⟨K, b, s, n, ?_, ?_⟩
    · intro k
      have hk := line_search_loop_count_mono norm x dir f grad_fx constraint m a K s0 _ hr k
      exact ⟨hk, (line_search_loop_count_spec norm x dir f grad_fx constraint m a _ _ _ _ _
        hk).1⟩
    · rcases (line_search_loop_count_spec norm x dir f grad_fx constraint m a _ _ _ _ _
        hr).2 with h0 | ⟨j, hj, hts⟩
      · rw [h0]
        exact le_max_left _ _
      · simp only [too_small, decide_eq_false_iff_not, not_lt,
          norm_halved norm dir hnorm] at hts
        have hpow : (0 : ℚ) < 2 ^ j := by positivity
        have hle : (2 : ℚ) ^ j ≤ norm (smul s0 dir) / m := by
          rw [le_div_iff₀ hm]
          rw [le_div_iff₀ hpow] at hts
          linarith
        have hpos : 0 < norm (smul s0 dir) / m := lt_of_lt_of_le hpow hle
        have hlog : (j : ℤ) ≤ Int.log 2 (norm (smul s0 dir) / m) := by
          rw [← Int.zpow_le_iff_le_log (by norm_num) hpos]
          simpa using hle
        rw [hj]
        apply le_max_of_le_right
        push_cast
        linarith
  · intro hlt fuel
    have hc : line_search_loop_count norm x dir f grad_fx constraint m a fuel s0
        = some (false, s0, 0) := by
      cases fuel <;> simp only [line_search_loop_count, if_neg (not_le.mpr hlt)]
    exact ⟨hc, (line_search_loop_count_spec norm x dir f grad_fx constraint m a _ _ _ _ _
      hc).1⟩

theorem norm1_halves (dir : Vec) (s : ℚ) :
    norm1 (smul (s / 2) dir) = norm1 (smul s dir) / 2 := by
  cases dir with
  | nil => simp [norm1, smul]
  | cons p rest =>
    simp only [norm1, smul, List.map_cons, List.headD_cons]
    rw [div_mul_eq_mul_div, abs_div]
    norm_num

/-- Instance of C29: the direction zero, for which the loop body is never entered. -/
theorem line_search_terminates_witness :
    (0 : ℚ) < 1 / 100
      ∧ (∀ s : ℚ, norm1 (smul (s / 2) [0]) = norm1 (smul s [0]) / 2)
      ∧ (∃ (fuel : ℕ) (b : Bool) (s : ℚ) (n : ℕ),
          (∀ k, line_search_loop_count norm1 [1] [0] (fun v => (v.headD 0) ^ 2) [2]
                (fun _ => true) (1 / 100) 0 (k + fuel) 1 = some (b, s, n)
              ∧ constrained_line_search norm1 (k + fuel) [1] [0] (fun v => (v.headD 0) ^ 2)
                [2] (fun _ => true) 1 (1 / 100) 0 = some (b, s))
            ∧ (n : ℤ) ≤ Max.max 0 (Int.log 2 (norm1 (smul 1 [0]) / (1 / 100)) + 1))
      ∧ ∀ fuel,
          constrained_line_search norm1 fuel [1] [0] (fun v => (v.headD 0) ^ 2) [2]
            (fun _ => true) 1 (1 / 100) 0 = some (false, 1) := by
  have h := line_search_terminates norm1 [1] [0] (fun v => (v.headD 0) ^ 2) [2]
    (fun _ => true) 1 (1 / 100) 0 (by norm_num) (norm1_halves [0])
  refine ⟨by norm_num, norm1_halves [0], h.1, fun fuel => ?_⟩
  exact (h.2 (by norm_num [norm1, smul]) fuel).2

/-! ## The scene reader only appends to `rbs` -/

theorem check_dim_rbs (vertices : Mat ℚ) (st st1 : ReaderState)
    (h : check_dim vertices st = .ok st1) : st1.rbs = st.rbs := by
  unfold check_dim at h
  split_ifs at h <;> cases h <;> rfl

theorem check_dim_error (vertices : Mat ℚ) (st : ReaderState) (e : Error)
    (h : check_dim vertices st = .error e) :
    e = Error.NotImplementedError "Mixing 2D and 3D bodies are not currently allowed."
      ∧ st.dim ≠ -1 ∧ st.dim ≠ (vertices.cols : ℤ) := by
  unfold check_dim at h
  split_ifs at h with h1 h2 h3
  · cases h
    exact ⟨rfl, h1, h3⟩

theorem conservativeResize_error {α : Type} (v : List α) (n : ℤ) (what : String) (e : Error)
    (h : conservativeResize v n what = .error e) :
    e = Error.AssertionFailure what ∧ ¬ (v.length : ℤ) ≥ n := by
  unfold conservativeResize at h
  split_ifs at h with h1
  cases h
  exact ⟨rfl, h1⟩

/-- A pass of the loop body that neither throws nor aborts appends to `rbs` one body,
built from the geometry and the arguments of the entry. -/
theorem read_body_appends (env : ReaderEnv) (args : BodyArgs) (st st2 : ReaderState)
    (h : read_body env args st = .ok st2) :
    ∃ rb, st2.rbs = st.rbs ++ [rb]
      ∧ rb.vertices = (body_geometry env args).1
      ∧ rb.edges = (body_geometry env args).2.2
      ∧ rb.density = args.density ∧ rb.is_oriented = args.oriented := by
  unfold read_body at h
  cases hc : check_dim (body_geometry env args).1 st with
  | error e => simp only [hc] at h; cases h
  | ok st1 =>
    simp only [hc] at h
    split at h
    · cases h
    split at h
    · cases h
    split at h
    · cases h
    split at h
    · cases h
    split at h
    · cases h
    cases h
    exact ⟨_, by rw [← check_dim_rbs _ _ _ hc], rfl, rfl, rfl, rfl⟩

/-- A pass of the loop body fails in one of two ways: it throws the mixed-dimension
error, when `dim` is set and differs from the number of columns of the vertices of the
entry; or the dimension check passes and one of the five assertions fails. -/
theorem read_body_throws (env : ReaderEnv) (args : BodyArgs) (st : ReaderState) (e : Error)
    (h : read_body env args st = .error e) :
    (e = Error.NotImplementedError "Mixing 2D and 3D bodies are not currently allowed."
        ∧ st.dim ≠ -1 ∧ st.dim ≠ (body_cols env args : ℤ))
      ∨ ((∃ what, e = Error.AssertionFailure what)
        ∧ ∃ st1, check_dim (body_geometry env args).1 st = .ok st1
          ∧ ¬ SizesOk st1.dim st1.ndof st1.angular_dim args) := by
  cases hc : check_dim (body_geometry env args).1 st with
  | error e2 =>
    rw [read_body_error env args st e2 hc] at h
    cases h
    exact Or.inl (check_dim_error _ _ _ hc)
  | ok st1 =>
    right
    by_cases hs : SizesOk st1.dim st1.ndof st1.angular_dim args
    · obtain ⟨st2, rb, hok, _⟩ := read_body_ok env args st st1 hc hs
      rw [hok] at h
      cases h
    · obtain ⟨what, hab⟩ := read_body_aborts env args st st1 hc hs
      rw [hab] at h
      cases h
      exact ⟨⟨what, rfl⟩, st1, rfl, hs⟩

theorem read_loop_appends (env : ReaderEnv) :
    ∀ (scene : List BodyArgs) (st : ReaderState),
      ∃ added : List RigidBody,
        (read_loop env scene st).1.rbs = st.rbs ++ added
          ∧ added.length ≤ scene.length
          ∧ (∀ i, i < added.length → ∃ args rb, scene[i]? = some args ∧ added[i]? = some rb
              ∧ rb.vertices = (body_geometry env args).1
              ∧ rb.edges = (body_geometry env args).2.2
              ∧ rb.density = args.density ∧ rb.is_oriented = args.oriented)
          ∧ ((read_loop env scene st).2 = none → added.length = scene.length)
          ∧ (∀ e, (read_loop env scene st).2 = some e →
              ∃ args st_k, scene[added.length]? = some args
                ∧ read_loop env (scene.take added.length) st = (st_k, none)
                ∧ st_k.rbs = st.rbs ++ added
                ∧ read_body env args st_k = .error e) := by
  intro scene
  induction scene with
  | nil =>
    intro st
    refine ⟨[], by simp [read_loop], le_refl _, fun i hi => absurd hi (Nat.not_lt_zero i),
      fun _ => rfl, ?_⟩
    intro e he
    simp [read_loop] at he
  | cons args rest ih =>
    intro st
    cases hb : read_body env args st with
    | error e0 =>
      have hl : read_loop env (args :: rest) st = (st, some e0) := by
        simp only [read_loop, hb]
      rw [hl]
      refine ⟨[], by simp, Nat.zero_le _, fun i hi => absurd hi (Nat.not_lt_zero i), ?_, ?_⟩
      · intro h; cases h
      · intro e he
        simp only [Option.some.injEq] at he
        subst he
        exact ⟨args, st, by simp, rfl, by simp, hb⟩
    | ok st1 =>
      have hl : read_loop env (args :: rest) st = read_loop env rest st1 := by
        simp only [read_loop, hb]
      obtain ⟨rb, hrbs, hv, he, hd, ho⟩ := read_body_appends env args st st1 hb
      obtain ⟨added, h1, h2, h3, h4, h5⟩ := ih st1
      rw [hl]
      refine ⟨rb :: added, by rw [h1, hrbs]; simp, by simpa using h2, ?_, ?_, ?_⟩
      · intro i hi
        cases i with
        | zero => exact ⟨args, rb, by simp, by simp, hv, he, hd, ho⟩
        | succ i =>
          obtain ⟨a, r, ha, hr, hrest⟩ := h3 i (by simpa using hi)
          exact ⟨a, r, by simpa using ha, by simpa using hr, hrest⟩
      · intro hn
        simp [h4 hn]
      · intro e he2
        obtain ⟨a, st_k, ha, hk, hrk, hbk⟩ := h5 e he2
        refine ⟨a, st_k, by simpa using ha, ?_, by rw [hrk, hrbs]; simp, hbk⟩
        simp only [List.length_cons, List.take_succ_cons, read_loop, hb]
        exact hk

/-- C30: `read_rb_scene` only appends to `rbs`: the final vector is the one it was given
followed by the bodies added, one for each entry read, in scene order, each built from the
geometry and arguments of its entry.  When it returns, one body was added for every entry.
When it fails, it fails in the loop body for the entry with the 0-based index `k`, the
number of bodies added, and the `k` bodies of the entries before it stay in `rbs`; the
failure is the mixed-dimension error, thrown when `dim` is set and the entry has another
number of columns, or else the failure of one of the five assertions on the sizes of the
arrays of the entry. -/
theorem read_rb_scene_appends (env : ReaderEnv) (scene : List BodyArgs)
    (rbs : List RigidBody) :
    ∃ added : List RigidBody,
      (read_rb_scene env scene rbs).1 = rbs ++ added
        ∧ added.length ≤ scene.length
        ∧ (∀ i, i < added.length → ∃ args rb, scene[i]? = some args ∧ added[i]? = some rb
            ∧ rb.vertices = (body_geometry env args).1
            ∧ rb.edges = (body_geometry env args).2.2
            ∧ rb.density = args.density ∧ rb.is_oriented = args.oriented)
        ∧ (∀ dim, (read_rb_scene env scene rbs).2 = .ok dim → added.length = scene.length)
        ∧ (∀ e, (read_rb_scene env scene rbs).2 = .error e →
            added.length < scene.length
              ∧ ∃ args st_k, scene[added.length]? = some args
                ∧ read_loop env (scene.take added.length)
                    ⟨-1, env.ndof0, env.angular_dim0, rbs, []⟩ = (st_k, none)
                ∧ st_k.rbs = rbs ++ added
                ∧ read_body env args st_k = .error e
                ∧ ((e = Error.NotImplementedError
                        "Mixing 2D and 3D bodies are not currently allowed."
                      ∧ st_k.dim ≠ -1 ∧ st_k.dim ≠ (body_cols env args : ℤ))
                    ∨ ((∃ what, e = Error.AssertionFailure what)
                      ∧ ∃ st1, check_dim (body_geometry env args).1 st_k = .ok st1
                        ∧ ¬ SizesOk st1.dim st1.ndof st1.angular_dim args))) := by
  obtain ⟨added, h1, h2, h3, h4, h5⟩ :=
    read_loop_appends env scene ⟨-1, env.ndof0, env.angular_dim0, rbs, []⟩
  refine ⟨added, h1, h2, h3, ?_, ?_⟩
  · intro dim hd
    apply h4
    unfold read_rb_scene at hd
    cases hr : (read_loop env scene ⟨-1, env.ndof0, env.angular_dim0, rbs, []⟩).2 with
    | none => rfl
    | some e => simp [hr] at hd
  · intro e he
    have hr : (read_loop env scene ⟨-1, env.ndof0, env.angular_dim0, rbs, []⟩).2 = some e := by
      unfold read_rb_scene at he
      cases hr : (read_loop env scene ⟨-1, env.ndof0, env.angular_dim0, rbs, []⟩).2 with
      | none => simp [hr] at he
      | some e2 =>
        simp only [hr, Except.error.injEq] at he
        rw [he]
    obtain ⟨args, st_k, ha, hk, hrk, hbk⟩ := h5 e hr
    have hlt : added.length < scene.length := by
      by_contra hge
      rw [List.getElem?_eq_none (not_lt.mp hge)] at ha
      cases ha
    exact ⟨hlt, args, st_k, ha, hk, hrk, hbk, read_body_throws env args st_k e hbk⟩

/-- The failure of `read_rb_scene` is not atomic: for a 2D body followed by a 3D body it
throws, and `rbs` has been extended by the 2D body. -/
theorem read_rb_scene_partial_example :
    (read_rb_scene example_env [example_body_2d, example_body_3d] []).2
        = .error (Error.NotImplementedError
            "Mixing 2D and 3D bodies are not currently allowed.")
      ∧ (read_rb_scene example_env [example_body_2d, example_body_3d] []).1.length = 1 := by
  constructor <;>
    simp [read_rb_scene, read_loop, read_body, check_dim, body_geometry, example_body_2d,
      example_body_3d, example_env, conservativeResize, dim_to_ndof]

/-- A 2D body followed by an entry with a `position` array that is too short: the load
aborts on the assertion for the second entry, and `rbs` has been extended by the 2D
body. -/
theorem read_rb_scene_abort_example :
    (read_rb_scene example_env [example_body_2d, example_body_short] []).2
        = .error (Error.AssertionFailure "position.size() >= dim")
      ∧ (read_rb_scene example_env [example_body_2d, example_body_short] []).1.length = 1 := by
  constructor <;>
    simp [read_rb_scene, read_loop, read_body, check_dim, body_geometry, example_body_2d,
      example_body_short, example_env, conservativeResize, dim_to_ndof]

end ccd
